import Mathlib

/-! A verification development for `grid.h`

A shallow embedding of the dense 2-D container `grid<T>` of `grid.h` and of the
operations built on it (element access, resize, elementwise arithmetic, matrix
product, LU decomposition, Gauss-Jordan inversion, transpose, quicksort by
column), followed by theorems about them.

Modelling conventions.

* A `grid<T>` is the triple of its members `nr`, `nc`, `sto`; `sto` is a list.
* `size_t` is taken 64 bits wide.  `init` and `initnew` take their sizes from
  the caller, so their products `r * c`, `r * c * 2` and `nr * nc`, and the
  product `nr * nc` of `invariant`, are computed modulo `2^64`, as the code
  computes them.  The unsigned subtraction `nr - 1` with `nr = 0` (in `LU` and
  `sort`) is modelled explicitly.  Everywhere else the dimensions are taken
  within the range of `int` (below `2^31`), the type in which `rows()` and
  `cols()` report them and in which the constructors and the loop counters
  take them, and the offsets within the storage, so that no conversion or
  product changes a value.
* Memory is unbounded: `resize` and the constructors always obtain their
  storage.
* The element type `T` is a type parameter with its own arithmetic and
  comparisons; definitions assume no law of arithmetic.  `Dbl` is the type
  `double` (IEEE 754 binary64, every operation rounded once to nearest, ties
  to even, no fused multiply-add); exact arithmetic is a semiring or an ordered
  field, as the statement at hand says.
* A failed `assert` is the result `Res.err Fault.assertion`; `exit(1)` is
  `Fault.fatal`; an unchecked read or write outside `sto` is `Fault.undefined`.
* A `for (int i = lo; i < hi; ++i)` loop is `forLoop lo hi body`.
* `const` member functions and by-value results are pure functions: their
  arguments are unchanged by construction.
-/

namespace GridSpec

/-- Ways in which an operation can stop without a result. -/
inductive Fault where
  | assertion
  | fatal
  | undefined
  | fuel
deriving DecidableEq, Repr

/-- Result of an operation that may hit a failed assertion or a fatal exit. -/
inductive Res (α : Type) where
  | ok (a : α)
  | err (f : Fault)
deriving DecidableEq, Repr

namespace Res

/-- Sequencing: the first failure stops the computation. -/
def bind {α β : Type} (x : Res α) (f : α → Res β) : Res β :=
  match x with
  | ok a => f a
  | err e => err e

instance : Monad Res where
  pure := Res.ok
  bind := Res.bind

end Res

/-- The `assert(cond)` statement. -/
def assert (c : Bool) : Res Unit :=
  if c then Res.ok () else Res.err Fault.assertion

/-- Body of `for (i = lo; ...; ++i)` run `n` times from counter value `i`. -/
def loopFrom {σ : Type} (body : Nat → σ → Res σ) : Nat → Nat → σ → Res σ
  | 0, _, s => Res.ok s
  | n + 1, i, s => body i s >>= loopFrom body n (i + 1)

/-- The loop `for (int i = lo; i < hi; ++i) body`. -/
def forLoop {σ : Type} (lo hi : Nat) (body : Nat → σ → Res σ) (s : σ) : Res σ :=
  loopFrom body (hi - lo) lo s

/-! ### The element type `double` -/

/-- A value of the C++ type `double` in the IEEE 754 binary64 format, given by
its three fields: the sign bit `neg`, the 11-bit exponent field `ex` and the
52-bit fraction field `fr`.  With `ex = 0` the magnitude is `fr * 2^(-1074)`
(the zeros and the subnormal numbers), with `0 < ex < 2047` it is
`(2^52 + fr) * 2^(ex - 1075)`, and `ex = 2047` is an infinity when `fr = 0` and
a NaN otherwise.  The fields are below `2^11` and `2^52`.  The operations
below are those of the default floating-point environment: each one is
rounded once, to nearest, ties to even; all NaNs behave alike and every
operation that produces one returns `nan`.  Equality of two values of this
type is the identity of their fields; the C++ operator `==` differs from it on
a NaN (unequal to itself) and on the two zeros (equal to each other). -/
structure Dbl where
  neg : Bool
  ex : Nat
  fr : Nat
deriving DecidableEq, Repr

namespace Dbl

/-- The NaN that the operations return (a quiet NaN). -/
def nan : Dbl := { neg := false, ex := 2047, fr := 2 ^ 51 }

/-- The infinity of sign `s`. -/
def inf (s : Bool) : Dbl := { neg := s, ex := 2047, fr := 0 }

/-- The zero of sign `s`. -/
def zero (s : Bool) : Dbl := { neg := s, ex := 0, fr := 0 }

/-- Whether the value is a NaN. -/
def isNaN (x : Dbl) : Bool := decide (x.ex = 2047) && !decide (x.fr = 0)

/-- Whether the value is an infinity. -/
def isInf (x : Dbl) : Bool := decide (x.ex = 2047) && decide (x.fr = 0)

/-- Whether the value is one of the two zeros. -/
def isZero (x : Dbl) : Bool := decide (x.ex = 0) && decide (x.fr = 0)

/-- The integer significand of a finite value: its magnitude is
`man * 2^exp2`. -/
def man (x : Dbl) : Nat := if x.ex = 0 then x.fr else 2 ^ 52 + x.fr

/-- The exponent of the unit in the last place of a finite value. -/
def exp2 (x : Dbl) : Int := if x.ex = 0 then -1074 else (x.ex : Int) - 1075

/-- The binary64 value of sign `s` and magnitude `m * 2^p`, for a significand
`m <= 2^53` at the exponent `p >= -1074` chosen by `rnd`; a magnitude of
`2^1024` or more is the infinity. -/
def pack (s : Bool) (m : Nat) (p : Int) : Dbl :=
  if m < 2 ^ 52 then { neg := s, ex := 0, fr := m }
  else
    let m1 : Nat := if m = 2 ^ 53 then 2 ^ 52 else m
    let p1 : Int := if m = 2 ^ 53 then p + 1 else p
    let e : Int := p1 + 1075
    if e ≥ 2047 then inf s else { neg := s, ex := e.toNat, fr := m1 - 2 ^ 52 }

/-- Halving loop of `ilog2`, bounded by `fuel`. -/
def ilog2Aux : Nat → Nat → Nat
  | 0, _ => 0
  | fuel + 1, n => if n < 2 then 0 else ilog2Aux fuel (n / 2) + 1

/-- The integer part of the base-2 logarithm of `n > 0`: the position of the
leading binary digit. -/
def ilog2 (n : Nat) : Nat := ilog2Aux n n

/-- Rounding to nearest, ties to even: the binary64 value of sign `s` nearest
to the magnitude `n / d * 2^e`, for `n > 0` and `d > 0`.  The exponent `fl` is
the integer part of the base-2 logarithm of the magnitude, `p` the exponent of
the unit in the last place at that size, and `m` the quotient of the magnitude
by `2^p` rounded to the nearest integer, to the even one of two nearest. -/
def rnd (s : Bool) (n d : Nat) (e : Int) : Dbl :=
  let l : Int := (ilog2 n : Int) - (ilog2 d : Int)
  let below : Bool :=
    if 0 ≤ l then decide (n < d * 2 ^ l.toNat) else decide (n * 2 ^ (-l).toNat < d)
  let fl : Int := (if below then l - 1 else l) + e
  let p : Int := max fl (-1022) - 52
  let sh : Int := e - p
  let nn : Nat := if 0 ≤ sh then n * 2 ^ sh.toNat else n
  let dd : Nat := if 0 ≤ sh then d else d * 2 ^ (-sh).toNat
  let q : Nat := nn / dd
  let r : Nat := nn % dd
  let m : Nat := if 2 * r > dd ∨ (2 * r = dd ∧ q % 2 = 1) then q + 1 else q
  pack s m p

/-- The value of a decimal literal or of a converted integer: the magnitude
`n / d` with sign `s`, correctly rounded. -/
def ofQ (s : Bool) (n d : Nat) : Dbl :=
  if n = 0 then zero s else rnd s n d 0

/-- Unary minus: the sign bit is flipped. -/
def neg1 (x : Dbl) : Dbl := { neg := !x.neg, ex := x.ex, fr := x.fr }

/-- The function `fabs`: the sign bit is cleared. -/
def fabs (x : Dbl) : Dbl := { neg := false, ex := x.ex, fr := x.fr }

/-- A finite value as the integer multiple of `2^p` that it is, for `p` at most
its own exponent. -/
def scaled (x : Dbl) (p : Int) : Int :=
  (if x.neg then -1 else 1) * ((x.man * 2 ^ (x.exp2 - p).toNat : Nat) : Int)

/-- Addition, rounded once. -/
def add (x y : Dbl) : Dbl :=
  if x.isNaN || y.isNaN then nan
  else if x.isInf then (if y.isInf && (x.neg != y.neg) then nan else x)
  else if y.isInf then y
  else
    let p : Int := min x.exp2 y.exp2
    let t : Int := x.scaled p + y.scaled p
    if t = 0 then zero (x.neg && y.neg)
    else rnd (decide (t < 0)) t.natAbs 1 p

/-- Subtraction: the sum with the negated second operand. -/
def sub (x y : Dbl) : Dbl := add x (neg1 y)

/-- Multiplication, rounded once. -/
def mul (x y : Dbl) : Dbl :=
  if x.isNaN || y.isNaN then nan
  else if x.isInf || y.isInf then
    (if x.isZero || y.isZero then nan else inf (x.neg != y.neg))
  else if x.isZero || y.isZero then zero (x.neg != y.neg)
  else rnd (x.neg != y.neg) (x.man * y.man) 1 (x.exp2 + y.exp2)

/-- Division, rounded once. -/
def div (x y : Dbl) : Dbl :=
  if x.isNaN || y.isNaN then nan
  else if x.isInf then (if y.isInf then nan else inf (x.neg != y.neg))
  else if y.isInf then zero (x.neg != y.neg)
  else if y.isZero then (if x.isZero then nan else inf (x.neg != y.neg))
  else if x.isZero then zero (x.neg != y.neg)
  else rnd (x.neg != y.neg) x.man y.man (x.exp2 - y.exp2)

/-- The signed integer that orders the values other than NaN as the numbers
they stand for; both zeros have the key 0. -/
def key (x : Dbl) : Int :=
  (if x.neg then -1 else 1) * ((x.ex * 2 ^ 52 + x.fr : Nat) : Int)

/-- The comparison `x < y`, false when an operand is a NaN. -/
def lt (x y : Dbl) : Bool := !x.isNaN && !y.isNaN && decide (x.key < y.key)

/-- The comparison `x <= y`, false when an operand is a NaN. -/
def le (x y : Dbl) : Bool := !x.isNaN && !y.isNaN && decide (x.key ≤ y.key)

/-- The exact rational number a finite value stands for. -/
def toRat (x : Dbl) : ℚ :=
  (if x.neg then -1 else 1) * (x.man : ℚ) * (2 : ℚ) ^ x.exp2

instance : Zero Dbl := ⟨zero false⟩

instance : One Dbl := ⟨{ neg := false, ex := 1023, fr := 0 }⟩

instance : Add Dbl := ⟨add⟩

instance : Sub Dbl := ⟨sub⟩

instance : Mul Dbl := ⟨mul⟩

instance : Div Dbl := ⟨div⟩

instance : Neg Dbl := ⟨neg1⟩

instance : LT Dbl := ⟨fun x y => lt x y = true⟩

instance : LE Dbl := ⟨fun x y => le x y = true⟩

instance : DecidableRel (fun (a b : Dbl) => a < b) :=
  fun a b => inferInstanceAs (Decidable (lt a b = true))

instance : DecidableRel (fun (a b : Dbl) => a ≤ b) :=
  fun a b => inferInstanceAs (Decidable (le a b = true))

end Dbl

/-- The function `fabs` of `<cmath>` on the element type. -/
class Fabs (T : Type) where
  fabs : T → T

/-- On `double`, `fabs` clears the sign bit. -/
instance : Fabs Dbl := ⟨Dbl.fabs⟩

/-- In exact arithmetic (an ordered field) `fabs` is the absolute value. -/
instance {T : Type} [LinearOrderedField T] : Fabs T := ⟨fun x => |x|⟩

/-- The class `grid<T>`: `nr` rows, `nc` columns, flat storage `sto`. -/
structure grid (T : Type) where
  nr : Nat
  nc : Nat
  sto : List T
deriving DecidableEq, Repr

namespace grid

variable {T : Type}

/-- The number of values of the type `size_t`, taken 64 bits wide.  A product
of two `size_t` values is the mathematical product modulo this number. -/
def sizeLimit : Nat := 2 ^ 64

/-- The private `initnew(r, c)`: `sto.resize(r * c)` keeps the leading elements
and value-initialises the new ones.  The new size `r * c` is a `size_t`
product, which wraps. -/
def initnew [Zero T] (g : grid T) (r c : Nat) : grid T :=
  { nr := r, nc := c,
    sto := g.sto.take (r * c % sizeLimit) ++
      List.replicate (r * c % sizeLimit - g.sto.length) 0 }

/-- The private `freegrid()`. -/
def freegrid [Zero T] (g : grid T) : grid T := g.initnew 0 0

/-- The private `inrange(r, c)`. -/
def inrange (g : grid T) (r c : Nat) : Bool :=
  decide (r < g.nr) && decide (c < g.nc) && decide (g.sto.length > 0)

/-- The private `invariant()`: `sto.size() == nr * nc`, a comparison of two
`size_t` values, the right one a product that wraps.  The size of a vector is
below `2^64`, so the reduction on the left changes nothing for a vector that
exists. -/
def invariant (g : grid T) : Bool :=
  decide (g.sto.length % sizeLimit = g.nr * g.nc % sizeLimit)

/-- Constructor `grid()`. -/
def mk0 : grid T := { nr := 0, nc := 0, sto := [] }

/-- Constructor `grid(int r)`, for `r >= 0`. -/
def mk1 [Zero T] (r : Nat) : grid T :=
  { nr := r, nc := 1, sto := List.replicate r 0 }

/-- Constructor `grid(int r, int c)`, for `r, c >= 0`. -/
def mk2 [Zero T] (r c : Nat) : grid T :=
  { nr := r, nc := c, sto := List.replicate (r * c) 0 }

/-- Accessor `rows()`. -/
def rows (g : grid T) : Nat := g.nr

/-- Accessor `cols()`. -/
def cols (g : grid T) : Nat := g.nc

/-- Accessor `storage()`. -/
def storage (g : grid T) : List T := g.sto

/-- Copy constructor `grid(const grid &m)`. -/
def copy (m : grid T) : grid T :=
  { nr := m.rows, nc := m.cols, sto := m.storage }

/-- The unchecked `operator[](r)`, read. -/
def idx (g : grid T) (i : Nat) : Res T :=
  match g.sto[i]? with
  | some v => Res.ok v
  | none => Res.err Fault.undefined

/-- The unchecked `operator[](r)`, write through the returned reference. -/
def setIdx (g : grid T) (i : Nat) (v : T) : Res (grid T) :=
  if i < g.sto.length then Res.ok { g with sto := g.sto.set i v }
  else Res.err Fault.undefined

/-- The checked `operator()(r, c)`, read: `assert(inrange(r, c))` then
`sto[c * nr + r]`. -/
def at2 (g : grid T) (r c : Nat) : Res T :=
  if g.inrange r c then g.idx (c * g.nr + r) else Res.err Fault.assertion

/-- The checked `operator()(r, c)`, write through the returned reference. -/
def put2 (g : grid T) (r c : Nat) (v : T) : Res (grid T) :=
  if g.inrange r c then g.setIdx (c * g.nr + r) v else Res.err Fault.assertion

/-- The checked `operator()(r)`, read: `assert(inrange(r, 0))` then `sto[r]`. -/
def at1 (g : grid T) (r : Nat) : Res T :=
  if g.inrange r 0 then g.idx r else Res.err Fault.assertion

/-- The checked `operator()(r)`, write through the returned reference. -/
def put1 (g : grid T) (r : Nat) (v : T) : Res (grid T) :=
  if g.inrange r 0 then g.setIdx r v else Res.err Fault.assertion

/-- The public `init(r, c)`.  The three products of the test are `size_t`
products, which wrap. -/
def init [Zero T] (g : grid T) (r c : Nat) : grid T :=
  if r > 0 ∧ c > 0 ∧ r * c % sizeLimit ≤ g.nr * g.nc % sizeLimit ∧
      r * c * 2 % sizeLimit ≥ g.nr * g.nc % sizeLimit then
    { g with nr := r, nc := c }
  else
    g.freegrid.initnew r c

/-- The public `clear(val)`: `std::fill` over the whole of `sto`. -/
def clear (g : grid T) (val : T) : grid T :=
  { g with sto := List.replicate g.sto.length val }

/-- The member `operator=(const grid &m)`, for `this != &m`. -/
def assign (_g m : grid T) : grid T :=
  { nr := m.nr, nc := m.nc, sto := m.storage }

/-- The member `operator+=(const grid &m)`. -/
def addAssign [Add T] (g m : grid T) : Res (grid T) := do
  assert (g.invariant && m.invariant)
  assert (decide (g.nr = m.nr) && decide (g.nc = m.nc))
  let g1 ← forLoop 0 (g.nr * g.nc) (fun i s => do
    let x ← s.idx i
    let y ← m.idx i
    s.setIdx i (x + y)) g
  assert (g1.invariant && m.invariant)
  pure g1

/-- The member `operator-=(const grid &m)`. -/
def subAssign [Sub T] (g m : grid T) : Res (grid T) := do
  assert (g.invariant && m.invariant)
  assert (decide (g.nr = m.nr) && decide (g.nc = m.nc))
  let g1 ← forLoop 0 (g.nr * g.nc) (fun i s => do
    let x ← s.idx i
    let y ← m.idx i
    s.setIdx i (x - y)) g
  assert (g1.invariant && m.invariant)
  pure g1

/-- The free `operator+(m, n)`: `grid<T> p = m; return (p += n);`. -/
def add [Add T] (m n : grid T) : Res (grid T) :=
  (copy m).addAssign n

/-- The free `operator-(m, n)`: `grid<T> p = m; return (p -= n);`. -/
def sub [Sub T] (m n : grid T) : Res (grid T) :=
  (copy m).subAssign n

/-- Innermost statement of `operator*`:
`tmp(i, j) += (*this)(i, k) * m(k, j)`. -/
def mulCell [Add T] [Mul T] (a m : grid T) (i j k : Nat) (tmp : grid T) :
    Res (grid T) := do
  let x ← a.at2 i k
  let y ← m.at2 k j
  let t ← tmp.at2 i j
  tmp.put2 i j (t + x * y)

/-- The member `operator*(const grid &m)`. -/
def mul [Zero T] [Add T] [Mul T] (a m : grid T) : Res (grid T) := do
  assert (a.invariant && m.invariant)
  assert (decide (a.nc = m.nr))
  let tmp0 : grid T := (mk2 a.nr m.nc).clear 0
  let tmp ← forLoop 0 a.nr (fun i s =>
    forLoop 0 m.nc (fun j s =>
      forLoop 0 a.nc (fun k s => mulCell a m i j k s) s) s) tmp0
  assert (a.invariant && m.invariant && tmp.invariant)
  pure tmp

/-- The member `transpose()`. -/
def transpose [Zero T] (g : grid T) : Res (grid T) := do
  let tp0 : grid T := mk2 g.nc g.nr
  assert g.invariant
  let tp ← forLoop 0 g.nc (fun i s =>
    forLoop 0 g.nr (fun j s => do
      let v ← g.at2 j i
      s.put2 i j v) s) tp0
  assert (g.invariant && tp.invariant)
  pure tp

/-- First inner loop of `LU`: `tmp(j, i) /= tmp(i, i)` for `j` in `(i, n)`. -/
def LUscale [Div T] (n i : Nat) (tmp : grid T) : Res (grid T) :=
  forLoop (i + 1) n (fun j s => do
    let a ← s.at2 j i
    let b ← s.at2 i i
    s.put2 j i (a / b)) tmp

/-- Second inner loop nest of `LU`: `tmp(j, k) -= tmp(j, i) * tmp(i, k)`. -/
def LUelim [Sub T] [Mul T] (n i : Nat) (tmp : grid T) : Res (grid T) :=
  forLoop (i + 1) n (fun j s =>
    forLoop (i + 1) n (fun k s => do
      let x ← s.at2 j k
      let a ← s.at2 j i
      let b ← s.at2 i k
      s.put2 j k (x - a * b)) s) tmp

/-- Body of the outer loop of `LU` for pivot column `i`. -/
def LUstep [Sub T] [Mul T] [Div T] (n i : Nat) (tmp : grid T) : Res (grid T) :=
  LUscale n i tmp >>= LUelim n i

/-- State of `tmp` in `LU` after the first `k` rounds of the outer loop. -/
def LUprefix [Sub T] [Mul T] [Div T] (g : grid T) (k : Nat) : Res (grid T) :=
  forLoop 0 k (LUstep g.nr) (copy g)

/-- The member `LU()`.  The loop bound `nr - 1` is unsigned: with `nr = 0` it
wraps to the largest `size_t`, every round is empty and the `int` counter
finally overflows, which is undefined. -/
def LU [Sub T] [Mul T] [Div T] (g : grid T) : Res (grid T) := do
  assert g.invariant
  assert (decide (g.nr = g.nc))
  let tmp ← if g.nr = 0 then Res.err Fault.undefined else g.LUprefix (g.nr - 1)
  assert (g.invariant && tmp.invariant)
  pure tmp

/-- The statement `std::swap(g(r1, c1), g(r2, c2))`. -/
def swap2 (g : grid T) (r1 c1 r2 c2 : Nat) : Res (grid T) := do
  let a ← g.at2 r1 c1
  let b ← g.at2 r2 c2
  let g1 ← g.put2 r1 c1 b
  g1.put2 r2 c2 a

/-- The statement `std::swap(p(r1), p(r2))`. -/
def swap1 (p : grid T) (r1 r2 : Nat) : Res (grid T) := do
  let a ← p.at1 r1
  let b ← p.at1 r2
  let p1 ← p.put1 r1 b
  p1.put1 r2 a

/-- Pivot search of `inverse` in column `j`: the largest absolute value from
row `j` downward and the first row holding it. -/
def invPivot [Fabs T] [LT T] [DecidableRel (fun (a b : T) => a < b)] (n j : Nat)
    (tmp : grid T) : Res (T × Nat) := do
  let d ← tmp.at2 j j
  forLoop (j + 1) n (fun i (s : T × Nat) => do
    let v ← tmp.at2 i j
    if Fabs.fabs v > s.1 then pure (Fabs.fabs v, i) else pure s) (Fabs.fabs d, j)

/-- Row exchange of `inverse`: when `r > j`, swap rows `j` and `r` of `tmp` and
the entries `j` and `r` of `p`. -/
def invSwap (n j r : Nat) (s : grid T × grid Nat) : Res (grid T × grid Nat) :=
  if r > j then do
    let tmp ← forLoop 0 n (fun k t => t.swap2 j k r k) s.1
    let p ← s.2.swap1 j r
    pure (tmp, p)
  else pure s

/-- Elimination part of a round of `inverse` with pivot `(j, j)`. -/
def invElim [One T] [Neg T] [Sub T] [Mul T] [Div T] (n j : Nat) (tmp : grid T) :
    Res (grid T) := do
  let d ← tmp.at2 j j
  let hr : T := 1 / d
  let t1 ← forLoop 0 n (fun i t => do
    let v ← t.at2 i j
    t.put2 i j (v * hr)) tmp
  let t2 ← t1.put2 j j hr
  forLoop 0 n (fun k t =>
    if k = j then pure t else do
      let t3 ← forLoop 0 n (fun i u =>
        if i = j then pure u else do
          let x ← u.at2 i k
          let a ← u.at2 i j
          let b ← u.at2 j k
          u.put2 i k (x - a * b)) t
      let v ← t3.at2 j k
      t3.put2 j k (v * (-hr))) t2

/-- One round of the main loop of `inverse`, for column `j`.  The test
`max == 0.0` is the equality with the zero value: `max` is a result of `fabs`
and so carries no sign. -/
def invStep [Zero T] [One T] [Neg T] [Sub T] [Mul T] [Div T] [Fabs T] [LT T]
    [DecidableRel (fun (a b : T) => a < b)] [DecidableEq T] (n j : Nat)
    (s : grid T × grid Nat) : Res (grid T × grid Nat) := do
  let mr ← invPivot n j s.1
  if mr.1 = 0 then Res.err Fault.fatal else do
    let s1 ← invSwap n j mr.2 s
    let t ← invElim n j s1.1
    pure (t, s1.2)

/-- Final loop of `inverse`: every row `i` of `tmp` is rearranged through `hv`
so that the entry of column `k` goes to column `p(k)`. -/
def invUnscramble (n : Nat) (p : grid Nat) (s : grid T × grid T) :
    Res (grid T × grid T) :=
  forLoop 0 n (fun i s => do
    let s1 ← forLoop 0 n (fun k (u : grid T × grid T) => do
      let pk ← p.at1 k
      let v ← u.1.at2 i k
      let hv ← u.2.put1 pk v
      pure (u.1, hv)) s
    forLoop 0 n (fun k (u : grid T × grid T) => do
      let v ← u.2.at1 k
      let t ← u.1.put2 i k v
      pure (t, u.2)) s1) s

/-- The member `inverse()`.  The element type supplies its own arithmetic,
comparison and `fabs`: those of `double`, or those of an ordered field for
exact arithmetic.  The scratch row `hv`, a `grid<double>` in the source, has
the element type here, which is the same for `double` elements. -/
def inverse [Zero T] [One T] [Neg T] [Sub T] [Mul T] [Div T] [Fabs T] [LT T]
    [DecidableRel (fun (a b : T) => a < b)] [DecidableEq T] (g : grid T) :
    Res (grid T) := do
  let tmp0 : grid T := copy g
  assert g.invariant
  assert (decide (g.nr = g.nc))
  let p0 : grid Nat := mk1 g.nr
  let p1 ← forLoop 0 g.nr (fun j p => p.put1 j j) p0
  let hv0 : grid T := (mk1 g.nr).clear 0
  let s ← forLoop 0 g.nr (invStep g.nr) (tmp0, p1)
  let u ← invUnscramble g.nr s.2 (s.1, hv0)
  assert (g.invariant && u.1.invariant)
  pure u.1

/-- Checked read `(*this)(i, c)` with an `int` row index: a negative index
converts to a huge `size_t` and fails the range assertion. -/
def atI (g : grid T) (i : Int) (c : Nat) : Res T :=
  if i < 0 then Res.err Fault.assertion else g.at2 i.toNat c

/-- The row exchange of `sort`:
`for (k = 0; k < nc; ++k) std::swap((*this)(i, k), (*this)(j, k))`. -/
def swapRows (g : grid T) (i j : Int) : Res (grid T) :=
  forLoop 0 g.nc (fun k s =>
    if i < 0 ∨ j < 0 then Res.err Fault.assertion
    else s.swap2 i.toNat k j.toNat k) g

/-- The loop `while ((*this)(i, col) < midval && i < right) ++i;`. -/
def scanUp [LT T] [DecidableRel (fun (a b : T) => a < b)] (g : grid T) (col : Nat)
    (midval : T) (right : Int) : Nat → Int → Res Int
  | 0, _ => Res.err Fault.fuel
  | fuel + 1, i => do
    let v ← g.atI i col
    if v < midval ∧ i < right then scanUp g col midval right fuel (i + 1)
    else pure i

/-- The loop `while (midval < (*this)(j, col) && j > left) --j;`. -/
def scanDown [LT T] [DecidableRel (fun (a b : T) => a < b)] (g : grid T) (col : Nat)
    (midval : T) (left : Int) : Nat → Int → Res Int
  | 0, _ => Res.err Fault.fuel
  | fuel + 1, j => do
    let v ← g.atI j col
    if midval < v ∧ j > left then scanDown g col midval left fuel (j - 1)
    else pure j

/-- Body of the `do { ... } while (i <= j)` loop of `sort`, on the state
`(grid, i, j)`: the two scans, then the row exchange when `i <= j`. -/
def partBody [LT T] [DecidableRel (fun (a b : T) => a < b)] (col : Nat) (midval : T)
    (left right : Int) (s : grid T × Int × Int) : Res (grid T × Int × Int) := do
  let i1 ← scanUp s.1 col midval right ((right - s.2.1).toNat + 1) s.2.1
  let j1 ← scanDown s.1 col midval left ((s.2.2 - left).toNat + 1) s.2.2
  if i1 ≤ j1 then do
    let g1 ← s.1.swapRows i1 j1
    pure (g1, i1 + 1, j1 - 1)
  else pure (s.1, i1, j1)

/-- The `do { ... } while (i <= j)` loop of `sort`. -/
def partLoop [LT T] [DecidableRel (fun (a b : T) => a < b)] (col : Nat) (midval : T)
    (left right : Int) : Nat → grid T × Int × Int → Res (grid T × Int × Int)
  | 0, _ => Res.err Fault.fuel
  | fuel + 1, s => do
    let s1 ← partBody col midval left right s
    if s1.2.1 ≤ s1.2.2 then partLoop col midval left right fuel s1 else pure s1

/-- The member `sort(col, left, right)`; `fuel` bounds the recursion depth. -/
def sortAux [LT T] [DecidableRel (fun (a b : T) => a < b)] (col : Nat) :
    Nat → grid T → Int → Int → Res (grid T)
  | 0, _, _, _ => Res.err Fault.fuel
  | fuel + 1, g, left0, right0 => do
    let left : Int := if left0 = -1 ∧ right0 = -1 then 0 else left0
    let right : Int := if left0 = -1 ∧ right0 = -1 then (g.nr : Int) - 1 else right0
    let midval ← g.atI (Int.tdiv (left + right) 2) col
    let s ← partLoop col midval left right ((right - left).toNat + 1) (g, left, right)
    let g1 ← if left < s.2.2 then sortAux col fuel s.1 left s.2.2 else pure s.1
    if s.2.1 < right then sortAux col fuel g1 s.2.1 right else pure g1

/-- The call `sort(col)` with the default bounds `left = -1`, `right = -1`. -/
def sort [LT T] [DecidableRel (fun (a b : T) => a < b)] (g : grid T) (col : Nat) :
    Res (grid T) :=
  sortAux col (g.nr + 1) g (-1) (-1)

/-! ### Specification vocabulary -/

/-- The storage invariant in the words of the data model: the flat sequence has
exactly `nr * nc` elements. -/
def WF (g : grid T) : Prop := g.sto.length = g.nr * g.nc

/-- The element of row `r` and column `c` in the column-major layout (the zero
value when the offset `c * nr + r` lies outside the storage). -/
def entry [Zero T] (g : grid T) (r c : Nat) : T := g.sto.getD (c * g.nr + r) 0

/-- The grid `g` with the element at offset `c * nr + r` replaced by `v`. -/
def upd (g : grid T) (r c : Nat) (v : T) : grid T :=
  { g with sto := g.sto.set (c * g.nr + r) v }

/-- Row `r` of the grid as the list of its elements across all columns. -/
def row [Zero T] (g : grid T) (r : Nat) : List T :=
  (List.range g.nc).map (fun c => g.entry r c)

/-- The rows of the grid, from row `0` to row `nr - 1`. -/
def rowList [Zero T] (g : grid T) : List (List T) :=
  (List.range g.nr).map (fun r => g.row r)

/-- Column `c` of the grid, from row `0` to row `nr - 1`. -/
def column [Zero T] (g : grid T) (c : Nat) : List T :=
  (List.range g.nr).map (fun r => g.entry r c)

/-! ### Sample grids -/

/-- A 2 x 3 integer grid holding `10 .. 15` in storage order. -/
def sample23 : grid Int := { nr := 2, nc := 3, sto := [10, 11, 12, 13, 14, 15] }

/-- A 3 x 2 integer grid holding `1 .. 6` in storage order. -/
def sample32 : grid Int := { nr := 3, nc := 2, sto := [1, 2, 3, 4, 5, 6] }

/-- The symmetric 3 x 3 matrix `[[4,3,2],[3,4,3],[2,3,4]]` over the rationals. -/
def sampleQ3 : grid ℚ := { nr := 3, nc := 3, sto := [4, 3, 2, 3, 4, 3, 2, 3, 4] }

/-- The sum of `a(r, x) * m(x, c)` over the first `k` indices `x` of the shared
dimension. -/
def dotPrefix [Semiring T] (a m : grid T) (k r c : Nat) : T :=
  Finset.sum (Finset.range k) (fun x => a.entry r x * m.entry x c)

/-- The value accumulated by `operator*` in one cell: starting from the zero
value, the products `a(r, x) * m(x, c)` for `x = 0, 1, ..., k - 1` are added one
after the other with the element type's own `+` and `*`.  No law of arithmetic
is assumed, so this is also the value a rounding arithmetic produces. -/
def dotFold [Zero T] [Add T] [Mul T] (a m : grid T) (k r c : Nat) : T :=
  (List.range k).foldl (fun acc x => acc + a.entry r x * m.entry x c) 0

/-- Content of cell `(r, c)` of the product while `operator*` is at the loop
counters `(i, j, k)`: finished cells hold the full sum, the current cell the
partial sum, later cells zero. -/
def mulProgress [Zero T] [Add T] [Mul T] (a m : grid T) (i j k r c : Nat) : T :=
  if r < i ∨ (r = i ∧ c < j) then dotFold a m a.nc r c
  else if r = i ∧ c = j then dotFold a m k r c
  else 0

/-- The `n x m` grid whose element `(r, c)` is `f r c`, in column-major order. -/
def ofFn (n m : Nat) (f : Nat → Nat → T) : grid T :=
  { nr := n, nc := m, sto := (List.range (n * m)).map (fun o => f (o % n) (o / n)) }

/-- The unit lower-triangular factor read off an LU result `R`: the entries of
`R` below the diagonal, ones on the diagonal, zeros above. -/
def unitLower [Zero T] [One T] (R : grid T) : grid T :=
  ofFn R.nr R.nc (fun r c => if c < r then R.entry r c else if c = r then 1 else 0)

/-- The upper-triangular factor read off an LU result `R`: the entries of `R` on
and above the diagonal, zeros below. -/
def upper [Zero T] (R : grid T) : grid T :=
  ofFn R.nr R.nc (fun r c => if r ≤ c then R.entry r c else 0)

/-- The pivot `tmp(i, i)` that round `i` of `LU` divides by. -/
def LUpivot [Sub T] [Mul T] [Div T] (g : grid T) (i : Nat) : Res T :=
  g.LUprefix i >>= fun tmp => tmp.at2 i i

/-- Element `(r, c)` of `tmp` after round `k` of `LU`, in terms of the grid `M`
before the round. -/
def luRound [Field T] (M : grid T) (k r c : Nat) : T :=
  if k < r ∧ c = k then M.entry r k / M.entry k k
  else if k < r ∧ k < c then M.entry r c - M.entry r k / M.entry k k * M.entry k c
  else M.entry r c

/-- The element `(r, c)` that the partial factorisation stored in `M` after `k`
rounds stands for: products of the finished multipliers and pivot rows, plus the
entry itself (scaled back by its pivot when it is a finished multiplier). -/
def luSum [Field T] (M : grid T) (k r c : Nat) : T :=
  Finset.sum (Finset.range (min (min r c) k)) (fun x => M.entry r x * M.entry x c) +
    (if c < r ∧ c < k then M.entry r c * M.entry c c else M.entry r c)

/-- Exchange of the values of `f` at `j` and `r`. -/
def swapFn {α : Type} (j r : Nat) (f : Nat → α) (i : Nat) : α :=
  if i = j then f r else if i = r then f j else f i

/-- Element `(i, k)` of `tmp` after the elimination part of a round of
`inverse` with pivot `(j, j)`, in terms of the grid `M` before it. -/
def invRound [Field T] (M : grid T) (j i k : Nat) : T :=
  if k = j then
    (if i = j then 1 / M.entry j j else M.entry i j * (1 / M.entry j j))
  else
    (if i = j then M.entry j k * (-(1 / M.entry j j))
     else M.entry i k - M.entry i j * (1 / M.entry j j) * M.entry j k)

/-- The square matrix of the elements of a grid with as many columns as rows. -/
def sqMatrix [Zero T] (g : grid T) : Matrix (Fin g.nr) (Fin g.nr) T :=
  fun i j => g.entry i.val j.val

/-- The `n x n` grid holding 1 on the diagonal and 0 elsewhere. -/
def identity [Zero T] [One T] (n : Nat) : grid T :=
  ofFn n n (fun r c => if r = c then 1 else 0)

/-- Element `(i, k)` of `tmp` in a round of `inverse` once column `j` has been
multiplied by `hr = 1 / tmp(j, j)` and `tmp(j, j)` set to `hr`. -/
def invScaled [Field T] (M : grid T) (j i k : Nat) : T :=
  if k = j then
    (if i = j then 1 / M.entry j j else M.entry i j * (1 / M.entry j j))
  else M.entry i k

/-- Left-hand side of the exchange tableau of `inverse` after `j` rounds, for
the input `A` and the row labels `π`: row `i` stands for the unit vector `e_i`
once exchanged (`i < j`) and for row `π i` of `A` before. -/
def tabL [Zero T] [One T] (A : grid T) (π : Nat → Nat) (j i c : Nat) : T :=
  if i < j then (if i = c then 1 else 0) else A.entry (π i) c

/-- Right-hand side of the exchange tableau of `inverse` after `j` rounds:
column `k` stands for row `π k` of `A` once exchanged (`k < j`) and for the
unit vector `e_k` before. -/
def tabR [Zero T] [One T] (A : grid T) (π : Nat → Nat) (j k c : Nat) : T :=
  if k < j then A.entry (π k) c else (if k = c then 1 else 0)

/-- The tableau relation kept by the main loop of `inverse`: the left-hand rows
are the combinations, with the coefficients stored in `M`, of the right-hand
rows. -/
def Tableau [Field T] (A M : grid T) (π : Nat → Nat) (n j : Nat) : Prop :=
  ∀ i c, i < n → c < n →
    tabL A π j i c = Finset.sum (Finset.range n) (fun k => M.entry i k * tabR A π j k c)

/-- The function `π` permutes the indices below `n`. -/
def PermOn (π : Nat → Nat) (n : Nat) : Prop :=
  (∀ k, k < n → π k < n) ∧
    (∀ k k', k < n → k' < n → π k = π k' → k = k') ∧
    ∀ c, c < n → ∃ k, k < n ∧ π k = c

/-- The invariant of the main loop of `inverse` before round `j`, on the state
`(tmp, p)`: both grids have the right shape, `p` holds a permutation and `tmp`
holds the coefficients of the tableau. -/
def InvState [Field T] (A : grid T) (n j : Nat) (s : grid T × grid Nat) : Prop :=
  s.1.nr = n ∧ s.1.nc = n ∧ s.1.WF ∧ s.2.nr = n ∧ s.2.nc = 1 ∧ s.2.WF ∧
    PermOn (fun k => s.2.entry k 0) n ∧ Tableau A s.1 (fun k => s.2.entry k 0) n j

/-- The all-zero 2 x 2 matrix over the rationals. -/
def zeroQ2 : grid ℚ := { nr := 2, nc := 2, sto := [0, 0, 0, 0] }

/-- The 1 x 1 rational grid with entry 1 that still holds the two elements of
the 1 x 2 grid it was resized from by `init(1, 1)`. -/
def staleUnit : grid ℚ := { nr := 1, nc := 1, sto := [1, 0] }

/-- The 1 x 1 rational grid with entry 0 that still holds the two elements of
the 1 x 2 grid it was resized from by `init(1, 1)`. -/
def staleZero : grid ℚ := { nr := 1, nc := 1, sto := [0, 0] }

/-- The grid `g'` has the shape of `g` and satisfies the storage invariant. -/
def SameShape (g g' : grid T) : Prop :=
  g'.nr = g.nr ∧ g'.nc = g.nc ∧ g'.WF

/-- The rows of `g'` are the rows of `g` rearranged, each row kept whole, by a
permutation that moves no row outside the index range `[l, r]`. -/
def RowPerm [Zero T] (l r : Int) (g g' : grid T) : Prop :=
  ∃ σ : Equiv.Perm Nat, (∀ x : Nat, (x : Int) < l ∨ r < (x : Int) → σ x = x) ∧
    ∀ x c, x < g.nr → c < g.nc → g'.entry x c = g.entry (σ x) c

/-- Column `col` is in non-decreasing order over the rows `l .. r`. -/
def SortedOn [Zero T] [LE T] (g : grid T) (col : Nat) (l r : Int) : Prop :=
  ∀ x y : Nat, l ≤ (x : Int) → x ≤ y → (y : Int) ≤ r → g.entry x col ≤ g.entry y col

/-- The partition property that the `do ... while` loop of `sort` maintains:
rows below `i` have keys at most `midval`, rows above `j` at least `midval`. -/
def Parted [Zero T] [LE T] (g : grid T) (col : Nat) (midval : T) (left right i j : Int) :
    Prop :=
  (∀ x : Nat, left ≤ (x : Int) → (x : Int) < i → g.entry x col ≤ midval) ∧
    ∀ x : Nat, j < (x : Int) → (x : Int) ≤ right → midval ≤ g.entry x col

/-- The 3 x 2 integer grid with rows `[3, a]`, `[1, b]`, `[2, c]`. -/
def sampleRows (a b c : Int) : grid Int := { nr := 3, nc := 2, sto := [3, 1, 2, a, b, c] }

/-! ### Steal, soft access, subgrid, scaling, counters -/

/-- The member `operator<<(grid &m)` for `this != &m`, on the pair
`(*this, m)`: both invariants are asserted, `*this` is freed and takes the
fields of `m`, `m` is reset by `initnew(0, 0)`, both invariants are asserted
again. -/
def steal [Zero T] (g m : grid T) : Res (grid T × grid T) := do
  assert (g.invariant && m.invariant)
  let g1 : grid T := g.freegrid
  let g2 : grid T := { g1 with nr := m.nr, nc := m.nc, sto := m.storage }
  let m1 : grid T := m.initnew 0 0
  assert (g2.invariant && m1.invariant)
  pure (g2, m1)

/-- The member `operator<<(grid &m)` for `this == &m`: only the two assertions
are evaluated, both on the one grid. -/
def stealSelf (g : grid T) : Res (grid T) := do
  assert (g.invariant && g.invariant)
  assert (g.invariant && g.invariant)
  pure g

/-- The member `set(r, c, val)`. -/
def set (g : grid T) (r c : Nat) (val : T) : Res (grid T) :=
  if g.inrange r c then g.put2 r c val else pure g

/-- The member `get(r, c)`. -/
def get [Zero T] (g : grid T) (r c : Nat) : Res T :=
  if g.inrange r c then g.at2 r c else pure 0

/-- Checked write `(*this)(i, j) = v` with `int` indices. -/
def putI (g : grid T) (i j : Int) (v : T) : Res (grid T) :=
  if i < 0 ∨ j < 0 then Res.err Fault.assertion else g.put2 i.toNat j.toNat v

/-- Checked read `(*this)(i, j)` with `int` indices. -/
def atII (g : grid T) (i j : Int) : Res T :=
  if i < 0 ∨ j < 0 then Res.err Fault.assertion else g.at2 i.toNat j.toNat

/-- The member `subgrid(m, r, c, numrows, numcols)` for `this != m`, returning
the new value of `*m`; the source `*this` is `const`.  The statement written
`m(i, j) = (*this)(r + i, c + j)` on the pointer `m` is read as
`(*m)(i, j) = (*this)(r + i, c + j)`. -/
def subgrid [Zero T] (g m : grid T) (r c numrows numcols : Int) : Res (grid T) := do
  assert (g.invariant && m.invariant)
  assert (decide (r ≥ 0) && decide (c ≥ 0) && decide (numrows ≥ 0) && decide (numcols ≥ 0))
  assert (decide (r + numrows ≤ (g.rows : Int)) && decide (c + numcols ≤ (g.cols : Int)))
  let m1 : grid T := m.init numrows.toNat numcols.toNat
  let m2 ← if g.nr > 0 ∧ g.nc > 0 then
      forLoop 0 m1.nr (fun i s =>
        forLoop 0 m1.nc (fun j s => do
          let v ← g.atII (r + (i : Int)) (c + (j : Int))
          s.put2 i j v) s) m1
    else pure m1
  assert (g.invariant && m2.invariant)
  pure m2

/-- The value `*std::max_element(first, last)`: the largest element under `<`,
the first one among equals; dereferencing fails on an empty range. -/
def maxElem [LT T] [DecidableRel (fun (a b : T) => a < b)] : List T → Res T
  | [] => Res.err Fault.undefined
  | x :: xs => Res.ok (xs.foldl (fun m y => if m < y then y else m) x)

/-- The value `*std::min_element(first, last)`: the smallest element under `<`,
the first one among equals; dereferencing fails on an empty range. -/
def minElem [LT T] [DecidableRel (fun (a b : T) => a < b)] : List T → Res T
  | [] => Res.err Fault.undefined
  | x :: xs => Res.ok (xs.foldl (fun m y => if y < m then y else m) x)

/-- The member `scale(val)`, with the comparisons and the arithmetic of the
element type. -/
def scale [LT T] [DecidableRel (fun (a b : T) => a < b)] [LE T]
    [DecidableRel (fun (a b : T) => a ≤ b)] [Zero T] [Mul T] [Div T] (g : grid T)
    (val : T) : Res (grid T) :=
  if g.rows = 0 ∨ g.cols = 0 then pure g else do
    let gmax ← maxElem g.sto
    if gmax ≤ 0 then pure g else
      forLoop 0 g.nr (fun i s =>
        forLoop 0 g.nc (fun j s => do
          let x ← s.at2 i j
          s.put2 i j (x * val / gmax)) s) g

/-- The member `transform(val1, val2)`, with the comparisons and the arithmetic
of the element type. -/
def transform [LT T] [DecidableRel (fun (a b : T) => a < b)] [Zero T] [Add T] [Sub T]
    [Mul T] [Div T] (g : grid T) (val1 val2 : T) : Res (grid T) :=
  if g.rows = 0 ∨ g.cols = 0 then pure g else do
    let gmin ← minElem g.sto
    let gmax ← maxElem g.sto
    let range : T := gmax - gmin
    let newrange : T := val2 - val1
    let g1 ← if range > 0 then
        forLoop 0 g.nr (fun i s =>
          forLoop 0 g.nc (fun j s => do
            let x ← s.at2 i j
            s.put2 i j ((x - gmin) * newrange / range + val1)) s) g
      else if gmin < val1 then pure (g.clear val1)
      else if gmax > val2 then pure (g.clear val2)
      else pure g
    assert g1.invariant
    pure g1

/-- The member `offpixels()`.  The `return c;` stands inside the body of the
`for` loop, so the body runs at most once, for `i = 0`; when `nr * nc` is 0 the
function ends without a `return`, which is undefined. -/
def offpixels [Zero T] [DecidableEq T] (g : grid T) : Res Int :=
  if 0 < g.nr * g.nc then do
    let x ← g.idx 0
    let c : Int := 0 + (if x = 0 then 1 else 0)
    pure c
  else Res.err Fault.undefined

/-- The member `onpixels()`: `nr * nc - offpixels()`. -/
def onpixels [Zero T] [DecidableEq T] (g : grid T) : Res Int := do
  let off ← g.offpixels
  pure (((g.nr * g.nc : Nat) : Int) - off)

/-- The number of elements of the grid equal to the zero value. -/
def zeroCount [Zero T] [DecidableEq T] (g : grid T) : Nat :=
  g.sto.count 0

/-- The 3 x 1 integer grid holding `7, 8, 9`. -/
def sampleCol : grid Int := { nr := 3, nc := 1, sto := [7, 8, 9] }

/-- The 2 x 2 rational grid holding `1, 2, 4, 3` in storage order. -/
def sampleQ22 : grid ℚ := { nr := 2, nc := 2, sto := [1, 2, 4, 3] }

/-- The 2 x 1 integer grid holding two zeros. -/
def zeroCol : grid Int := { nr := 2, nc := 1, sto := [0, 0] }

/-- The 2 x 1 grid of `double` holding `+infinity` and `1.0`. -/
def dblInfCol : grid Dbl := { nr := 2, nc := 1, sto := [Dbl.inf false, 1] }

/-- The 1 x 1 grid of `double` holding `3.0`. -/
def dblThree : grid Dbl := { nr := 1, nc := 1, sto := [Dbl.ofQ false 3 1] }

/-- The 2 x 1 grid of `double` holding `0.0` and `3.0`. -/
def dblZeroThree : grid Dbl := { nr := 2, nc := 1, sto := [0, Dbl.ofQ false 3 1] }

/-- The singular matrix `[[1,2,3],[4,5,6],[7,8,9]]` as a 3 x 3 grid of `double`,
in storage (column-major) order. -/
def dblSing3 : grid Dbl :=
  { nr := 3, nc := 3,
    sto := [Dbl.ofQ false 1 1, Dbl.ofQ false 4 1, Dbl.ofQ false 7 1, Dbl.ofQ false 2 1,
      Dbl.ofQ false 5 1, Dbl.ofQ false 8 1, Dbl.ofQ false 3 1, Dbl.ofQ false 6 1,
      Dbl.ofQ false 9 1] }

/-- The singular matrix `[[1,2,3],[4,5,6],[7,8,9]]` over the rationals. -/
def ratSing3 : grid ℚ := { nr := 3, nc := 3, sto := [1, 4, 7, 2, 5, 8, 3, 6, 9] }

/-- The integer grid with 0 rows and 2 columns, as built by `grid<int> g(0, 2)`:
no element is stored. -/
def zeroRows : grid Int := { nr := 0, nc := 2, sto := [] }

end grid

/-! ## Sequencing -/

namespace Res

@[simp] theorem ok_bind {α β : Type} (a : α) (f : α → Res β) :
    (Res.ok a >>= f) = f a := rfl

@[simp] theorem err_bind {α β : Type} (e : Fault) (f : α → Res β) :
    (Res.err e >>= f) = Res.err e := rfl

@[simp] theorem pure_eq {α : Type} (a : α) : (pure a : Res α) = Res.ok a := rfl

end Res

/-! ## Loops -/

section Loops

variable {σ : Type}

theorem loopFrom_inv (body : Nat → σ → Res σ) (P : Nat → σ → Prop) :
    ∀ (n i : Nat) (s : σ), P i s →
      (∀ k t, i ≤ k → k < i + n → P k t → ∃ t', body k t = Res.ok t' ∧ P (k + 1) t') →
      ∃ s', loopFrom body n i s = Res.ok s' ∧ P (i + n) s' := by
  intro n
  induction n with
  | zero => intro i s h _; exact ⟨s, rfl, by simpa using h⟩
  | succ n ih =>
    intro i s h hstep
    obtain ⟨t, ht, hP⟩ := hstep i s (le_refl i) (by omega) h
    obtain ⟨s', hs', hP'⟩ := ih (i + 1) t hP (fun k u hk1 hk2 hu =>
      hstep k u (by omega) (by omega) hu)
    refine ⟨s', ?_, ?_⟩
    · simp only [loopFrom, ht, Res.ok_bind, hs']
    · have : i + (n + 1) = i + 1 + n := by omega
      rw [this]; exact hP'

/-- Total-correctness rule for `for` loops: an invariant that holds at entry and
is re-established by every round holds at exit, and the loop returns. -/
theorem forLoop_inv (lo hi : Nat) (body : Nat → σ → Res σ) (P : Nat → σ → Prop)
    (s : σ) (hle : lo ≤ hi) (h0 : P lo s)
    (hstep : ∀ k t, lo ≤ k → k < hi → P k t →
      ∃ t', body k t = Res.ok t' ∧ P (k + 1) t') :
    ∃ s', forLoop lo hi body s = Res.ok s' ∧ P hi s' := by
  have h := loopFrom_inv body P (hi - lo) lo s h0 (fun k t hk1 hk2 hP =>
    hstep k t hk1 (by omega) hP)
  have e : lo + (hi - lo) = hi := by omega
  rw [e] at h
  exact h

theorem loopFrom_inv_or (body : Nat → σ → Res σ) (P : Nat → σ → Prop) (e : Fault) :
    ∀ (n i : Nat) (s : σ), P i s →
      (∀ k t, i ≤ k → k < i + n → P k t →
        (∃ t', body k t = Res.ok t' ∧ P (k + 1) t') ∨ body k t = Res.err e) →
      (∃ s', loopFrom body n i s = Res.ok s' ∧ P (i + n) s') ∨
        loopFrom body n i s = Res.err e := by
  intro n
  induction n with
  | zero => intro i s h _; exact Or.inl ⟨s, rfl, by simpa using h⟩
  | succ n ih =>
    intro i s h hstep
    rcases hstep i s (le_refl i) (by omega) h with ⟨t, ht, hP⟩ | herr
    · rcases ih (i + 1) t hP (fun k u hk1 hk2 hu =>
        hstep k u (by omega) (by omega) hu) with ⟨s', hs', hP'⟩ | herr
      · refine Or.inl ⟨s', ?_, ?_⟩
        · simp only [loopFrom, ht, Res.ok_bind, hs']
        · have : i + (n + 1) = i + 1 + n := by omega
          rw [this]; exact hP'
      · exact Or.inr (by simp only [loopFrom, ht, Res.ok_bind, herr])
    · exact Or.inr (by simp only [loopFrom, herr, Res.err_bind])

/-- Loop rule in which a round may also stop the whole loop with the fault `e`. -/
theorem forLoop_inv_or (lo hi : Nat) (body : Nat → σ → Res σ) (P : Nat → σ → Prop)
    (e : Fault) (s : σ) (hle : lo ≤ hi) (h0 : P lo s)
    (hstep : ∀ k t, lo ≤ k → k < hi → P k t →
      (∃ t', body k t = Res.ok t' ∧ P (k + 1) t') ∨ body k t = Res.err e) :
    (∃ s', forLoop lo hi body s = Res.ok s' ∧ P hi s') ∨
      forLoop lo hi body s = Res.err e := by
  have h := loopFrom_inv_or body P e (hi - lo) lo s h0 (fun k t hk1 hk2 hP =>
    hstep k t hk1 (by omega) hP)
  have e' : lo + (hi - lo) = hi := by omega
  rw [e'] at h
  exact h

theorem loopFrom_succ (body : Nat → σ → Res σ) :
    ∀ (n i : Nat) (s : σ),
      loopFrom body (n + 1) i s = loopFrom body n i s >>= body (i + n) := by
  intro n
  induction n with
  | zero =>
    intro i s
    simp only [loopFrom, Res.ok_bind, Nat.add_zero]
    cases body i s <;> rfl
  | succ n ih =>
    intro i s
    have e : i + (n + 1) = i + 1 + n := by omega
    rw [loopFrom]
    cases h : body i s with
    | err f => simp [loopFrom, h]
    | ok t =>
      simp only [Res.ok_bind]
      rw [ih (i + 1) t, e]
      conv_rhs => rw [loopFrom, h, Res.ok_bind]

/-- Unrolling the last round of a `for` loop. -/
theorem forLoop_succ (lo hi : Nat) (body : Nat → σ → Res σ) (s : σ) (hle : lo ≤ hi) :
    forLoop lo (hi + 1) body s = forLoop lo hi body s >>= body hi := by
  unfold forLoop
  have e : hi + 1 - lo = (hi - lo) + 1 := by omega
  rw [e, loopFrom_succ]
  have e2 : lo + (hi - lo) = hi := by omega
  rw [e2]

theorem forLoop_empty (lo hi : Nat) (body : Nat → σ → Res σ) (s : σ) (h : hi ≤ lo) :
    forLoop lo hi body s = Res.ok s := by
  unfold forLoop
  have e : hi - lo = 0 := by omega
  rw [e]; rfl

end Loops

namespace grid

variable {T : Type}

/-! ## Element access -/

theorem offset_lt {nr nc r c : Nat} (hr : r < nr) (hc : c < nc) :
    c * nr + r < nr * nc := by
  have h1 : c * nr + nr ≤ nc * nr := by
    have : (c + 1) * nr ≤ nc * nr := Nat.mul_le_mul_right nr hc
    simpa [Nat.succ_mul] using this
  have h2 : nc * nr = nr * nc := Nat.mul_comm nc nr
  omega

theorem offset_inj {nr r c r' c' : Nat} (hr : r < nr) (hr' : r' < nr)
    (h : c * nr + r = c' * nr + r') : r = r' ∧ c = c' := by
  have h1 : (c * nr + r) % nr = (c' * nr + r') % nr := by rw [h]
  rw [Nat.mul_add_mod_of_lt hr, Nat.mul_add_mod_of_lt hr'] at h1
  subst h1
  have h2 : c * nr = c' * nr := by omega
  have hpos : 0 < nr := by omega
  exact ⟨rfl, Nat.eq_of_mul_eq_mul_right hpos h2⟩

theorem inrange_of_lt {g : grid T} (h : g.WF) {r c : Nat} (hr : r < g.nr)
    (hc : c < g.nc) : g.inrange r c = true := by
  have hlt := offset_lt hr hc
  unfold WF at h
  simp only [inrange, Bool.and_eq_true, decide_eq_true_eq]
  exact ⟨⟨hr, hc⟩, by omega⟩

theorem at2_eq [Zero T] {g : grid T} (h : g.WF) {r c : Nat} (hr : r < g.nr)
    (hc : c < g.nc) : g.at2 r c = Res.ok (g.entry r c) := by
  have hlt : c * g.nr + r < g.sto.length := by
    rw [h]; exact offset_lt hr hc
  simp only [at2, inrange_of_lt h hr hc, if_true, idx, entry]
  rw [List.getElem?_eq_getElem hlt, List.getD_eq_getElem _ _ hlt]

theorem put2_eq {g : grid T} (h : g.WF) {r c : Nat} (hr : r < g.nr)
    (hc : c < g.nc) (v : T) : g.put2 r c v = Res.ok (g.upd r c v) := by
  have hlt : c * g.nr + r < g.sto.length := by
    rw [h]; exact offset_lt hr hc
  simp only [put2, inrange_of_lt h hr hc, if_true, setIdx, hlt, upd]

@[simp] theorem upd_nr (g : grid T) (r c : Nat) (v : T) : (g.upd r c v).nr = g.nr := rfl

@[simp] theorem upd_nc (g : grid T) (r c : Nat) (v : T) : (g.upd r c v).nc = g.nc := rfl

theorem upd_WF {g : grid T} (h : g.WF) (r c : Nat) (v : T) : (g.upd r c v).WF := by
  unfold WF at *
  simp only [upd, List.length_set]
  exact h

theorem entry_upd [Zero T] {g : grid T} (h : g.WF) {r c r' c' : Nat} (hr : r < g.nr)
    (hc : c < g.nc) (hr' : r' < g.nr) (_hc' : c' < g.nc) (v : T) :
    (g.upd r c v).entry r' c' = if r' = r ∧ c' = c then v else g.entry r' c' := by
  have hlt : c * g.nr + r < g.sto.length := by
    rw [h]; exact offset_lt hr hc
  simp only [entry, upd, List.getD_eq_getElem?_getD, List.getElem?_set]
  by_cases e : c * g.nr + r = c' * g.nr + r'
  · obtain ⟨e1, e2⟩ := offset_inj hr hr' e
    subst e1; subst e2
    simp [hlt]
  · have : ¬ (r' = r ∧ c' = c) := by
      rintro ⟨e1, e2⟩
      exact e (by rw [e1, e2])
    simp [e, this]

theorem entry_upd_same [Zero T] {g : grid T} (h : g.WF) {r c : Nat} (hr : r < g.nr)
    (hc : c < g.nc) (v : T) : (g.upd r c v).entry r c = v := by
  rw [entry_upd h hr hc hr hc]; simp

theorem entry_upd_ne [Zero T] {g : grid T} (h : g.WF) {r c r' c' : Nat} (hr : r < g.nr)
    (hc : c < g.nc) (hr' : r' < g.nr) (hc' : c' < g.nc) (v : T)
    (hne : ¬ (r' = r ∧ c' = c)) : (g.upd r c v).entry r' c' = g.entry r' c' := by
  rw [entry_upd h hr hc hr' hc']; simp [hne]

theorem invariant_of_WF (g : grid T) (h : g.WF) : g.invariant = true := by
  simp only [invariant, WF] at *
  rw [h]
  exact decide_eq_true rfl

theorem assert_true : assert true = Res.ok () := rfl

theorem assert_false : assert false = Res.err Fault.assertion := rfl

theorem copy_eq (g : grid T) : copy g = g := rfl

theorem mk2_WF [Zero T] (r c : Nat) : (mk2 r c : grid T).WF := by
  simp [WF, mk2]

theorem entry_mk2 [Zero T] (r c i j : Nat) : (mk2 r c : grid T).entry i j = 0 := by
  simp only [entry, mk2, List.getD_eq_getElem?_getD, List.getElem?_replicate]
  split <;> rfl

/-- Two grids with the same dimensions, both satisfying the storage invariant
and agreeing on every in-range element, are equal. -/
theorem ext_entry [Zero T] {g h : grid T} (hg : g.WF) (hh : h.WF) (e1 : g.nr = h.nr)
    (e2 : g.nc = h.nc)
    (he : ∀ r c, r < g.nr → c < g.nc → g.entry r c = h.entry r c) : g = h := by
  obtain ⟨nr, nc, sto⟩ := g
  obtain ⟨nr', nc', sto'⟩ := h
  simp only at e1 e2
  subst e1; subst e2
  simp only [WF] at hg hh
  have : sto = sto' := by
    apply List.ext_getElem (by rw [hg, hh])
    intro n h1 h2
    rw [hg] at h1
    by_cases hz : nr = 0
    · subst hz; simp at h1
    have hpos : 0 < nr := Nat.pos_of_ne_zero hz
    have hc : n / nr < nc := by
      rw [Nat.div_lt_iff_lt_mul hpos, Nat.mul_comm]; exact h1
    have hr : n % nr < nr := Nat.mod_lt _ hpos
    have key := he (n % nr) (n / nr) hr hc
    simp only [entry] at key
    have en : n / nr * nr + n % nr = n := by
      rw [Nat.mul_comm]; exact Nat.div_add_mod n nr
    rw [en] at key
    rw [List.getD_eq_getElem _ _ (by rw [hg]; exact h1),
      List.getD_eq_getElem _ _ (by rw [hh]; exact h1)] at key
    exact key
  rw [this]

/-! ## The storage invariant and `init` -/

/-- C1, evaluated at the input where it fails: a 2 x 2 grid built by the
constructor `grid(2, 2)` satisfies the storage invariant, and `init(3, 1)` takes
the branch that keeps the storage, leaving 3 rows, 1 column and the four old
elements, so that `invariant()` is false afterwards. -/
theorem init_keeps_stale_storage :
    (mk2 2 2 : grid Int).invariant = true ∧
      (mk2 2 2 : grid Int).init 3 1 = { nr := 3, nc := 1, sto := [0, 0, 0, 0] } ∧
      ((mk2 2 2 : grid Int).init 3 1).invariant = false := by
  decide

/-! ## Checked access -/

/-- C2: on a grid whose sequence length equals `nr * nc`, the checked access
`(r, c)` succeeds exactly when `r < nr`, `c < nc` and the storage is non-empty;
it then returns the element at offset `c * nr + r` of the flat sequence, and in
every other case it fails the assertion. -/
theorem at2_checked (g : grid T) (h : g.sto.length = g.nr * g.nc) (r c : Nat) :
    ((∃ v, g.at2 r c = Res.ok v) ↔ (r < g.nr ∧ c < g.nc ∧ 0 < g.sto.length)) ∧
      (r < g.nr ∧ c < g.nc ∧ 0 < g.sto.length →
        ∃ v, g.sto[c * g.nr + r]? = some v ∧ g.at2 r c = Res.ok v) ∧
      (¬ (r < g.nr ∧ c < g.nc ∧ 0 < g.sto.length) →
        g.at2 r c = Res.err Fault.assertion) := by
  have hyes : r < g.nr ∧ c < g.nc ∧ 0 < g.sto.length →
      ∃ v, g.sto[c * g.nr + r]? = some v ∧ g.at2 r c = Res.ok v := by
    rintro ⟨hr, hc, _⟩
    have hlt : c * g.nr + r < g.sto.length := by
      rw [h]; exact offset_lt hr hc
    refine ⟨g.sto[c * g.nr + r], List.getElem?_eq_getElem hlt, ?_⟩
    simp only [at2, inrange_of_lt h hr hc, if_true, idx, List.getElem?_eq_getElem hlt]
  have hno : ¬ (r < g.nr ∧ c < g.nc ∧ 0 < g.sto.length) →
      g.at2 r c = Res.err Fault.assertion := by
    intro hn
    have : g.inrange r c = false := by
      cases hb : g.inrange r c with
      | false => rfl
      | true =>
        exfalso; apply hn
        simp only [inrange, Bool.and_eq_true, decide_eq_true_eq] at hb
        exact ⟨hb.1.1, hb.1.2, hb.2⟩
    simp [at2, this]
  refine ⟨⟨?_, ?_⟩, hyes, hno⟩
  · rintro ⟨v, hv⟩
    by_contra hn
    rw [hno hn] at hv
    cases hv
  · intro hc
    obtain ⟨v, _, hv⟩ := hyes hc
    exact ⟨v, hv⟩

/-- C2 at the 2 x 3 grid with elements `10 .. 15`: the access `(1, 2)` returns
the element at offset `2 * 2 + 1`. -/
theorem at2_checked_witness :
    sample23.sto.length = sample23.nr * sample23.nc ∧
      (((∃ v, sample23.at2 1 2 = Res.ok v) ↔
        (1 < sample23.nr ∧ 2 < sample23.nc ∧ 0 < sample23.sto.length)) ∧
      (1 < sample23.nr ∧ 2 < sample23.nc ∧ 0 < sample23.sto.length →
        ∃ v, sample23.sto[2 * sample23.nr + 1]? = some v ∧
          sample23.at2 1 2 = Res.ok v) ∧
      (¬ (1 < sample23.nr ∧ 2 < sample23.nc ∧ 0 < sample23.sto.length) →
        sample23.at2 1 2 = Res.err Fault.assertion)) :=
  ⟨by decide, at2_checked sample23 (by decide) 1 2⟩

/-! ## Transpose -/

/-- What `transpose` computes on a grid satisfying the storage invariant. -/
theorem transpose_ok [Zero T] (g : grid T) (h : g.WF) :
    ∃ tp, g.transpose = Res.ok tp ∧ tp.nr = g.nc ∧ tp.nc = g.nr ∧ tp.WF ∧
      ∀ i j, i < g.nc → j < g.nr → tp.entry i j = g.entry j i := by
  have houter := forLoop_inv 0 g.nc
    (fun i s => forLoop 0 g.nr (fun j s => do
      let v ← g.at2 j i
      s.put2 i j v) s)
    (fun i (s : grid T) => s.nr = g.nc ∧ s.nc = g.nr ∧ s.WF ∧
      ∀ a b, a < i → b < g.nr → s.entry a b = g.entry b a)
    (mk2 g.nc g.nr) (Nat.zero_le _)
    ⟨rfl, rfl, mk2_WF _ _, fun a b ha _ => absurd ha (Nat.not_lt_zero a)⟩
    (by
      intro i s _ hi ⟨hnr, hnc, hwf, hent⟩
      have hinner := forLoop_inv 0 g.nr
        (fun j s => do
          let v ← g.at2 j i
          s.put2 i j v)
        (fun j (u : grid T) => u.nr = g.nc ∧ u.nc = g.nr ∧ u.WF ∧
          (∀ a b, a < i → b < g.nr → u.entry a b = g.entry b a) ∧
          ∀ b, b < j → u.entry i b = g.entry b i)
        s (Nat.zero_le _)
        ⟨hnr, hnc, hwf, hent, fun b hb => absurd hb (Nat.not_lt_zero b)⟩
        (by
          intro j u _ hj ⟨unr, unc, uwf, uent, ucur⟩
          have hi' : i < u.nr := by rw [unr]; exact hi
          have hj' : j < u.nc := by rw [unc]; exact hj
          refine ⟨u.upd i j (g.entry j i), ?_, unr, unc, upd_WF uwf _ _ _, ?_, ?_⟩
          · simp only [at2_eq h hj hi, Res.ok_bind]
            exact put2_eq uwf hi' hj' _
          · intro a b ha hb
            rw [entry_upd_ne uwf hi' hj' (by omega) (by omega) _ (by omega)]
            exact uent a b ha hb
          · intro b hb
            by_cases e : b = j
            · subst e; exact entry_upd_same uwf hi' hj' _
            · rw [entry_upd_ne uwf hi' hj' hi' (by omega) _ (by omega)]
              exact ucur b (by omega))
      obtain ⟨u, hu, unr, unc, uwf, uent, ucur⟩ := hinner
      refine ⟨u, hu, unr, unc, uwf, ?_⟩
      intro a b ha hb
      by_cases e : a = i
      · subst e; exact ucur b hb
      · exact uent a b (by omega) hb)
  obtain ⟨tp, htp, tnr, tnc, twf, tent⟩ := houter
  refine ⟨tp, ?_, tnr, tnc, twf, tent⟩
  have hi : g.invariant = true := invariant_of_WF g h
  have ht : tp.invariant = true := invariant_of_WF tp twf
  simp only [transpose, hi, assert_true, Res.ok_bind, htp, ht, Bool.and_self, Res.pure_eq]

/-- C8: for a grid `g` whose sequence length equals `nr * nc`, `transpose`
returns a grid with `g.nc` rows and `g.nr` columns (and `nc * nr` elements) whose
element `(i, j)` is the element `(j, i)` of `g`, both read through the checked
access; `g`, a `const` receiver, is unchanged. -/
theorem transpose_elements [Zero T] (g : grid T) (h : g.sto.length = g.nr * g.nc) :
    ∃ tp, g.transpose = Res.ok tp ∧ tp.nr = g.nc ∧ tp.nc = g.nr ∧
      tp.sto.length = tp.nr * tp.nc ∧
      ∀ i j, i < g.nc → j < g.nr →
        ∃ v, g.at2 j i = Res.ok v ∧ tp.at2 i j = Res.ok v := by
  obtain ⟨tp, htp, tnr, tnc, twf, tent⟩ := transpose_ok g h
  refine ⟨tp, htp, tnr, tnc, twf, ?_⟩
  intro i j hi hj
  refine ⟨g.entry j i, at2_eq h hj hi, ?_⟩
  rw [at2_eq twf (by omega) (by omega), tent i j hi hj]

/-- C8 at the 2 x 3 sample grid. -/
theorem transpose_elements_witness :
    sample23.sto.length = sample23.nr * sample23.nc ∧
      ∃ tp, sample23.transpose = Res.ok tp ∧ tp.nr = sample23.nc ∧
        tp.nc = sample23.nr ∧ tp.sto.length = tp.nr * tp.nc ∧
        ∀ i j, i < sample23.nc → j < sample23.nr →
          ∃ v, sample23.at2 j i = Res.ok v ∧ tp.at2 i j = Res.ok v :=
  ⟨by decide, transpose_elements sample23 (by decide)⟩

/-- C9 as stated fails: the grid left by `init(3, 1)` on a 2 x 2 grid has 3 rows,
1 column and 4 stored elements; `transpose` fails its invariant assertion on it,
so transposing twice does not give the grid back. -/
theorem transpose_twice_stale_storage :
    (mk2 2 2 : grid Int).init 3 1 = { nr := 3, nc := 1, sto := [0, 0, 0, 0] } ∧
      ((mk2 2 2 : grid Int).init 3 1).transpose = Res.err Fault.assertion ∧
      (((mk2 2 2 : grid Int).init 3 1).transpose >>= transpose) ≠
        Res.ok ((mk2 2 2 : grid Int).init 3 1) := by
  decide

/-- C9, amended: for every grid `g` whose sequence length equals `nr * nc`,
transposing twice succeeds and returns `g` itself: same row count, same column
count, same flat element sequence. -/
theorem transpose_involutive [Zero T] (g : grid T) (h : g.sto.length = g.nr * g.nc) :
    (g.transpose >>= transpose) = Res.ok g := by
  obtain ⟨t1, ht1, nr1, nc1, wf1, ent1⟩ := transpose_ok g h
  obtain ⟨t2, ht2, nr2, nc2, wf2, ent2⟩ := transpose_ok t1 wf1
  rw [ht1, Res.ok_bind, ht2]
  congr 1
  apply ext_entry wf2 h (by omega) (by omega)
  intro r c hr hc
  rw [ent2 r c (by omega) (by omega), ent1 c r (by omega) (by omega)]

/-- C9, amended, at the 2 x 3 sample grid. -/
theorem transpose_involutive_witness :
    sample23.sto.length = sample23.nr * sample23.nc ∧
      (sample23.transpose >>= transpose) = Res.ok sample23 :=
  ⟨by decide, transpose_involutive sample23 (by decide)⟩

/-! ## Elementwise addition and subtraction -/

/-- The element loop shared by `+=` and `-=`: on storages of equal length it
combines them position by position. -/
theorem zip_loop (f : T → T → T) (g m : grid T) (hlen : m.sto.length = g.sto.length) :
    forLoop 0 g.sto.length (fun i s => do
      let x ← s.idx i
      let y ← m.idx i
      s.setIdx i (f x y)) g =
      Res.ok { nr := g.nr, nc := g.nc, sto := List.zipWith f g.sto m.sto } := by
  have hloop := forLoop_inv 0 g.sto.length
    (fun i s => do
      let x ← s.idx i
      let y ← m.idx i
      s.setIdx i (f x y))
    (fun i (s : grid T) => s.nr = g.nr ∧ s.nc = g.nc ∧ s.sto.length = g.sto.length ∧
      (∀ k, k < i → s.sto[k]? = (List.zipWith f g.sto m.sto)[k]?) ∧
      ∀ k, i ≤ k → s.sto[k]? = g.sto[k]?)
    g (Nat.zero_le _)
    ⟨rfl, rfl, rfl, fun k hk => absurd hk (Nat.not_lt_zero k), fun _ _ => rfl⟩
    (by
      intro i s _ hi ⟨snr, snc, slen, sdone, srest⟩
      have hs : i < s.sto.length := by omega
      have hm : i < m.sto.length := by omega
      have e1 : s.sto[i]? = some g.sto[i] := by
        rw [srest i (le_refl i), List.getElem?_eq_getElem hi]
      have e2 : m.sto[i]? = some m.sto[i] := List.getElem?_eq_getElem hm
      refine ⟨{ s with sto := s.sto.set i (f g.sto[i] m.sto[i]) }, ?_, snr, snc, ?_, ?_, ?_⟩
      · simp only [idx, e1, e2, Res.ok_bind, setIdx, hs, if_true]
      · simp only [List.length_set]; exact slen
      · intro k hk
        by_cases e : k = i
        · subst e
          simp only [List.getElem?_set, if_true, hs, List.getElem?_zipWith,
            List.getElem?_eq_getElem hi, e2, Option.map_some', Option.bind_some]
        · have hne : ¬ i = k := fun h => e h.symm
          simp only [List.getElem?_set, hne, if_false]
          exact sdone k (by omega)
      · intro k hk
        have hne : ¬ i = k := by omega
        simp only [List.getElem?_set, hne, if_false]
        exact srest k (by omega))
  obtain ⟨s, hs, snr, snc, slen, sdone, _⟩ := hloop
  rw [hs]
  congr 1
  obtain ⟨a, b, st⟩ := s
  simp only at snr snc slen sdone
  subst snr; subst snc
  congr 1
  apply List.ext_getElem?
  intro k
  by_cases hk : k < g.sto.length
  · exact sdone k hk
  · have h1 : st.length ≤ k := by omega
    have h2 : (List.zipWith f g.sto m.sto).length ≤ k := by
      simp only [List.length_zipWith]; omega
    rw [List.getElem?_eq_none h1, List.getElem?_eq_none h2]

theorem addAssign_ok [Add T] (g m : grid T) (hg : g.WF) (hm : m.WF) (h1 : g.nr = m.nr)
    (h2 : g.nc = m.nc) :
    g.addAssign m =
      Res.ok { nr := g.nr, nc := g.nc, sto := List.zipWith (· + ·) g.sto m.sto } := by
  have hlen : m.sto.length = g.sto.length := by
    unfold WF at hg hm; rw [hg, hm, h1, h2]
  have hloop := zip_loop (· + ·) g m hlen
  have e : g.nr * g.nc = g.sto.length := hg.symm
  have hw : (grid.mk g.nr g.nc (List.zipWith (· + ·) g.sto m.sto)).invariant = true := by
    apply invariant_of_WF
    simp only [WF, List.length_zipWith, hlen, Nat.min_self]
    exact hg
  simp only [addAssign, invariant_of_WF g hg, invariant_of_WF m hm, h1, h2,
    decide_True, Bool.and_self, assert_true, Res.ok_bind, Res.pure_eq]
  rw [← h1, ← h2, e, hloop]
  simp only [Res.ok_bind, hw, Bool.and_self, assert_true, Res.pure_eq]

theorem subAssign_ok [Sub T] (g m : grid T) (hg : g.WF) (hm : m.WF) (h1 : g.nr = m.nr)
    (h2 : g.nc = m.nc) :
    g.subAssign m =
      Res.ok { nr := g.nr, nc := g.nc, sto := List.zipWith (· - ·) g.sto m.sto } := by
  have hlen : m.sto.length = g.sto.length := by
    unfold WF at hg hm; rw [hg, hm, h1, h2]
  have hloop := zip_loop (· - ·) g m hlen
  have e : g.nr * g.nc = g.sto.length := hg.symm
  have hw : (grid.mk g.nr g.nc (List.zipWith (· - ·) g.sto m.sto)).invariant = true := by
    apply invariant_of_WF
    simp only [WF, List.length_zipWith, hlen, Nat.min_self]
    exact hg
  simp only [subAssign, invariant_of_WF g hg, invariant_of_WF m hm, h1, h2,
    decide_True, Bool.and_self, assert_true, Res.ok_bind, Res.pure_eq]
  rw [← h1, ← h2, e, hloop]
  simp only [Res.ok_bind, hw, Bool.and_self, assert_true, Res.pure_eq]

theorem zipWith_add_sub [AddGroup T] :
    ∀ (a b : List T), a.length = b.length →
      List.zipWith (· - ·) (List.zipWith (· + ·) a b) b = a
  | [], [], _ => rfl
  | [], _ :: _, h => by simp at h
  | _ :: _, [], h => by simp at h
  | x :: a, y :: b, h => by
    have ih := zipWith_add_sub a b (by simpa using h)
    simp only [List.zipWith_cons_cons, ih, add_sub_cancel_right]

theorem addAssign_dims [Add T] (g m : grid T) (h : ¬ (g.nr = m.nr ∧ g.nc = m.nc)) :
    g.addAssign m = Res.err Fault.assertion := by
  unfold addAssign
  cases hi : (g.invariant && m.invariant) with
  | false => simp only [assert_false, Res.err_bind]
  | true =>
    have : (decide (g.nr = m.nr) && decide (g.nc = m.nc)) = false := by
      simpa using h
    simp only [assert_true, Res.ok_bind, this, assert_false, Res.err_bind]

/-- C10 as stated fails: two grids of identical dimensions 3 x 1, each left by
`init(3, 1)` on a 2 x 2 grid and so holding 4 elements, cannot be added:
`operator+=` fails its invariant assertion. -/
theorem add_stale_storage :
    ((mk2 2 2 : grid Int).init 3 1).nr = ((mk2 2 2 : grid Int).init 3 1).nr ∧
      ((mk2 2 2 : grid Int).init 3 1).add ((mk2 2 2 : grid Int).init 3 1) =
        Res.err Fault.assertion ∧
      (((mk2 2 2 : grid Int).init 3 1).add ((mk2 2 2 : grid Int).init 3 1) >>=
          fun s => s.sub ((mk2 2 2 : grid Int).init 3 1)) ≠
        Res.ok ((mk2 2 2 : grid Int).init 3 1) := by
  decide

/-- C10, amended: for grids `G` and `H` whose sequence lengths equal their
`nr * nc`, over an additive group of elements: with identical dimensions the
non-mutating `(G + H) - H` succeeds and is `G` itself (same dimensions, same
elements); with different dimensions `G + H` fails its assertion.  The operands
are passed by `const` reference and are unchanged. -/
theorem add_sub_roundtrip [AddGroup T] (G H : grid T)
    (hG : G.sto.length = G.nr * G.nc) (hH : H.sto.length = H.nr * H.nc) :
    (G.nr = H.nr ∧ G.nc = H.nc → (G.add H >>= fun s => s.sub H) = Res.ok G) ∧
      (¬ (G.nr = H.nr ∧ G.nc = H.nc) → G.add H = Res.err Fault.assertion) := by
  constructor
  · rintro ⟨h1, h2⟩
    have hlen : G.sto.length = H.sto.length := by rw [hG, hH, h1, h2]
    have hsum : (grid.mk G.nr G.nc (List.zipWith (· + ·) G.sto H.sto)).WF := by
      simp only [WF, List.length_zipWith, ← hlen, Nat.min_self]
      exact hG
    rw [add, copy_eq, addAssign_ok G H hG hH h1 h2, Res.ok_bind, sub, copy_eq,
      subAssign_ok _ H hsum hH h1 h2]
    simp only [zipWith_add_sub G.sto H.sto hlen]
  · intro h
    rw [add, copy_eq]
    exact addAssign_dims G H h

/-- C10, amended, at the 2 x 3 sample grid added to itself. -/
theorem add_sub_roundtrip_witness :
    sample23.sto.length = sample23.nr * sample23.nc ∧
      ((sample23.nr = sample23.nr ∧ sample23.nc = sample23.nc →
        (sample23.add sample23 >>= fun s => s.sub sample23) = Res.ok sample23) ∧
      (¬ (sample23.nr = sample23.nr ∧ sample23.nc = sample23.nc) →
        sample23.add sample23 = Res.err Fault.assertion)) :=
  ⟨by decide, add_sub_roundtrip sample23 sample23 (by decide) (by decide)⟩

/-! ## Matrix product -/

theorem clear_mk2 [Zero T] (r c : Nat) : (mk2 r c : grid T).clear 0 = mk2 r c := by
  simp [clear, mk2]

theorem dotFold_zero [Zero T] [Add T] [Mul T] (a m : grid T) (r c : Nat) :
    dotFold a m 0 r c = 0 := rfl

theorem dotFold_succ [Zero T] [Add T] [Mul T] (a m : grid T) (k r c : Nat) :
    dotFold a m (k + 1) r c = dotFold a m k r c + a.entry r k * m.entry k c := by
  simp only [dotFold, List.range_succ, List.foldl_append, List.foldl_cons, List.foldl_nil]

/-- In a semiring the accumulated value is the sum of the products. -/
theorem dotFold_eq_sum [Semiring T] (a m : grid T) (k r c : Nat) :
    dotFold a m k r c = dotPrefix a m k r c := by
  induction k with
  | zero => simp [dotFold, dotPrefix]
  | succ k ih => rw [dotFold_succ, ih, dotPrefix, dotPrefix, Finset.sum_range_succ]

theorem mulProgress_next_col [Zero T] [Add T] [Mul T] (a m : grid T) (i j r c : Nat) :
    mulProgress a m i j a.nc r c = mulProgress a m i (j + 1) 0 r c := by
  unfold mulProgress
  by_cases h1 : r < i ∨ (r = i ∧ c < j)
  · have h2 : r < i ∨ (r = i ∧ c < j + 1) := by omega
    rw [if_pos h1, if_pos h2]
  · by_cases h3 : r = i ∧ c = j
    · have h2 : r < i ∨ (r = i ∧ c < j + 1) := by omega
      rw [if_neg h1, if_pos h3, if_pos h2]
    · have h2 : ¬ (r < i ∨ (r = i ∧ c < j + 1)) := by omega
      rw [if_neg h1, if_neg h3, if_neg h2]
      by_cases h4 : r = i ∧ c = j + 1
      · rw [if_pos h4, dotFold_zero]
      · rw [if_neg h4]

theorem mulProgress_next_row [Zero T] [Add T] [Mul T] (a m : grid T) (i r c : Nat)
    (hc : c < m.nc) :
    mulProgress a m i m.nc 0 r c = mulProgress a m (i + 1) 0 0 r c := by
  unfold mulProgress
  by_cases h1 : r < i ∨ (r = i ∧ c < m.nc)
  · have h2 : r < i + 1 ∨ (r = i + 1 ∧ c < 0) := by omega
    rw [if_pos h1, if_pos h2]
  · have h2 : ¬ (r < i + 1 ∨ (r = i + 1 ∧ c < 0)) := by omega
    have h3 : ¬ (r = i ∧ c = m.nc) := by omega
    rw [if_neg h1, if_neg h3, if_neg h2]
    by_cases h4 : r = i + 1 ∧ c = 0
    · rw [if_pos h4, dotFold_zero]
    · rw [if_neg h4]

theorem mulProgress_step [Zero T] [Add T] [Mul T] (a m : grid T) (i j k r c : Nat) :
    mulProgress a m i j (k + 1) r c =
      if r = i ∧ c = j then mulProgress a m i j k i j + a.entry i k * m.entry k j
      else mulProgress a m i j k r c := by
  unfold mulProgress
  have h0 : ¬ (i < i ∨ (i = i ∧ j < j)) := by omega
  by_cases h3 : r = i ∧ c = j
  · obtain ⟨rfl, rfl⟩ := h3
    rw [if_neg h0, if_pos ⟨rfl, rfl⟩, if_pos ⟨rfl, rfl⟩, if_neg h0, if_pos ⟨rfl, rfl⟩,
      dotFold_succ]
  · simp only [if_neg h3]

/-- What `operator*` computes, for any element type, when both operands satisfy
the storage invariant and the inner dimensions agree. -/
theorem mul_fold_ok [Zero T] [Add T] [Mul T] (a m : grid T) (ha : a.WF) (hm : m.WF)
    (hd : a.nc = m.nr) :
    ∃ p, a.mul m = Res.ok p ∧ p.nr = a.nr ∧ p.nc = m.nc ∧ p.WF ∧
      ∀ i j, i < a.nr → j < m.nc → p.entry i j = dotFold a m a.nc i j := by
  have houter := forLoop_inv 0 a.nr
    (fun i s => forLoop 0 m.nc (fun j s =>
      forLoop 0 a.nc (fun k s => mulCell a m i j k s) s) s)
    (fun i (s : grid T) => s.nr = a.nr ∧ s.nc = m.nc ∧ s.WF ∧
      ∀ r c, r < a.nr → c < m.nc → s.entry r c = mulProgress a m i 0 0 r c)
    (mk2 a.nr m.nc) (Nat.zero_le _)
    ⟨rfl, rfl, mk2_WF _ _, by
      intro r c _ _
      rw [entry_mk2]
      unfold mulProgress
      by_cases h : r = 0 ∧ c = 0
      · simp [h, dotFold_zero]
      · have h1 : ¬ (r < 0 ∨ (r = 0 ∧ c < 0)) := by omega
        simp only [h1, h, if_false]⟩
    (by
      intro i s _ hi ⟨snr, snc, swf, sent⟩
      have hmid := forLoop_inv 0 m.nc
        (fun j s => forLoop 0 a.nc (fun k s => mulCell a m i j k s) s)
        (fun j (u : grid T) => u.nr = a.nr ∧ u.nc = m.nc ∧ u.WF ∧
          ∀ r c, r < a.nr → c < m.nc → u.entry r c = mulProgress a m i j 0 r c)
        s (Nat.zero_le _) ⟨snr, snc, swf, sent⟩
        (by
          intro j u _ hj ⟨unr, unc, uwf, uent⟩
          have hin := forLoop_inv 0 a.nc
            (fun k s => mulCell a m i j k s)
            (fun k (w : grid T) => w.nr = a.nr ∧ w.nc = m.nc ∧ w.WF ∧
              ∀ r c, r < a.nr → c < m.nc → w.entry r c = mulProgress a m i j k r c)
            u (Nat.zero_le _) ⟨unr, unc, uwf, uent⟩
            (by
              intro k w _ hk ⟨wnr, wnc, wwf, went⟩
              have hi' : i < w.nr := by omega
              have hj' : j < w.nc := by omega
              refine ⟨w.upd i j (w.entry i j + a.entry i k * m.entry k j), ?_, wnr, wnc,
                upd_WF wwf _ _ _, ?_⟩
              · simp only [mulCell, at2_eq ha hi hk, at2_eq hm (by omega : k < m.nr) hj,
                  at2_eq wwf hi' hj', Res.ok_bind]
                exact put2_eq wwf hi' hj' _
              · intro r c hr hc
                rw [entry_upd wwf hi' hj' (by omega) (by omega), mulProgress_step,
                  went i j hi hj]
                by_cases e : r = i ∧ c = j
                · simp only [e, and_self, if_true]
                · simp only [e, if_false]
                  exact went r c hr hc)
          obtain ⟨w, hw, wnr, wnc, wwf, went⟩ := hin
          refine ⟨w, hw, wnr, wnc, wwf, ?_⟩
          intro r c hr hc
          rw [went r c hr hc, mulProgress_next_col])
      obtain ⟨u, hu, unr, unc, uwf, uent⟩ := hmid
      refine ⟨u, hu, unr, unc, uwf, ?_⟩
      intro r c hr hc
      rw [uent r c hr hc, mulProgress_next_row a m i r c hc])
  obtain ⟨p, hp, pnr, pnc, pwf, pent⟩ := houter
  have hdec : decide (a.nc = m.nr) = true := by simpa using hd
  refine ⟨p, ?_, pnr, pnc, pwf, ?_⟩
  · simp only [mul, invariant_of_WF a ha, invariant_of_WF m hm, hdec,
      Bool.and_self, assert_true, Res.ok_bind, clear_mk2, hp, invariant_of_WF p pwf,
      Res.pure_eq]
  · intro i j hi hj
    rw [pent i j hi hj]
    unfold mulProgress
    have h1 : i < a.nr ∨ (i = a.nr ∧ j < 0) := Or.inl hi
    simp only [h1, if_true]

/-- What `operator*` computes in a semiring of elements. -/
theorem mul_ok [Semiring T] (a m : grid T) (ha : a.WF) (hm : m.WF) (hd : a.nc = m.nr) :
    ∃ p, a.mul m = Res.ok p ∧ p.nr = a.nr ∧ p.nc = m.nc ∧ p.WF ∧
      ∀ i j, i < a.nr → j < m.nc → p.entry i j = dotPrefix a m a.nc i j := by
  obtain ⟨p, hp, pnr, pnc, pwf, pent⟩ := mul_fold_ok a m ha hm hd
  refine ⟨p, hp, pnr, pnc, pwf, ?_⟩
  intro i j hi hj
  rw [pent i j hi hj, dotFold_eq_sum]

theorem mul_dims [Zero T] [Add T] [Mul T] (a m : grid T) (h : a.nc ≠ m.nr) :
    a.mul m = Res.err Fault.assertion := by
  unfold mul
  cases hi : (a.invariant && m.invariant) with
  | false => simp only [assert_false, Res.err_bind]
  | true =>
    have : decide (a.nc = m.nr) = false := by simpa using h
    simp only [assert_true, Res.ok_bind, this, assert_false, Res.err_bind]

/-- C3: for grids `A` and `B` over any element type whose sequence lengths
equal their `nr * nc`: when `A.nc = B.nr`, `A * B` succeeds and returns a grid
with `A.nr` rows and `B.nc` columns (and that many elements) whose element
`(i, j)`, read through the checked access, is the sum over `k < A.nc` of
`A(i, k) * B(k, j)` as the element type computes it, the products being added
to the zero value in increasing `k`; it is zero when the shared dimension is 0.
When `A.nc` differs from `B.nr` the product fails its assertion.  `A` and `B`
are `const` operands and are unchanged.  In a semiring of elements the
accumulated sum is the sum of the products. -/
theorem mul_elements [Zero T] [Add T] [Mul T] (A B : grid T)
    (hA : A.sto.length = A.nr * A.nc) (hB : B.sto.length = B.nr * B.nc) :
    (A.nc = B.nr → ∃ P, A.mul B = Res.ok P ∧ P.nr = A.nr ∧ P.nc = B.nc ∧
      P.sto.length = P.nr * P.nc ∧
      (∀ i j, i < A.nr → j < B.nc → P.at2 i j =
        Res.ok ((List.range A.nc).foldl
          (fun acc k => acc + A.entry i k * B.entry k j) 0)) ∧
      (A.nc = 0 → ∀ i j, i < A.nr → j < B.nc → P.at2 i j = Res.ok 0)) ∧
    (A.nc ≠ B.nr → A.mul B = Res.err Fault.assertion) ∧
    (∀ (S : Type) [Semiring S] (X Y : grid S) (i j n : Nat),
      (List.range n).foldl (fun acc k => acc + X.entry i k * Y.entry k j) 0 =
        Finset.sum (Finset.range n) (fun k => X.entry i k * Y.entry k j)) := by
  refine ⟨?_, mul_dims A B, fun S _ X Y i j n => dotFold_eq_sum X Y n i j⟩
  intro hd
  obtain ⟨P, hP, pnr, pnc, pwf, pent⟩ := mul_fold_ok A B hA hB hd
  have hel : ∀ i j, i < A.nr → j < B.nc → P.at2 i j =
      Res.ok ((List.range A.nc).foldl
        (fun acc k => acc + A.entry i k * B.entry k j) 0) := by
    intro i j hi hj
    rw [at2_eq pwf (by omega) (by omega), pent i j hi hj]
    rfl
  refine ⟨P, hP, pnr, pnc, pwf, hel, ?_⟩
  intro hz i j hi hj
  rw [hel i j hi hj, hz]
  rfl

/-- C3 at the 2 x 3 sample grid multiplied by its 3 x 2 counterpart. -/
theorem mul_elements_witness :
    sample23.sto.length = sample23.nr * sample23.nc ∧
    sample32.sto.length = sample32.nr * sample32.nc ∧
    ((sample23.nc = sample32.nr → ∃ P, sample23.mul sample32 = Res.ok P ∧
      P.nr = sample23.nr ∧ P.nc = sample32.nc ∧ P.sto.length = P.nr * P.nc ∧
      (∀ i j, i < sample23.nr → j < sample32.nc → P.at2 i j =
        Res.ok ((List.range sample23.nc).foldl
          (fun acc k => acc + sample23.entry i k * sample32.entry k j) 0)) ∧
      (sample23.nc = 0 → ∀ i j, i < sample23.nr → j < sample32.nc →
        P.at2 i j = Res.ok 0)) ∧
    (sample23.nc ≠ sample32.nr → sample23.mul sample32 = Res.err Fault.assertion) ∧
    (∀ (S : Type) [Semiring S] (X Y : grid S) (i j n : Nat),
      (List.range n).foldl (fun acc k => acc + X.entry i k * Y.entry k j) 0 =
        Finset.sum (Finset.range n) (fun k => X.entry i k * Y.entry k j))) :=
  ⟨by decide, by decide, mul_elements sample23 sample32 (by decide) (by decide)⟩

/-! ## LU decomposition -/

theorem LUscale_ok [Field T] (M : grid T) (n k : Nat) (hwf : M.WF) (hnr : M.nr = n)
    (hnc : M.nc = n) (hk : k + 1 ≤ n) :
    ∃ M1, LUscale n k M = Res.ok M1 ∧ M1.nr = n ∧ M1.nc = n ∧ M1.WF ∧
      ∀ r c, r < n → c < n → M1.entry r c =
        if k < r ∧ c = k then M.entry r k / M.entry k k else M.entry r c := by
  have hloop := forLoop_inv (k + 1) n
    (fun j s => do
      let a ← s.at2 j k
      let b ← s.at2 k k
      s.put2 j k (a / b))
    (fun j (s : grid T) => s.nr = n ∧ s.nc = n ∧ s.WF ∧
      ∀ r c, r < n → c < n → s.entry r c =
        if k < r ∧ r < j ∧ c = k then M.entry r k / M.entry k k else M.entry r c)
    M hk
    ⟨hnr, hnc, hwf, by
      intro r c _ _
      have : ¬ (k < r ∧ r < k + 1 ∧ c = k) := by omega
      rw [if_neg this]⟩
    (by
      intro j s hj1 hj2 ⟨snr, snc, swf, sent⟩
      have hj : j < s.nr := by omega
      have hkr : k < s.nr := by omega
      have hkc : k < s.nc := by omega
      have e1 : s.entry j k = M.entry j k := by
        rw [sent j k (by omega) (by omega)]
        have : ¬ (k < j ∧ j < j ∧ k = k) := by omega
        rw [if_neg this]
      have e2 : s.entry k k = M.entry k k := by
        rw [sent k k (by omega) (by omega)]
        have : ¬ (k < k ∧ k < j ∧ k = k) := by omega
        rw [if_neg this]
      refine ⟨s.upd j k (M.entry j k / M.entry k k), ?_, snr, snc, upd_WF swf _ _ _, ?_⟩
      · simp only [at2_eq swf hj hkc, at2_eq swf hkr hkc, Res.ok_bind, e1, e2]
        exact put2_eq swf hj hkc _
      · intro r c hr hc
        rw [entry_upd swf hj hkc (by omega) (by omega)]
        by_cases e : r = j ∧ c = k
        · obtain ⟨rfl, rfl⟩ := e
          have : c < r ∧ r < r + 1 ∧ c = c := by omega
          rw [if_pos ⟨rfl, rfl⟩, if_pos this]
        · rw [if_neg e, sent r c hr hc]
          by_cases h1 : k < r ∧ r < j ∧ c = k
          · have : k < r ∧ r < j + 1 ∧ c = k := by omega
            rw [if_pos h1, if_pos this]
          · have : ¬ (k < r ∧ r < j + 1 ∧ c = k) := by omega
            rw [if_neg h1, if_neg this])
  obtain ⟨M1, h1, mnr, mnc, mwf, ment⟩ := hloop
  refine ⟨M1, h1, mnr, mnc, mwf, ?_⟩
  intro r c hr hc
  rw [ment r c hr hc]
  by_cases h : k < r ∧ c = k
  · have : k < r ∧ r < n ∧ c = k := by omega
    rw [if_pos h, if_pos this]
  · have : ¬ (k < r ∧ r < n ∧ c = k) := by omega
    rw [if_neg h, if_neg this]

theorem LUelim_ok [Field T] (M : grid T) (n k : Nat) (hwf : M.WF) (hnr : M.nr = n)
    (hnc : M.nc = n) (hk : k + 1 ≤ n) :
    ∃ M2, LUelim n k M = Res.ok M2 ∧ M2.nr = n ∧ M2.nc = n ∧ M2.WF ∧
      ∀ r c, r < n → c < n → M2.entry r c =
        if k < r ∧ k < c then M.entry r c - M.entry r k * M.entry k c
        else M.entry r c := by
  have hloop := forLoop_inv (k + 1) n
    (fun j s => forLoop (k + 1) n (fun c s => do
      let x ← s.at2 j c
      let a ← s.at2 j k
      let b ← s.at2 k c
      s.put2 j c (x - a * b)) s)
    (fun j (s : grid T) => s.nr = n ∧ s.nc = n ∧ s.WF ∧
      ∀ r c, r < n → c < n → s.entry r c =
        if k < r ∧ k < c ∧ r < j then M.entry r c - M.entry r k * M.entry k c
        else M.entry r c)
    M hk
    ⟨hnr, hnc, hwf, by
      intro r c _ _
      have : ¬ (k < r ∧ k < c ∧ r < k + 1) := by omega
      rw [if_neg this]⟩
    (by
      intro j s hj1 hj2 ⟨snr, snc, swf, sent⟩
      have hin := forLoop_inv (k + 1) n
        (fun c s => do
          let x ← s.at2 j c
          let a ← s.at2 j k
          let b ← s.at2 k c
          s.put2 j c (x - a * b))
        (fun cc (u : grid T) => u.nr = n ∧ u.nc = n ∧ u.WF ∧
          ∀ r c, r < n → c < n → u.entry r c =
            if k < r ∧ k < c ∧ (r < j ∨ (r = j ∧ c < cc)) then
              M.entry r c - M.entry r k * M.entry k c
            else M.entry r c)
        s hk
        ⟨snr, snc, swf, by
          intro r c hr hc
          rw [sent r c hr hc]
          by_cases h : k < r ∧ k < c ∧ r < j
          · have : k < r ∧ k < c ∧ (r < j ∨ (r = j ∧ c < k + 1)) := by omega
            rw [if_pos h, if_pos this]
          · have : ¬ (k < r ∧ k < c ∧ (r < j ∨ (r = j ∧ c < k + 1))) := by omega
            rw [if_neg h, if_neg this]⟩
        (by
          intro cc u hc1 hc2 ⟨unr, unc, uwf, uent⟩
          have hj : j < u.nr := by omega
          have hcc : cc < u.nc := by omega
          have hkr : k < u.nr := by omega
          have hkc : k < u.nc := by omega
          have e1 : u.entry j cc = M.entry j cc := by
            rw [uent j cc (by omega) (by omega)]
            have : ¬ (k < j ∧ k < cc ∧ (j < j ∨ (j = j ∧ cc < cc))) := by omega
            rw [if_neg this]
          have e2 : u.entry j k = M.entry j k := by
            rw [uent j k (by omega) (by omega)]
            have : ¬ (k < j ∧ k < k ∧ (j < j ∨ (j = j ∧ k < cc))) := by omega
            rw [if_neg this]
          have e3 : u.entry k cc = M.entry k cc := by
            rw [uent k cc (by omega) (by omega)]
            have : ¬ (k < k ∧ k < cc ∧ (k < j ∨ (k = j ∧ cc < cc))) := by omega
            rw [if_neg this]
          refine ⟨u.upd j cc (M.entry j cc - M.entry j k * M.entry k cc), ?_, unr, unc,
            upd_WF uwf _ _ _, ?_⟩
          · simp only [at2_eq uwf hj hcc, at2_eq uwf hj hkc, at2_eq uwf hkr hcc,
              Res.ok_bind, e1, e2, e3]
            exact put2_eq uwf hj hcc _
          · intro r c hr hc
            rw [entry_upd uwf hj hcc (by omega) (by omega)]
            by_cases e : r = j ∧ c = cc
            · obtain ⟨rfl, rfl⟩ := e
              have : k < r ∧ k < c ∧ (r < r ∨ (r = r ∧ c < c + 1)) := by omega
              rw [if_pos ⟨rfl, rfl⟩, if_pos this]
            · rw [if_neg e, uent r c hr hc]
              by_cases h1 : k < r ∧ k < c ∧ (r < j ∨ (r = j ∧ c < cc))
              · have : k < r ∧ k < c ∧ (r < j ∨ (r = j ∧ c < cc + 1)) := by omega
                rw [if_pos h1, if_pos this]
              · have : ¬ (k < r ∧ k < c ∧ (r < j ∨ (r = j ∧ c < cc + 1))) := by omega
                rw [if_neg h1, if_neg this])
      obtain ⟨u, hu, unr, unc, uwf, uent⟩ := hin
      refine ⟨u, hu, unr, unc, uwf, ?_⟩
      intro r c hr hc
      rw [uent r c hr hc]
      by_cases h : k < r ∧ k < c ∧ (r < j ∨ (r = j ∧ c < n))
      · have : k < r ∧ k < c ∧ r < j + 1 := by omega
        rw [if_pos h, if_pos this]
      · have : ¬ (k < r ∧ k < c ∧ r < j + 1) := by omega
        rw [if_neg h, if_neg this])
  obtain ⟨M2, h2, mnr, mnc, mwf, ment⟩ := hloop
  refine ⟨M2, h2, mnr, mnc, mwf, ?_⟩
  intro r c hr hc
  rw [ment r c hr hc]
  by_cases h : k < r ∧ k < c
  · have : k < r ∧ k < c ∧ r < n := by omega
    rw [if_pos h, if_pos this]
  · have : ¬ (k < r ∧ k < c ∧ r < n) := by omega
    rw [if_neg h, if_neg this]

/-- One round of `LU` returns, with the elements given by `luRound`. -/
theorem LUstep_ok [Field T] (M : grid T) (n k : Nat) (hwf : M.WF) (hnr : M.nr = n)
    (hnc : M.nc = n) (hk : k + 1 ≤ n) :
    ∃ M2, LUstep n k M = Res.ok M2 ∧ M2.nr = n ∧ M2.nc = n ∧ M2.WF ∧
      ∀ r c, r < n → c < n → M2.entry r c = luRound M k r c := by
  obtain ⟨M1, h1, nr1, nc1, wf1, ent1⟩ := LUscale_ok M n k hwf hnr hnc hk
  obtain ⟨M2, h2, nr2, nc2, wf2, ent2⟩ := LUelim_ok M1 n k wf1 nr1 nc1 hk
  refine ⟨M2, ?_, nr2, nc2, wf2, ?_⟩
  · simp only [LUstep, h1, Res.ok_bind, h2]
  · intro r c hr hc
    have hkn : k < n := by omega
    rw [ent2 r c hr hc, ent1 r c hr hc, ent1 r k hr hkn, ent1 k c hkn hc]
    unfold luRound
    have hkk : ¬ (k < k ∧ c = k) := by omega
    rw [if_neg hkk]
    by_cases h1 : k < r ∧ c = k
    · have h2 : ¬ (k < r ∧ k < c) := by omega
      rw [if_neg h2, if_pos h1, if_pos h1]
    · by_cases h2 : k < r ∧ k < c
      · have h3 : k < r ∧ k = k := by omega
        rw [if_pos h2, if_neg h1, if_pos h3, if_neg h1, if_pos h2]
      · rw [if_neg h2, if_neg h1, if_neg h1, if_neg h2]

theorem luRound_old [Field T] (M : grid T) (k r c : Nat) (h : r ≤ k ∨ c < k) :
    luRound M k r c = M.entry r c := by
  unfold luRound
  have h1 : ¬ (k < r ∧ c = k) := by omega
  have h2 : ¬ (k < r ∧ k < c) := by omega
  rw [if_neg h1, if_neg h2]

theorem luRound_col [Field T] (M : grid T) (k r : Nat) (h : k < r) :
    luRound M k r k = M.entry r k / M.entry k k := by
  unfold luRound
  rw [if_pos ⟨h, rfl⟩]

theorem luRound_new [Field T] (M : grid T) (k r c : Nat) (hr : k < r) (hc : k < c) :
    luRound M k r c = M.entry r c - M.entry r k / M.entry k k * M.entry k c := by
  unfold luRound
  have h1 : ¬ (k < r ∧ c = k) := by omega
  rw [if_neg h1, if_pos ⟨hr, hc⟩]

/-- A round of `LU` with a non-zero pivot keeps what the stored factorisation
stands for. -/
theorem luSum_step [Field T] (M M2 : grid T) (n k r c : Nat) (hr : r < n) (hc : c < n)
    (hk : k < n) (hd : M.entry k k ≠ 0)
    (hent : ∀ r c, r < n → c < n → M2.entry r c = luRound M k r c) :
    luSum M2 (k + 1) r c = luSum M k r c := by
  unfold luSum
  by_cases hA : min r c < k
  · have e1 : min (min r c) (k + 1) = min r c := by omega
    have e2 : min (min r c) k = min r c := by omega
    rw [e1, e2]
    congr 1
    · apply Finset.sum_congr rfl
      intro x hx
      have hx' : x < min r c := Finset.mem_range.mp hx
      rw [hent r x hr (by omega), hent x c (by omega) hc,
        luRound_old M k r x (by omega), luRound_old M k x c (by omega)]
    · by_cases hcr : c < r
      · have h1 : c < r ∧ c < k + 1 := by omega
        have h2 : c < r ∧ c < k := by omega
        rw [if_pos h1, if_pos h2, hent r c hr hc, hent c c hc hc,
          luRound_old M k r c (by omega), luRound_old M k c c (by omega)]
      · have h1 : ¬ (c < r ∧ c < k + 1) := by omega
        have h2 : ¬ (c < r ∧ c < k) := by omega
        rw [if_neg h1, if_neg h2, hent r c hr hc, luRound_old M k r c (by omega)]
  · have e2 : min (min r c) k = k := by omega
    have h2 : ¬ (c < r ∧ c < k) := by omega
    have hsum : ∀ x, x ∈ Finset.range k →
        M2.entry r x * M2.entry x c = M.entry r x * M.entry x c := by
      intro x hx
      have hx' : x < k := Finset.mem_range.mp hx
      rw [hent r x hr (by omega), hent x c (by omega) hc,
        luRound_old M k r x (by omega), luRound_old M k x c (by omega)]
    rw [e2, if_neg h2]
    by_cases hB1 : r = k
    · have e1 : min (min r c) (k + 1) = k := by omega
      have h1 : ¬ (c < r ∧ c < k + 1) := by omega
      rw [e1, if_neg h1, Finset.sum_congr rfl hsum, hent r c hr hc,
        luRound_old M k r c (by omega)]
    · by_cases hB2 : c = k
      · have e1 : min (min r c) (k + 1) = k := by omega
        have h1 : c < r ∧ c < k + 1 := by omega
        subst hB2
        rw [e1, if_pos h1, Finset.sum_congr rfl hsum, hent r c hr hc, hent c c hc hc,
          luRound_col M c r (by omega), luRound_old M c c c (by omega),
          div_mul_cancel₀ _ hd]
      · have e1 : min (min r c) (k + 1) = k + 1 := by omega
        have h1 : ¬ (c < r ∧ c < k + 1) := by omega
        rw [e1, if_neg h1, Finset.sum_range_succ, Finset.sum_congr rfl hsum,
          hent r c hr hc, hent r k hr hk, hent k c hk hc,
          luRound_new M k r c (by omega) (by omega), luRound_col M k r (by omega),
          luRound_old M k k c (by omega)]
        ring

theorem luSum_zero [Field T] (M : grid T) (r c : Nat) : luSum M 0 r c = M.entry r c := by
  unfold luSum
  have h : ¬ (c < r ∧ c < 0) := by omega
  simp [h]

theorem entry_ofFn [Zero T] (n m : Nat) (f : Nat → Nat → T) (r c : Nat) (hr : r < n)
    (hc : c < m) : (ofFn n m f).entry r c = f r c := by
  have hlt : c * n + r < n * m := offset_lt hr hc
  simp only [entry, ofFn, List.getD_eq_getElem?_getD]
  rw [List.getElem?_map, List.getElem?_range hlt]
  simp only [Option.map_some', Option.getD_some]
  rw [Nat.mul_add_mod_of_lt hr]
  congr 1
  rw [Nat.add_comm, Nat.add_mul_div_right _ _ (by omega : 0 < n), Nat.div_eq_of_lt hr]
  omega

theorem ofFn_WF (n m : Nat) (f : Nat → Nat → T) : (ofFn n m f).WF := by
  simp [WF, ofFn]

/-- The product of the two triangular factors read off `R`, element by element. -/
theorem lower_upper_sum [Field T] (R : grid T) (n r c : Nat) (hr : r < n) (hc : c < n) :
    Finset.sum (Finset.range n) (fun x =>
      (if x < r then R.entry r x else if x = r then 1 else 0) *
        (if x ≤ c then R.entry x c else 0)) = luSum R (n - 1) r c := by
  unfold luSum
  have e : min (min r c) (n - 1) = min r c := by omega
  rw [e]
  have hsub : Finset.range (min r c + 1) ⊆ Finset.range n := by
    intro x hx
    rw [Finset.mem_range] at hx ⊢
    omega
  rw [← Finset.sum_subset hsub (by
    intro x _ hx
    rw [Finset.mem_range] at hx
    by_cases h1 : x ≤ c
    · have h2 : ¬ x < r := by omega
      have h3 : ¬ x = r := by omega
      rw [if_neg h2, if_neg h3, zero_mul]
    · rw [if_neg h1, mul_zero])]
  rw [Finset.sum_range_succ]
  congr 1
  · apply Finset.sum_congr rfl
    intro x hx
    rw [Finset.mem_range] at hx
    have h1 : x < r := by omega
    have h2 : x ≤ c := by omega
    rw [if_pos h1, if_pos h2]
  · by_cases hcr : c < r
    · have e2 : min r c = c := by omega
      have h1 : c < r ∧ c < n - 1 := by omega
      rw [e2, if_pos hcr, if_pos (le_refl c), if_pos h1]
    · have e2 : min r c = r := by omega
      have h1 : ¬ (c < r ∧ c < n - 1) := by omega
      have h2 : ¬ r < r := by omega
      have h3 : r ≤ c := by omega
      rw [e2, if_neg h2, if_pos rfl, if_pos h3, if_neg h1, one_mul]

/-- The state of `LU` after `k` rounds with non-zero pivots still stands for the
input matrix. -/
theorem LUprefix_ok [Field T] (A : grid T) (hwf : A.WF) (hsq : A.nr = A.nc)
    (hpiv : ∀ i, i + 1 < A.nr → ∃ v, A.LUpivot i = Res.ok v ∧ v ≠ 0) :
    ∀ k, k + 1 ≤ A.nr → ∃ M, A.LUprefix k = Res.ok M ∧ M.nr = A.nr ∧ M.nc = A.nr ∧
      M.WF ∧ ∀ r c, r < A.nr → c < A.nr → luSum M k r c = A.entry r c := by
  intro k
  induction k with
  | zero =>
    intro _
    refine ⟨A, rfl, rfl, hsq.symm, hwf, ?_⟩
    intro r c _ _
    exact luSum_zero A r c
  | succ k ih =>
    intro hk
    obtain ⟨M, hM, mnr, mnc, mwf, msum⟩ := ih (by omega)
    obtain ⟨v, hv, hv0⟩ := hpiv k (by omega)
    have hkk : M.entry k k ≠ 0 := by
      simp only [LUpivot, hM, Res.ok_bind, at2_eq mwf (by omega : k < M.nr)
        (by omega : k < M.nc)] at hv
      cases hv
      exact hv0
    obtain ⟨M2, h2, nr2, nc2, wf2, ent2⟩ := LUstep_ok M A.nr k mwf mnr mnc (by omega)
    refine ⟨M2, ?_, nr2, nc2, wf2, ?_⟩
    · unfold LUprefix at hM ⊢
      rw [forLoop_succ 0 k _ _ (Nat.zero_le k), hM, Res.ok_bind, h2]
    · intro r c hr hc
      rw [luSum_step M M2 A.nr k r c hr hc (by omega) hkk ent2]
      exact msum r c hr hc

theorem LU_ok [Field T] (A : grid T) (hwf : A.WF) (hsq : A.nr = A.nc) (hn : 1 ≤ A.nr)
    (hpiv : ∀ i, i + 1 < A.nr → ∃ v, A.LUpivot i = Res.ok v ∧ v ≠ 0) :
    ∃ R, A.LU = Res.ok R ∧ R.nr = A.nr ∧ R.nc = A.nr ∧ R.WF ∧
      ∀ r c, r < A.nr → c < A.nr → luSum R (A.nr - 1) r c = A.entry r c := by
  obtain ⟨R, hR, rnr, rnc, rwf, rsum⟩ :=
    LUprefix_ok A hwf hsq hpiv (A.nr - 1) (by omega)
  refine ⟨R, ?_, rnr, rnc, rwf, rsum⟩
  have hdec : decide (A.nr = A.nc) = true := by simpa using hsq
  have hne : ¬ A.nr = 0 := by omega
  simp only [LU, invariant_of_WF A hwf, hdec, assert_true, Res.ok_bind, if_neg hne,
    hR, invariant_of_WF R rwf, Bool.and_self, Res.pure_eq]

/-- C6 as stated fails: the 1 x 1 grid with entry 1 left by `init(1, 1)` on a
1 x 2 grid keeps two stored elements; it has no pivot to check, and `LU` fails
its invariant assertion on it instead of returning a decomposition. -/
theorem LU_stale_storage :
    ((mk2 1 2 : grid ℚ).put2 0 0 1 >>= fun g => Res.ok (g.init 1 1)) = Res.ok staleUnit ∧
      staleUnit.nr = 1 ∧ staleUnit.nc = 1 ∧
      (∀ i, i + 1 < staleUnit.nr → ∃ v, staleUnit.LUpivot i = Res.ok v ∧ v ≠ 0) ∧
      staleUnit.LU = Res.err Fault.assertion :=
  ⟨by decide!, by decide, by decide,
    fun i hi => absurd hi (by simp [staleUnit]), by decide!⟩

/-- C6, amended: for an `n x n` grid `A` with `n >= 1` and `n * n` elements over a
field, if every pivot `tmp(i, i)` read at round `i < n - 1` is non-zero, then
`LU` returns an `n x n` grid `R` such that the product, computed by
`operator*`, of the unit lower-triangular matrix holding the entries of `R`
below the diagonal and the upper-triangular matrix holding the entries of `R`
on and above the diagonal is `A`.  `A` is a `const` receiver and is unchanged. -/
theorem LU_decomposition [Field T] (A : grid T) (hwf : A.sto.length = A.nr * A.nc)
    (hsq : A.nr = A.nc) (hn : 1 ≤ A.nr)
    (hpiv : ∀ i, i + 1 < A.nr → ∃ v, A.LUpivot i = Res.ok v ∧ v ≠ 0) :
    ∃ R, A.LU = Res.ok R ∧ R.nr = A.nr ∧ R.nc = A.nc ∧
      (unitLower R).mul (upper R) = Res.ok A := by
  obtain ⟨R, hR, rnr, rnc, rwf, rsum⟩ := LU_ok A hwf hsq hn hpiv
  refine ⟨R, hR, rnr, by omega, ?_⟩
  obtain ⟨P, hP, pnr, pnc, pwf, pent⟩ := mul_ok (unitLower R) (upper R)
    (ofFn_WF _ _ _) (ofFn_WF _ _ _) (by simp only [unitLower, upper, ofFn]; omega)
  rw [hP]
  congr 1
  have e1 : (unitLower R).nr = A.nr := by simp only [unitLower, ofFn]; omega
  have e2 : (upper R).nc = A.nr := by simp only [upper, ofFn]; omega
  have e3 : (unitLower R).nc = A.nr := by simp only [unitLower, ofFn]; omega
  apply ext_entry pwf hwf (by omega) (by omega)
  intro r c hr hc
  have hr' : r < A.nr := by omega
  have hc' : c < A.nr := by omega
  rw [pent r c (by omega) (by omega), ← rsum r c hr' hc',
    ← lower_upper_sum R A.nr r c hr' hc', dotPrefix, e3]
  apply Finset.sum_congr rfl
  intro x hx
  rw [Finset.mem_range] at hx
  rw [unitLower, upper, entry_ofFn _ _ _ r x (by omega) (by omega),
    entry_ofFn _ _ _ x c (by omega) (by omega)]

/-- C6, amended, at the matrix `[[4,3,2],[3,4,3],[2,3,4]]`, whose pivots are `4` and
`7/4`. -/
theorem LU_decomposition_witness :
    sampleQ3.sto.length = sampleQ3.nr * sampleQ3.nc ∧ sampleQ3.nr = sampleQ3.nc ∧
      1 ≤ sampleQ3.nr ∧
      (∀ i, i + 1 < sampleQ3.nr → ∃ v, sampleQ3.LUpivot i = Res.ok v ∧ v ≠ 0) ∧
      ∃ R, sampleQ3.LU = Res.ok R ∧ R.nr = sampleQ3.nr ∧ R.nc = sampleQ3.nc ∧
        (unitLower R).mul (upper R) = Res.ok sampleQ3 :=
  have hpiv : ∀ i, i + 1 < sampleQ3.nr → ∃ v, sampleQ3.LUpivot i = Res.ok v ∧ v ≠ 0 := by
    intro i hi
    have hi' : i = 0 ∨ i = 1 := by
      have : sampleQ3.nr = 3 := rfl
      omega
    rcases hi' with rfl | rfl
    · exact ⟨4, by decide!, by norm_num⟩
    · exact ⟨7 / 4, by decide!, by norm_num⟩
  ⟨by decide, by decide, by decide, hpiv,
    LU_decomposition sampleQ3 (by decide) (by decide) (by decide) hpiv⟩

/-! ## Gauss-Jordan inversion: the loops -/

theorem at1_eq_at2 (g : grid T) (r : Nat) : g.at1 r = g.at2 r 0 := by
  simp only [at1, at2, Nat.zero_mul, Nat.zero_add]

theorem put1_eq_put2 (g : grid T) (r : Nat) (v : T) : g.put1 r v = g.put2 r 0 v := by
  simp only [put1, put2, Nat.zero_mul, Nat.zero_add]

theorem at1_eq [Zero T] {g : grid T} (h : g.WF) (hc : g.nc = 1) {r : Nat}
    (hr : r < g.nr) : g.at1 r = Res.ok (g.entry r 0) := by
  rw [at1_eq_at2, at2_eq h hr (by omega)]

theorem put1_eq {g : grid T} (h : g.WF) (hc : g.nc = 1) {r : Nat} (hr : r < g.nr)
    (v : T) : g.put1 r v = Res.ok (g.upd r 0 v) := by
  rw [put1_eq_put2, put2_eq h hr (by omega)]

theorem mk1_WF [Zero T] (n : Nat) : (mk1 n : grid T).WF := by
  simp [WF, mk1]

theorem swap2_ok [Zero T] {g : grid T} (h : g.WF) {r1 c1 r2 c2 : Nat} (h1 : r1 < g.nr)
    (h2 : c1 < g.nc) (h3 : r2 < g.nr) (h4 : c2 < g.nc) :
    g.swap2 r1 c1 r2 c2 =
      Res.ok ((g.upd r1 c1 (g.entry r2 c2)).upd r2 c2 (g.entry r1 c1)) := by
  simp only [swap2, at2_eq h h1 h2, at2_eq h h3 h4, Res.ok_bind, put2_eq h h1 h2]
  exact put2_eq (upd_WF h _ _ _) h3 h4 _

/-- The loop `for (j = 0; j < nr; ++j) p(j) = j`. -/
theorem permInit_ok (n : Nat) :
    ∃ p : grid Nat, forLoop 0 n (fun j p => p.put1 j j) (mk1 n) = Res.ok p ∧
      p.nr = n ∧ p.nc = 1 ∧ p.WF ∧ ∀ k, k < n → p.entry k 0 = k := by
  have hloop := forLoop_inv 0 n (fun j (p : grid Nat) => p.put1 j j)
    (fun j (p : grid Nat) => p.nr = n ∧ p.nc = 1 ∧ p.WF ∧ ∀ k, k < j → p.entry k 0 = k)
    (mk1 n) (Nat.zero_le _)
    ⟨rfl, rfl, mk1_WF n, fun k hk => absurd hk (Nat.not_lt_zero k)⟩
    (by
      intro j p _ hj ⟨pnr, pnc, pwf, pent⟩
      have hj' : j < p.nr := by omega
      refine ⟨p.upd j 0 j, put1_eq pwf pnc hj' j, pnr, pnc, upd_WF pwf _ _ _, ?_⟩
      intro k hk
      rw [entry_upd pwf hj' (by omega) (by omega) (by omega)]
      by_cases e : k = j
      · rw [if_pos ⟨e, rfl⟩, e]
      · have : ¬ (k = j ∧ 0 = 0) := by omega
        rw [if_neg this]
        exact pent k (by omega))
  exact hloop

/-- The pivot search returns a row `r` in `[j, n)` whose entry in column `j`
has the largest absolute value among the rows `j .. n - 1`. -/
theorem invPivot_ok [LinearOrderedField T] (M : grid T) (n j : Nat) (hwf : M.WF)
    (hnr : M.nr = n) (hnc : M.nc = n) (hj : j < n) :
    ∃ mx r, invPivot n j M = Res.ok (mx, r) ∧ j ≤ r ∧ r < n ∧ mx = |M.entry r j| ∧
      ∀ i, j ≤ i → i < n → |M.entry i j| ≤ mx := by
  have hloop := forLoop_inv (j + 1) n
    (fun i (s : T × Nat) => do
      let v ← M.at2 i j
      if |v| > s.1 then pure (|v|, i) else pure s)
    (fun i (s : T × Nat) => j ≤ s.2 ∧ s.2 < n ∧ s.1 = |M.entry s.2 j| ∧
      ∀ i', j ≤ i' → i' < i → |M.entry i' j| ≤ s.1)
    (|M.entry j j|, j) (by omega)
    ⟨le_refl j, hj, rfl, by
      intro i' h1 h2
      have : i' = j := by omega
      rw [this]⟩
    (by
      intro i s hi1 hi2 ⟨s1, s2, s3, s4⟩
      simp only [at2_eq hwf (by omega : i < M.nr) (by omega : j < M.nc), Res.ok_bind]
      by_cases hgt : |M.entry i j| > s.1
      · refine ⟨(|M.entry i j|, i), by rw [if_pos hgt]; rfl, by omega, by omega, rfl, ?_⟩
        intro i' h1 h2
        by_cases e : i' = i
        · rw [e]
        · exact le_trans (s4 i' h1 (by omega)) (le_of_lt hgt)
      · refine ⟨s, by rw [if_neg hgt]; rfl, s1, s2, s3, ?_⟩
        intro i' h1 h2
        by_cases e : i' = i
        · rw [e]; exact not_lt.mp hgt
        · exact s4 i' h1 (by omega))
  obtain ⟨⟨mx, r⟩, hs, h1, h2, h3, h4⟩ := hloop
  refine ⟨mx, r, ?_, h1, h2, h3, h4⟩
  simp only [invPivot, at2_eq hwf (by omega : j < M.nr) (by omega : j < M.nc), Res.ok_bind]
  exact hs

theorem swapFn_self {α : Type} (j : Nat) (f : Nat → α) (i : Nat) :
    swapFn j j f i = f i := by
  unfold swapFn
  by_cases h : i = j
  · rw [if_pos h, h]
  · rw [if_neg h, if_neg h]

theorem entry_swap2 [Zero T] {g : grid T} (h : g.WF) {r1 r2 c i k : Nat} (h1 : r1 < g.nr)
    (h3 : r2 < g.nr) (h2 : c < g.nc) (hi : i < g.nr) (hk : k < g.nc) :
    ((g.upd r1 c (g.entry r2 c)).upd r2 c (g.entry r1 c)).entry i k =
      if k = c then swapFn r1 r2 (fun x => g.entry x c) i else g.entry i k := by
  rw [entry_upd (upd_WF h _ _ _) h3 h2 hi hk, entry_upd h h1 h2 hi hk]
  unfold swapFn
  by_cases e : k = c
  · subst e
    by_cases e2 : i = r2
    · subst e2
      by_cases e1 : i = r1
      · subst e1
        rw [if_pos ⟨rfl, rfl⟩, if_pos rfl, if_pos rfl]
      · rw [if_pos ⟨rfl, rfl⟩, if_pos rfl, if_neg e1, if_pos rfl]
    · have n2 : ¬ (i = r2 ∧ k = k) := by omega
      by_cases e1 : i = r1
      · rw [if_neg n2, if_pos ⟨e1, rfl⟩, if_pos rfl, if_pos e1]
      · have n1 : ¬ (i = r1 ∧ k = k) := by omega
        rw [if_neg n2, if_neg n1, if_pos rfl, if_neg e1, if_neg e2]
  · have n2 : ¬ (i = r2 ∧ k = c) := by omega
    have n1 : ¬ (i = r1 ∧ k = c) := by omega
    rw [if_neg n2, if_neg n1, if_neg e]

/-- The row exchange of `inverse` swaps rows `j` and `r` of `tmp` and entries
`j` and `r` of `p`. -/
theorem invSwap_ok [Zero T] (M : grid T) (p : grid Nat) (n j r : Nat) (hwf : M.WF)
    (hnr : M.nr = n) (hnc : M.nc = n) (pwf : p.WF) (pnr : p.nr = n) (pnc : p.nc = 1)
    (hj : j ≤ r) (hr : r < n) :
    ∃ M' p', invSwap n j r (M, p) = Res.ok (M', p') ∧ M'.nr = n ∧ M'.nc = n ∧ M'.WF ∧
      p'.nr = n ∧ p'.nc = 1 ∧ p'.WF ∧
      (∀ i k, i < n → k < n → M'.entry i k = swapFn j r (fun x => M.entry x k) i) ∧
      ∀ i, i < n → p'.entry i 0 = swapFn j r (fun x => p.entry x 0) i := by
  by_cases hgt : r > j
  · have hloop := forLoop_inv 0 n (fun k (t : grid T) => t.swap2 j k r k)
      (fun kk (s : grid T) => s.nr = n ∧ s.nc = n ∧ s.WF ∧
        ∀ i k, i < n → k < n → s.entry i k =
          if k < kk then swapFn j r (fun x => M.entry x k) i else M.entry i k)
      M (Nat.zero_le _)
      ⟨hnr, hnc, hwf, by
        intro i k _ _
        rw [if_neg (Nat.not_lt_zero k)]⟩
      (by
        intro kk s _ hkk ⟨snr, snc, swf, sent⟩
        have h1 : j < s.nr := by omega
        have h2 : r < s.nr := by omega
        have h3 : kk < s.nc := by omega
        refine ⟨_, swap2_ok swf h1 h3 h2 h3, snr, snc,
          upd_WF (upd_WF swf _ _ _) _ _ _, ?_⟩
        intro i k hi hk
        rw [entry_swap2 swf h1 h2 h3 (by omega) (by omega)]
        by_cases e : k = kk
        · subst e
          have : k < k + 1 := by omega
          rw [if_pos rfl, if_pos this]
          simp only [swapFn, sent r k hr hk, sent j k (by omega : j < n) hk,
            sent i k hi hk, if_neg (Nat.lt_irrefl k)]
        · rw [if_neg e, sent i k hi hk]
          by_cases h : k < kk
          · have : k < kk + 1 := by omega
            rw [if_pos h, if_pos this]
          · have : ¬ k < kk + 1 := by omega
            rw [if_neg h, if_neg this])
    obtain ⟨M', hM', mnr, mnc, mwf, ment⟩ := hloop
    have hj' : j < p.nr := by omega
    have hr' : r < p.nr := by omega
    have hp : p.swap1 j r = Res.ok ((p.upd j 0 (p.entry r 0)).upd r 0 (p.entry j 0)) := by
      simp only [swap1, at1_eq pwf pnc hj', at1_eq pwf pnc hr', Res.ok_bind,
        put1_eq pwf pnc hj']
      exact put1_eq (upd_WF pwf _ _ _) pnc hr' _
    refine ⟨M', (p.upd j 0 (p.entry r 0)).upd r 0 (p.entry j 0), ?_, mnr, mnc, mwf,
      pnr, pnc, upd_WF (upd_WF pwf _ _ _) _ _ _, ?_, ?_⟩
    · simp only [invSwap, if_pos hgt, hM', Res.ok_bind, hp, Res.pure_eq]
    · intro i k hi hk
      rw [ment i k hi hk, if_pos hk]
    · intro i hi
      rw [entry_swap2 pwf hj' hr' (by omega) (by omega) (by omega), if_pos rfl]
  · have e : r = j := by omega
    subst e
    refine ⟨M, p, ?_, hnr, hnc, hwf, pnr, pnc, pwf, ?_, ?_⟩
    · simp only [invSwap, if_neg hgt, Res.pure_eq]
    · intro i k _ _
      rw [swapFn_self]
    · intro i _
      rw [swapFn_self]

theorem invRound_col [Field T] (M : grid T) (j i : Nat) :
    invRound M j i j = invScaled M j i j := by
  unfold invRound invScaled
  rw [if_pos rfl, if_pos rfl]

theorem invScaled_ne [Field T] (M : grid T) (j i k : Nat) (h : k ≠ j) :
    invScaled M j i k = M.entry i k := by
  unfold invScaled
  rw [if_neg h]

theorem invScaled_col [Field T] (M : grid T) (j i : Nat) (h : i ≠ j) :
    invScaled M j i j = M.entry i j * (1 / M.entry j j) := by
  unfold invScaled
  rw [if_pos rfl, if_neg h]

/-- First half of the elimination: column `j` is scaled and the pivot cell set. -/
theorem invScale_ok [LinearOrderedField T] (M : grid T) (n j : Nat) (hwf : M.WF)
    (hnr : M.nr = n) (hnc : M.nc = n) (hj : j < n) :
    ∃ t1, forLoop 0 n (fun i (t : grid T) => do
        let v ← t.at2 i j
        t.put2 i j (v * (1 / M.entry j j))) M = Res.ok t1 ∧
      t1.nr = n ∧ t1.nc = n ∧ t1.WF ∧
      ∀ i k, i < n → k < n → t1.entry i k =
        if k = j then M.entry i j * (1 / M.entry j j) else M.entry i k := by
  have hloop := forLoop_inv 0 n
    (fun i (t : grid T) => do
      let v ← t.at2 i j
      t.put2 i j (v * (1 / M.entry j j)))
    (fun ii (s : grid T) => s.nr = n ∧ s.nc = n ∧ s.WF ∧
      ∀ i k, i < n → k < n → s.entry i k =
        if k = j ∧ i < ii then M.entry i j * (1 / M.entry j j) else M.entry i k)
    M (Nat.zero_le _)
    ⟨hnr, hnc, hwf, by
      intro i k _ _
      have : ¬ (k = j ∧ i < 0) := by omega
      rw [if_neg this]⟩
    (by
      intro ii s _ hii ⟨snr, snc, swf, sent⟩
      have h1 : ii < s.nr := by omega
      have h2 : j < s.nc := by omega
      have e1 : s.entry ii j = M.entry ii j := by
        rw [sent ii j hii hj]
        have : ¬ (j = j ∧ ii < ii) := by omega
        rw [if_neg this]
      refine ⟨s.upd ii j (M.entry ii j * (1 / M.entry j j)), ?_, snr, snc,
        upd_WF swf _ _ _, ?_⟩
      · simp only [at2_eq swf h1 h2, Res.ok_bind, e1]
        exact put2_eq swf h1 h2 _
      · intro i k hi hk
        rw [entry_upd swf h1 h2 (by omega) (by omega)]
        by_cases e : i = ii ∧ k = j
        · obtain ⟨rfl, rfl⟩ := e
          have : k = k ∧ i < i + 1 := by omega
          rw [if_pos ⟨rfl, rfl⟩, if_pos this]
        · rw [if_neg e, sent i k hi hk]
          by_cases h : k = j ∧ i < ii
          · have : k = j ∧ i < ii + 1 := by omega
            rw [if_pos h, if_pos this]
          · have : ¬ (k = j ∧ i < ii + 1) := by omega
            rw [if_neg h, if_neg this])
  obtain ⟨t1, h1, tnr, tnc, twf, tent⟩ := hloop
  refine ⟨t1, h1, tnr, tnc, twf, ?_⟩
  intro i k hi hk
  rw [tent i k hi hk]
  by_cases h : k = j
  · rw [if_pos ⟨h, hi⟩, if_pos h]
  · have : ¬ (k = j ∧ i < n) := by omega
    rw [if_neg this, if_neg h]

/-- Second half of the elimination, for one column `k` different from `j`. -/
theorem invColumn_ok [LinearOrderedField T] (M s : grid T) (n j k : Nat) (hj : j < n)
    (hk : k < n) (hkj : k ≠ j) (swf : s.WF) (snr : s.nr = n) (snc : s.nc = n)
    (sent : ∀ i c, i < n → c < n → s.entry i c =
      if c < k then invRound M j i c else invScaled M j i c) :
    ∃ t, (do
        let t3 ← forLoop 0 n (fun i (u : grid T) =>
          if i = j then pure u else do
            let x ← u.at2 i k
            let a ← u.at2 i j
            let b ← u.at2 j k
            u.put2 i k (x - a * b)) s
        let v ← t3.at2 j k
        t3.put2 j k (v * (-(1 / M.entry j j)))) = Res.ok t ∧
      t.nr = n ∧ t.nc = n ∧ t.WF ∧
      ∀ i c, i < n → c < n → t.entry i c =
        if c < k + 1 then invRound M j i c else invScaled M j i c := by
  have colj : ∀ i, i < n → i ≠ j → s.entry i j = M.entry i j * (1 / M.entry j j) := by
    intro i hi hij
    rw [sent i j hi hj]
    by_cases h : j < k
    · rw [if_pos h, invRound_col, invScaled_col M j i hij]
    · rw [if_neg h, invScaled_col M j i hij]
  have colk : ∀ i, i < n → s.entry i k = M.entry i k := by
    intro i hi
    rw [sent i k hi hk, if_neg (Nat.lt_irrefl k), invScaled_ne M j i k hkj]
  have hloop := forLoop_inv 0 n
    (fun i (u : grid T) =>
      if i = j then pure u else do
        let x ← u.at2 i k
        let a ← u.at2 i j
        let b ← u.at2 j k
        u.put2 i k (x - a * b))
    (fun ii (u : grid T) => u.nr = n ∧ u.nc = n ∧ u.WF ∧
      ∀ i c, i < n → c < n → u.entry i c =
        if c = k ∧ i < ii ∧ i ≠ j then
          M.entry i k - M.entry i j * (1 / M.entry j j) * M.entry j k
        else s.entry i c)
    s (Nat.zero_le _)
    ⟨snr, snc, swf, by
      intro i c _ _
      have : ¬ (c = k ∧ i < 0 ∧ i ≠ j) := by omega
      rw [if_neg this]⟩
    (by
      intro ii u _ hii ⟨unr, unc, uwf, uent⟩
      by_cases hij : ii = j
      · refine ⟨u, by beta_reduce; rw [if_pos hij]; rfl, unr, unc, uwf, ?_⟩
        intro i c hi hc
        rw [uent i c hi hc]
        by_cases h : c = k ∧ i < ii ∧ i ≠ j
        · have : c = k ∧ i < ii + 1 ∧ i ≠ j := by omega
          rw [if_pos h, if_pos this]
        · have : ¬ (c = k ∧ i < ii + 1 ∧ i ≠ j) := by omega
          rw [if_neg h, if_neg this]
      · have h1 : ii < u.nr := by omega
        have h2 : k < u.nc := by omega
        have h3 : j < u.nc := by omega
        have h4 : j < u.nr := by omega
        have e1 : u.entry ii k = M.entry ii k := by
          rw [uent ii k hii hk]
          have : ¬ (k = k ∧ ii < ii ∧ ii ≠ j) := by omega
          rw [if_neg this, colk ii hii]
        have e2 : u.entry ii j = M.entry ii j * (1 / M.entry j j) := by
          rw [uent ii j hii hj]
          have : ¬ (j = k ∧ ii < ii ∧ ii ≠ j) := by omega
          rw [if_neg this, colj ii hii hij]
        have e3 : u.entry j k = M.entry j k := by
          rw [uent j k hj hk]
          have : ¬ (k = k ∧ j < ii ∧ j ≠ j) := by omega
          rw [if_neg this, colk j hj]
        refine ⟨u.upd ii k (M.entry ii k - M.entry ii j * (1 / M.entry j j) * M.entry j k),
          ?_, unr, unc, upd_WF uwf _ _ _, ?_⟩
        · beta_reduce
          rw [if_neg hij]
          simp only [at2_eq uwf h1 h2, at2_eq uwf h1 h3, at2_eq uwf h4 h2, Res.ok_bind,
            e1, e2, e3]
          exact put2_eq uwf h1 h2 _
        · intro i c hi hc
          rw [entry_upd uwf h1 h2 (by omega) (by omega)]
          by_cases e : i = ii ∧ c = k
          · obtain ⟨rfl, rfl⟩ := e
            have : c = c ∧ i < i + 1 ∧ i ≠ j := by omega
            rw [if_pos ⟨rfl, rfl⟩, if_pos this]
          · rw [if_neg e, uent i c hi hc]
            by_cases h : c = k ∧ i < ii ∧ i ≠ j
            · have : c = k ∧ i < ii + 1 ∧ i ≠ j := by omega
              rw [if_pos h, if_pos this]
            · have : ¬ (c = k ∧ i < ii + 1 ∧ i ≠ j) := by omega
              rw [if_neg h, if_neg this])
  obtain ⟨t3, h3, tnr, tnc, twf, tent⟩ := hloop
  have hjr : j < t3.nr := by omega
  have hkc : k < t3.nc := by omega
  have e4 : t3.entry j k = M.entry j k := by
    rw [tent j k hj hk]
    have : ¬ (k = k ∧ j < n ∧ j ≠ j) := by omega
    rw [if_neg this, colk j hj]
  refine ⟨t3.upd j k (M.entry j k * (-(1 / M.entry j j))), ?_, tnr, tnc,
    upd_WF twf _ _ _, ?_⟩
  · simp only [h3, Res.ok_bind, at2_eq twf hjr hkc, e4]
    exact put2_eq twf hjr hkc _
  · intro i c hi hc
    rw [entry_upd twf hjr hkc (by omega) (by omega)]
    by_cases e : i = j ∧ c = k
    · obtain ⟨rfl, rfl⟩ := e
      have : c < c + 1 := by omega
      rw [if_pos ⟨rfl, rfl⟩, if_pos this]
      unfold invRound
      rw [if_neg hkj, if_pos rfl]
    · rw [if_neg e, tent i c hi hc]
      by_cases hck : c = k
      · subst hck
        have hij : i ≠ j := by omega
        have h1 : c = c ∧ i < n ∧ i ≠ j := by omega
        have h2 : c < c + 1 := by omega
        rw [if_pos h1, if_pos h2]
        unfold invRound
        rw [if_neg hkj, if_neg hij]
      · have h1 : ¬ (c = k ∧ i < n ∧ i ≠ j) := by omega
        rw [if_neg h1, sent i c hi hc]
        by_cases h : c < k
        · have : c < k + 1 := by omega
          rw [if_pos h, if_pos this]
        · have : ¬ c < k + 1 := by omega
          rw [if_neg h, if_neg this]

/-- The elimination part of a round of `inverse` returns, with the elements
given by `invRound`. -/
theorem invElim_ok [LinearOrderedField T] (M : grid T) (n j : Nat) (hwf : M.WF)
    (hnr : M.nr = n) (hnc : M.nc = n) (hj : j < n) :
    ∃ M2, invElim n j M = Res.ok M2 ∧ M2.nr = n ∧ M2.nc = n ∧ M2.WF ∧
      ∀ i k, i < n → k < n → M2.entry i k = invRound M j i k := by
  obtain ⟨t1, h1, nr1, nc1, wf1, ent1⟩ := invScale_ok M n j hwf hnr hnc hj
  have hj1 : j < t1.nr := by omega
  have hj2 : j < t1.nc := by omega
  have ent2 : ∀ i c, i < n → c < n →
      (t1.upd j j (1 / M.entry j j)).entry i c = invScaled M j i c := by
    intro i c hi hc
    rw [entry_upd wf1 hj1 hj2 (by omega) (by omega), ent1 i c hi hc]
    unfold invScaled
    by_cases e : c = j
    · by_cases e2 : i = j
      · rw [if_pos ⟨e2, e⟩, if_pos e, if_pos e2]
      · have : ¬ (i = j ∧ c = j) := by omega
        rw [if_neg this, if_pos e, if_pos e, if_neg e2]
    · have : ¬ (i = j ∧ c = j) := by omega
      rw [if_neg this, if_neg e, if_neg e]
  have hloop := forLoop_inv 0 n
    (fun k (t : grid T) =>
      if k = j then pure t else do
        let t3 ← forLoop 0 n (fun i (u : grid T) =>
          if i = j then pure u else do
            let x ← u.at2 i k
            let a ← u.at2 i j
            let b ← u.at2 j k
            u.put2 i k (x - a * b)) t
        let v ← t3.at2 j k
        t3.put2 j k (v * (-(1 / M.entry j j))))
    (fun kk (s : grid T) => s.nr = n ∧ s.nc = n ∧ s.WF ∧
      ∀ i c, i < n → c < n → s.entry i c =
        if c < kk then invRound M j i c else invScaled M j i c)
    (t1.upd j j (1 / M.entry j j)) (Nat.zero_le _)
    ⟨nr1, nc1, upd_WF wf1 _ _ _, by
      intro i c hi hc
      rw [ent2 i c hi hc, if_neg (Nat.not_lt_zero c)]⟩
    (by
      intro kk s _ hkk ⟨snr, snc, swf, sent⟩
      by_cases hkj : kk = j
      · refine ⟨s, by beta_reduce; rw [if_pos hkj]; rfl, snr, snc, swf, ?_⟩
        intro i c hi hc
        rw [sent i c hi hc]
        by_cases h : c < kk
        · have : c < kk + 1 := by omega
          rw [if_pos h, if_pos this]
        · by_cases h2 : c = kk
          · have : c < kk + 1 := by omega
            rw [if_neg h, if_pos this, h2, hkj, invRound_col]
          · have : ¬ c < kk + 1 := by omega
            rw [if_neg h, if_neg this]
      · obtain ⟨t, ht, tnr, tnc, twf, tent⟩ :=
          invColumn_ok M s n j kk hj hkk hkj swf snr snc sent
        refine ⟨t, ?_, tnr, tnc, twf, tent⟩
        beta_reduce
        rw [if_neg hkj]
        exact ht)
  obtain ⟨M2, h2, mnr, mnc, mwf, ment⟩ := hloop
  refine ⟨M2, ?_, mnr, mnc, mwf, ?_⟩
  · simp only [invElim, at2_eq hwf (by omega : j < M.nr) (by omega : j < M.nc),
      Res.ok_bind, h1, put2_eq wf1 hj1 hj2]
    exact h2
  · intro i k hi hk
    rw [ment i k hi hk, if_pos hk]

/-- The final loop of `inverse` moves, in every row, the entry of column `k` to
column `p(k)`. -/
theorem invUnscramble_ok [Zero T] (M hv : grid T) (p : grid Nat) (n : Nat) (hwf : M.WF)
    (hnr : M.nr = n) (hnc : M.nc = n) (pwf : p.WF) (pnr : p.nr = n) (pnc : p.nc = 1)
    (vwf : hv.WF) (vnr : hv.nr = n) (vnc : hv.nc = 1)
    (plt : ∀ k, k < n → p.entry k 0 < n)
    (pinj : ∀ k k', k < n → k' < n → p.entry k 0 = p.entry k' 0 → k = k') :
    ∃ R hv', invUnscramble n p (M, hv) = Res.ok (R, hv') ∧ R.nr = n ∧ R.nc = n ∧ R.WF ∧
      ∀ i k, i < n → k < n → R.entry i (p.entry k 0) = M.entry i k := by
  have hloop := forLoop_inv 0 n
    (fun i (s : grid T × grid T) => do
      let s1 ← forLoop 0 n (fun k (u : grid T × grid T) => do
        let pk ← p.at1 k
        let v ← u.1.at2 i k
        let hv ← u.2.put1 pk v
        pure (u.1, hv)) s
      forLoop 0 n (fun k (u : grid T × grid T) => do
        let v ← u.2.at1 k
        let t ← u.1.put2 i k v
        pure (t, u.2)) s1)
    (fun ii (s : grid T × grid T) => s.1.nr = n ∧ s.1.nc = n ∧ s.1.WF ∧
      s.2.nr = n ∧ s.2.nc = 1 ∧ s.2.WF ∧
      (∀ i k, i < ii → k < n → s.1.entry i (p.entry k 0) = M.entry i k) ∧
      ∀ i k, ii ≤ i → i < n → k < n → s.1.entry i k = M.entry i k)
    (M, hv) (Nat.zero_le _)
    ⟨hnr, hnc, hwf, vnr, vnc, vwf, fun i k hi _ => absurd hi (Nat.not_lt_zero i),
      fun _ _ _ _ _ => rfl⟩
    (by
      intro ii s _ hii ⟨tnr, tnc, twf, wnr, wnc, wwf, sdone, srest⟩
      have hfill := forLoop_inv 0 n
        (fun k (u : grid T × grid T) => do
          let pk ← p.at1 k
          let v ← u.1.at2 ii k
          let hv ← u.2.put1 pk v
          pure (u.1, hv))
        (fun kk (u : grid T × grid T) => u.1 = s.1 ∧ u.2.nr = n ∧ u.2.nc = 1 ∧ u.2.WF ∧
          ∀ k, k < kk → u.2.entry (p.entry k 0) 0 = s.1.entry ii k)
        s (Nat.zero_le _)
        ⟨rfl, wnr, wnc, wwf, fun k hk => absurd hk (Nat.not_lt_zero k)⟩
        (by
          intro kk u _ hkk ⟨u1, unr, unc, uwf, uent⟩
          have hp : p.entry kk 0 < u.2.nr := by rw [unr]; exact plt kk hkk
          refine ⟨(u.1, u.2.upd (p.entry kk 0) 0 (s.1.entry ii kk)), ?_, u1, unr, unc,
            upd_WF uwf _ _ _, ?_⟩
          · simp only [at1_eq pwf pnc (by omega : kk < p.nr), Res.ok_bind, u1,
              at2_eq twf (by omega : ii < s.1.nr) (by omega : kk < s.1.nc),
              put1_eq uwf unc hp, Res.pure_eq]
          · intro k hk
            have hpk : p.entry k 0 < u.2.nr := by rw [unr]; exact plt k (by omega)
            rw [entry_upd uwf hp (by omega) hpk (by omega)]
            by_cases e : k = kk
            · rw [e, if_pos ⟨rfl, rfl⟩]
            · have : ¬ (p.entry k 0 = p.entry kk 0 ∧ 0 = 0) := by
                rintro ⟨h, _⟩
                exact e (pinj k kk (by omega) hkk h)
              rw [if_neg this]
              exact uent k (by omega))
      obtain ⟨s1, hs1, s11, vnr1, vnc1, vwf1, vent⟩ := hfill
      have hcopy := forLoop_inv 0 n
        (fun k (u : grid T × grid T) => do
          let v ← u.2.at1 k
          let t ← u.1.put2 ii k v
          pure (t, u.2))
        (fun kk (u : grid T × grid T) => u.2 = s1.2 ∧ u.1.nr = n ∧ u.1.nc = n ∧ u.1.WF ∧
          ∀ i c, i < n → c < n → u.1.entry i c =
            if i = ii ∧ c < kk then s1.2.entry c 0 else s.1.entry i c)
        s1 (Nat.zero_le _)
        ⟨rfl, by rw [s11]; exact tnr, by rw [s11]; exact tnc, by rw [s11]; exact twf, by
          intro i c _ _
          have : ¬ (i = ii ∧ c < 0) := by omega
          rw [if_neg this, s11]⟩
        (by
          intro kk u _ hkk ⟨u2, unr, unc, uwf, uent⟩
          have h1 : ii < u.1.nr := by omega
          have h2 : kk < u.1.nc := by omega
          refine ⟨(u.1.upd ii kk (s1.2.entry kk 0), u.2), ?_, u2, unr, unc,
            upd_WF uwf _ _ _, ?_⟩
          · simp only [u2, at1_eq vwf1 vnc1 (by omega : kk < s1.2.nr), Res.ok_bind,
              put2_eq uwf h1 h2, Res.pure_eq]
          · intro i c hi hc
            rw [entry_upd uwf h1 h2 (by omega) (by omega)]
            by_cases e : i = ii ∧ c = kk
            · obtain ⟨rfl, rfl⟩ := e
              have : i = i ∧ c < c + 1 := by omega
              rw [if_pos ⟨rfl, rfl⟩, if_pos this]
            · rw [if_neg e, uent i c hi hc]
              by_cases h : i = ii ∧ c < kk
              · have : i = ii ∧ c < kk + 1 := by omega
                rw [if_pos h, if_pos this]
              · have : ¬ (i = ii ∧ c < kk + 1) := by omega
                rw [if_neg h, if_neg this])
      obtain ⟨s2, hs2, s22, rnr, rnc, rwf, rent⟩ := hcopy
      refine ⟨s2, ?_, rnr, rnc, rwf, by rw [s22]; exact vnr1, by rw [s22]; exact vnc1,
        by rw [s22]; exact vwf1, ?_, ?_⟩
      · simp only [hs1, Res.ok_bind, hs2]
      · intro i k hi hk
        rw [rent i (p.entry k 0) (by omega) (plt k hk)]
        by_cases e : i = ii
        · rw [if_pos ⟨e, plt k hk⟩, vent k hk, e]
          exact srest ii k (le_refl ii) hii hk
        · have : ¬ (i = ii ∧ p.entry k 0 < n) := by omega
          rw [if_neg this]
          exact sdone i k (by omega) hk
      · intro i k hi1 hi2 hk
        have : ¬ (i = ii ∧ k < n) := by omega
        rw [rent i k hi2 hk, if_neg this]
        exact srest i k (by omega) hi2 hk)
  obtain ⟨⟨R, hv'⟩, hR, rnr, rnc, rwf, _, _, _, rdone, _⟩ := hloop
  exact ⟨R, hv', hR, rnr, rnc, rwf, fun i k hi hk => rdone i k hi hk⟩

/-! ## Gauss-Jordan inversion: the exchange step -/

theorem sum_split_at [AddCommMonoid T] (n j : Nat) (hj : j < n) (f : Nat → T) :
    Finset.sum (Finset.range n) f = f j + Finset.sum ((Finset.range n).erase j) f :=
  (Finset.add_sum_erase (Finset.range n) f (Finset.mem_range.mpr hj)).symm

/-- The algebra of one exchange: if every `w i` is the combination of the `z k`
with the coefficients of `M`, and the pivot `M(j, j)` is non-zero, then after
exchanging `w j` and `z j` the coefficients are those of `invRound`. -/
theorem invRound_exchange [Field T] (M : grid T) (n j : Nat) (hj : j < n)
    (hd : M.entry j j ≠ 0) (w z : Nat → T)
    (h : ∀ i, i < n → w i = Finset.sum (Finset.range n) (fun k => M.entry i k * z k)) :
    ∀ i, i < n → (if i = j then z j else w i) =
      Finset.sum (Finset.range n)
        (fun k => invRound M j i k * (if k = j then w j else z k)) := by
  intro i hi
  have hw : ∀ i, i < n → w i = M.entry i j * z j +
      Finset.sum ((Finset.range n).erase j) (fun k => M.entry i k * z k) := by
    intro i hi
    rw [h i hi, sum_split_at n j hj]
  rw [sum_split_at n j hj, if_pos rfl]
  by_cases hij : i = j
  · subst hij
    have hrest : Finset.sum ((Finset.range n).erase i)
        (fun k => invRound M i i k * (if k = i then w i else z k)) =
        -(1 / M.entry i i) *
          Finset.sum ((Finset.range n).erase i) (fun k => M.entry i k * z k) := by
      rw [Finset.mul_sum]
      apply Finset.sum_congr rfl
      intro k hk
      have hk' : k ≠ i := (Finset.mem_erase.mp hk).1
      unfold invRound
      rw [if_neg hk', if_neg hk', if_pos rfl]
      ring
    rw [hrest, if_pos rfl, hw i hi]
    unfold invRound
    rw [if_pos rfl, if_pos rfl]
    field_simp
  · have hrest : Finset.sum ((Finset.range n).erase j)
        (fun k => invRound M j i k * (if k = j then w j else z k)) =
        Finset.sum ((Finset.range n).erase j) (fun k => M.entry i k * z k) -
          M.entry i j * (1 / M.entry j j) *
            Finset.sum ((Finset.range n).erase j) (fun k => M.entry j k * z k) := by
      rw [Finset.mul_sum, ← Finset.sum_sub_distrib]
      apply Finset.sum_congr rfl
      intro k hk
      have hk' : k ≠ j := (Finset.mem_erase.mp hk).1
      unfold invRound
      rw [if_neg hk', if_neg hk', if_neg hij]
      ring
    rw [hrest, if_neg hij, hw i hi, hw j hj]
    unfold invRound
    rw [if_pos rfl, if_neg hij]
    field_simp
    ring

theorem tabL_succ [Zero T] [One T] (A : grid T) (π : Nat → Nat) (j i c : Nat) :
    tabL A π (j + 1) i c = if i = j then tabR A π j j c else tabL A π j i c := by
  unfold tabL tabR
  by_cases e : i = j
  · subst e
    rw [if_pos (Nat.lt_succ_self i), if_pos rfl, if_neg (Nat.lt_irrefl i)]
  · rw [if_neg e]
    by_cases h : i < j
    · have : i < j + 1 := by omega
      rw [if_pos h, if_pos this]
    · have : ¬ i < j + 1 := by omega
      rw [if_neg h, if_neg this]

theorem tabR_succ [Zero T] [One T] (A : grid T) (π : Nat → Nat) (j k c : Nat) :
    tabR A π (j + 1) k c = if k = j then tabL A π j j c else tabR A π j k c := by
  unfold tabL tabR
  by_cases e : k = j
  · subst e
    rw [if_pos (Nat.lt_succ_self k), if_pos rfl, if_neg (Nat.lt_irrefl k)]
  · rw [if_neg e]
    by_cases h : k < j
    · have : k < j + 1 := by omega
      rw [if_pos h, if_pos this]
    · have : ¬ k < j + 1 := by omega
      rw [if_neg h, if_neg this]

/-- The elimination part of a round keeps the tableau relation, one column
further. -/
theorem Tableau_elim [Field T] (A M M2 : grid T) (π : Nat → Nat) (n j : Nat) (hj : j < n)
    (hd : M.entry j j ≠ 0) (h : Tableau A M π n j)
    (hent : ∀ i k, i < n → k < n → M2.entry i k = invRound M j i k) :
    Tableau A M2 π n (j + 1) := by
  intro i c hi hc
  have hex := invRound_exchange M n j hj hd (fun i => tabL A π j i c)
    (fun k => tabR A π j k c) (fun i hi => h i c hi hc) i hi
  rw [tabL_succ, hex]
  apply Finset.sum_congr rfl
  intro k hk
  rw [hent i k hi (Finset.mem_range.mp hk), tabR_succ]

/-- Exchanging two rows not yet processed, together with their labels, keeps the
tableau relation. -/
theorem Tableau_swap [Field T] (A M M' : grid T) (π π' : Nat → Nat) (n j r : Nat)
    (hjr : j ≤ r) (hr : r < n) (h : Tableau A M π n j)
    (hent : ∀ i k, i < n → k < n → M'.entry i k = swapFn j r (fun x => M.entry x k) i)
    (hπ : ∀ i, i < n → π' i = swapFn j r π i) :
    Tableau A M' π' n j := by
  have hR : ∀ k c, k < n → tabR A π' j k c = tabR A π j k c := by
    intro k c hk
    unfold tabR
    by_cases hkj : k < j
    · have e : π' k = π k := by
        rw [hπ k hk]
        unfold swapFn
        rw [if_neg (by omega), if_neg (by omega)]
      rw [if_pos hkj, if_pos hkj, e]
    · rw [if_neg hkj, if_neg hkj]
  intro i c hi hc
  have hsum : Finset.sum (Finset.range n) (fun k => M'.entry i k * tabR A π' j k c) =
      Finset.sum (Finset.range n)
        (fun k => swapFn j r (fun x => M.entry x k) i * tabR A π j k c) := by
    apply Finset.sum_congr rfl
    intro k hk
    rw [hent i k hi (Finset.mem_range.mp hk), hR k c (Finset.mem_range.mp hk)]
  rw [hsum]
  unfold tabL
  by_cases e1 : i = j
  · subst e1
    have hl := h r c hr hc
    unfold tabL at hl
    rw [if_neg (by omega)] at hl
    rw [if_neg (Nat.lt_irrefl i), hπ i hi]
    simp only [swapFn, if_pos rfl]
    exact hl
  · by_cases e2 : i = r
    · subst e2
      have hl := h j c (by omega) hc
      unfold tabL at hl
      rw [if_neg (Nat.lt_irrefl j)] at hl
      rw [if_neg (by omega), hπ i hi]
      simp only [swapFn, if_neg e1, if_pos rfl]
      exact hl
    · have hl := h i c hi hc
      unfold tabL at hl
      rw [hπ i hi]
      simp only [swapFn, if_neg e1, if_neg e2]
      exact hl

theorem PermOn_swap (π π' : Nat → Nat) (n j r : Nat) (hj : j < n) (hr : r < n)
    (h : PermOn π n) (hπ : ∀ i, i < n → π' i = swapFn j r π i) : PermOn π' n := by
  obtain ⟨hlt, hinj, hsurj⟩ := h
  have key : ∀ i, i < n → π' i = π (if i = j then r else if i = r then j else i) := by
    intro i hi
    rw [hπ i hi]
    unfold swapFn
    by_cases e1 : i = j
    · rw [if_pos e1, if_pos e1]
    · by_cases e2 : i = r
      · rw [if_neg e1, if_pos e2, if_neg e1, if_pos e2]
      · rw [if_neg e1, if_neg e2, if_neg e1, if_neg e2]
  have hσ : ∀ i, i < n → (if i = j then r else if i = r then j else i) < n := by
    intro i hi
    split_ifs <;> omega
  refine ⟨?_, ?_, ?_⟩
  · intro k hk
    rw [key k hk]
    exact hlt _ (hσ k hk)
  · intro a b ha hb hab
    rw [key a ha, key b hb] at hab
    have hab' := hinj _ _ (hσ a ha) (hσ b hb) hab
    split_ifs at hab' <;> omega
  · intro c hc
    obtain ⟨k, hk, e⟩ := hsurj c hc
    refine ⟨if k = j then r else if k = r then j else k, hσ k hk, ?_⟩
    rw [key _ (hσ k hk), ← e]
    congr 1
    split_ifs <;> omega

/-! ## Gauss-Jordan inversion: determinants -/

theorem sum_fin_indicator [Field T] (n : Nat) (a : Nat) (ha : a < n) (f : Nat → T) :
    Finset.sum Finset.univ (fun x : Fin n => (if (x : Nat) = a then (1 : T) else 0) * f x) =
      f a := by
  rw [Finset.sum_eq_single (⟨a, ha⟩ : Fin n)]
  · simp
  · intro b _ hb
    have : ¬ (b : Nat) = a := fun h => hb (Fin.ext h)
    rw [if_neg this, zero_mul]
  · intro h
    exact absurd (Finset.mem_univ _) h

/-- With an invertible input, the pivot column of a tableau has a non-zero entry
at or below the diagonal. -/
theorem pivot_exists [Field T] (A M : grid T) (π : Nat → Nat) (j : Nat) (hj : j < A.nr)
    (hπ : PermOn π A.nr) (h : Tableau A M π A.nr j) (hdet : (sqMatrix A).det ≠ 0) :
    ∃ i, j ≤ i ∧ i < A.nr ∧ M.entry i j ≠ 0 := by
  by_contra hno
  have hzero : ∀ i, j ≤ i → i < A.nr → M.entry i j = 0 := by
    intro i h1 h2
    by_contra hne
    exact hno ⟨i, h1, h2, hne⟩
  obtain ⟨hlt, hinj, _⟩ := hπ
  let Pm : Matrix (Fin A.nr) (Fin A.nr) T :=
    fun i c => if (c : Nat) = π i then 1 else 0
  let D : Matrix (Fin A.nr) (Fin A.nr) T :=
    fun i k => if (i : Nat) < j then (if (k : Nat) = i then 1 else 0) else M.entry i k
  let Z : Matrix (Fin A.nr) (Fin A.nr) T := fun k c => tabR A π j k c
  have hPA : Pm * sqMatrix A = D * Z := by
    ext i c
    simp only [Matrix.mul_apply, Pm, D, Z, sqMatrix]
    rw [sum_fin_indicator A.nr (π i) (hlt i i.isLt) (fun x => A.entry x c)]
    by_cases hij : (i : Nat) < j
    · simp only [if_pos hij]
      rw [sum_fin_indicator A.nr i i.isLt (fun x => tabR A π j x c)]
      unfold tabR
      rw [if_pos hij]
    · simp only [if_neg hij]
      have := h i c i.isLt c.isLt
      unfold tabL at this
      rw [if_neg hij] at this
      rw [this, Finset.sum_range]
  have hD : D.det = 0 := by
    apply Matrix.det_eq_zero_of_column_eq_zero (⟨j, hj⟩ : Fin A.nr)
    intro i
    simp only [D]
    by_cases hij : (i : Nat) < j
    · have : ¬ j = (i : Nat) := by omega
      rw [if_pos hij, if_neg this]
    · rw [if_neg hij]
      exact hzero i (by omega) i.isLt
  have hP : Pm * Pm.transpose = 1 := by
    ext i i'
    simp only [Matrix.mul_apply, Matrix.transpose_apply, Pm]
    rw [sum_fin_indicator A.nr (π i) (hlt i i.isLt)
      (fun x => if x = π i' then (1 : T) else 0)]
    by_cases e : i = i'
    · subst e
      rw [if_pos rfl, Matrix.one_apply_eq]
    · have : ¬ π i = π i' := by
        intro hp
        exact e (Fin.ext (hinj i i' i.isLt i'.isLt hp))
      rw [if_neg this, Matrix.one_apply_ne e]
  have hPdet : Pm.det ≠ 0 := by
    intro h0
    have := congrArg Matrix.det hP
    rw [Matrix.det_mul, h0, zero_mul, Matrix.det_one] at this
    exact zero_ne_one this
  have := congrArg Matrix.det hPA
  rw [Matrix.det_mul, Matrix.det_mul, hD, zero_mul] at this
  rcases mul_eq_zero.mp this with h1 | h1
  · exact hPdet h1
  · exact hdet h1

/-- At the end of the main loop, the unscrambled tableau is a left inverse of
the input. -/
theorem tableau_final [Field T] (A M R : grid T) (π : Nat → Nat) (n : Nat)
    (hπ : PermOn π n) (h : Tableau A M π n n)
    (hR : ∀ i k, i < n → k < n → R.entry i (π k) = M.entry i k) :
    ∀ i c, i < n → c < n →
      Finset.sum (Finset.range n) (fun k => R.entry i k * A.entry k c) =
        if i = c then 1 else 0 := by
  obtain ⟨hlt, hinj, hsurj⟩ := hπ
  intro i c hi hc
  have h1 := h i c hi hc
  unfold tabL at h1
  rw [if_pos hi] at h1
  rw [h1]
  symm
  apply Finset.sum_bij (fun k _ => π k)
  · intro k hk
    exact Finset.mem_range.mpr (hlt k (Finset.mem_range.mp hk))
  · intro a ha b hb hab
    exact hinj a b (Finset.mem_range.mp ha) (Finset.mem_range.mp hb) hab
  · intro b hb
    obtain ⟨k, hk, e⟩ := hsurj b (Finset.mem_range.mp hb)
    exact ⟨k, Finset.mem_range.mpr hk, e⟩
  · intro k hk
    have hk' := Finset.mem_range.mp hk
    unfold tabR
    rw [if_pos hk', hR i k hi hk']

/-- A left inverse of a square grid is a right inverse, and the grid then has a
non-zero determinant. -/
theorem left_inverse_right [Field T] (A R : grid T)
    (h : ∀ i c, i < A.nr → c < A.nr →
      Finset.sum (Finset.range A.nr) (fun k => R.entry i k * A.entry k c) =
        if i = c then 1 else 0) :
    (sqMatrix A).det ≠ 0 ∧ ∀ i c, i < A.nr → c < A.nr →
      Finset.sum (Finset.range A.nr) (fun k => A.entry i k * R.entry k c) =
        if i = c then 1 else 0 := by
  let Rm : Matrix (Fin A.nr) (Fin A.nr) T := fun i k => R.entry i k
  have hRA : Rm * sqMatrix A = 1 := by
    ext i c
    simp only [Matrix.mul_apply, Rm, sqMatrix]
    rw [← Finset.sum_range (fun k => R.entry i k * A.entry k c), h i c i.isLt c.isLt]
    by_cases e : i = c
    · subst e
      rw [if_pos rfl, Matrix.one_apply_eq]
    · have : ¬ (i : Nat) = c := fun h => e (Fin.ext h)
      rw [if_neg this, Matrix.one_apply_ne e]
  have hAR : sqMatrix A * Rm = 1 := Matrix.mul_eq_one_comm.mp hRA
  refine ⟨?_, ?_⟩
  · intro h0
    have := congrArg Matrix.det hRA
    rw [Matrix.det_mul, h0, mul_zero, Matrix.det_one] at this
    exact zero_ne_one this
  · intro i c hi hc
    have := congrFun (congrFun hAR ⟨i, hi⟩) ⟨c, hc⟩
    simp only [Matrix.mul_apply, Rm, sqMatrix] at this
    rw [Finset.sum_range (fun k => A.entry i k * R.entry k c), this]
    by_cases e : i = c
    · subst e
      rw [if_pos rfl, Matrix.one_apply_eq]
    · have : (⟨i, hi⟩ : Fin A.nr) ≠ ⟨c, hc⟩ := fun h => e (Fin.mk.inj h)
      rw [if_neg e, Matrix.one_apply_ne this]

/-! ## Gauss-Jordan inversion: the main loop -/

/-- One round of the main loop of `inverse`: either the pivot column is zero
from row `j` downward and the round takes the fatal exit, or the round returns
and the loop invariant holds one column further. -/
theorem invStep_round [LinearOrderedField T] (A : grid T) (n j : Nat) (hj : j < n)
    (s : grid T × grid Nat) (hs : InvState A n j s) :
    (∃ s', invStep n j s = Res.ok s' ∧ InvState A n (j + 1) s') ∨
      (invStep n j s = Res.err Fault.fatal ∧
        ∀ i, j ≤ i → i < n → s.1.entry i j = 0) := by
  obtain ⟨M, p⟩ := s
  obtain ⟨mnr, mnc, mwf, pnr, pnc, pwf, hperm, htab⟩ := hs
  simp only at mnr mnc mwf pnr pnc pwf hperm htab
  obtain ⟨mx, r, hpiv, hjr, hr, hmx, hmax⟩ := invPivot_ok M n j mwf mnr mnc hj
  by_cases h0 : mx = 0
  · right
    refine ⟨?_, ?_⟩
    · simp only [invStep, hpiv, Res.ok_bind, h0, if_true]
    · intro i h1 h2
      have := hmax i h1 h2
      rw [h0] at this
      exact abs_eq_zero.mp (le_antisymm this (abs_nonneg _))
  · left
    obtain ⟨M1, p1, hsw, nr1, nc1, wf1, pnr1, pnc1, pwf1, ent1, pent1⟩ :=
      invSwap_ok M p n j r mwf mnr mnc pwf pnr pnc hjr hr
    obtain ⟨M2, hel, nr2, nc2, wf2, ent2⟩ := invElim_ok M1 n j wf1 nr1 nc1 hj
    have hd : M1.entry j j ≠ 0 := by
      have e : swapFn j r (fun x => M.entry x j) j = M.entry r j := by
        unfold swapFn
        rw [if_pos rfl]
      rw [ent1 j j hj hj, e]
      intro hz
      apply h0
      rw [hmx, hz, abs_zero]
    have htab1 : Tableau A M1 (fun k => p1.entry k 0) n j :=
      Tableau_swap A M M1 (fun k => p.entry k 0) (fun k => p1.entry k 0) n j r hjr hr
        htab ent1 pent1
    refine ⟨(M2, p1), ?_, nr2, nc2, wf2, pnr1, pnc1, pwf1, ?_, ?_⟩
    · simp only [invStep, hpiv, Res.ok_bind, if_neg h0, hsw, hel, Res.pure_eq]
    · exact PermOn_swap (fun k => p.entry k 0) (fun k => p1.entry k 0) n j r hj hr
        hperm pent1
    · exact Tableau_elim A M1 M2 (fun k => p1.entry k 0) n j hj hd htab1 ent2

theorem sum_range_indicator [Field T] (n c : Nat) (hc : c < n) (f : Nat → T) :
    Finset.sum (Finset.range n) (fun k => f k * (if k = c then 1 else 0)) = f c := by
  rw [Finset.sum_eq_single c]
  · rw [if_pos rfl, mul_one]
  · intro b _ hb
    rw [if_neg hb, mul_zero]
  · intro h
    exact absurd (Finset.mem_range.mpr hc) h

/-- The loop invariant holds when the main loop of `inverse` is entered. -/
theorem InvState_init [Field T] (A : grid T) (p : grid Nat) (hwf : A.WF)
    (hsq : A.nr = A.nc) (pnr : p.nr = A.nr) (pnc : p.nc = 1) (pwf : p.WF)
    (pent : ∀ k, k < A.nr → p.entry k 0 = k) : InvState A A.nr 0 (copy A, p) := by
  refine ⟨rfl, hsq.symm, hwf, pnr, pnc, pwf, ⟨?_, ?_, ?_⟩, ?_⟩
  · intro k hk
    simp only [pent k hk]; exact hk
  · intro k k' hk hk' h
    simp only [pent k hk, pent k' hk'] at h
    exact h
  · intro c hc
    exact ⟨c, hc, pent c hc⟩
  · intro i c hi hc
    unfold tabL
    rw [if_neg (Nat.not_lt_zero i)]
    simp only [pent i hi, copy_eq]
    have : ∀ k, tabR A (fun k => p.entry k 0) 0 k c = if k = c then 1 else 0 := by
      intro k
      unfold tabR
      rw [if_neg (Nat.not_lt_zero k)]
    simp only [this]
    rw [sum_range_indicator A.nr c hc (fun k => A.entry i k)]

/-- When the main loop of `inverse` has run through all columns, the rest of the
function returns a left inverse of the input. -/
theorem inverse_finish [LinearOrderedField T] (A : grid T) (s : grid T × grid Nat)
    (hs : InvState A A.nr A.nr s) :
    ∃ u, invUnscramble A.nr s.2 (s.1, (mk1 A.nr : grid T).clear 0) = Res.ok u ∧
      u.1.nr = A.nr ∧ u.1.nc = A.nr ∧ u.1.WF ∧
      ∀ i c, i < A.nr → c < A.nr →
        Finset.sum (Finset.range A.nr) (fun k => u.1.entry i k * A.entry k c) =
          if i = c then 1 else 0 := by
  obtain ⟨mnr, mnc, mwf, pnr, pnc, pwf, hperm, htab⟩ := hs
  have vwf : ((mk1 A.nr : grid T).clear 0).WF := by simp [WF, clear, mk1]
  obtain ⟨R, hv', hR, rnr, rnc, rwf, rent⟩ := invUnscramble_ok s.1
    ((mk1 A.nr : grid T).clear 0) s.2 A.nr mwf mnr mnc pwf pnr pnc vwf rfl rfl
    hperm.1 hperm.2.1
  exact ⟨(R, hv'), hR, rnr, rnc, rwf,
    tableau_final A s.1 R (fun k => s.2.entry k 0) A.nr hperm htab rent⟩

/-- On an invertible square grid `inverse` returns a left inverse. -/
theorem inverse_ok [LinearOrderedField T] (A : grid T) (hwf : A.WF) (hsq : A.nr = A.nc)
    (hdet : (sqMatrix A).det ≠ 0) :
    ∃ R, A.inverse = Res.ok R ∧ R.nr = A.nr ∧ R.nc = A.nr ∧ R.WF ∧
      ∀ i c, i < A.nr → c < A.nr →
        Finset.sum (Finset.range A.nr) (fun k => R.entry i k * A.entry k c) =
          if i = c then 1 else 0 := by
  obtain ⟨p1, hp1, pnr, pnc, pwf, pent⟩ := permInit_ok A.nr
  have hloop := forLoop_inv 0 A.nr (invStep A.nr) (fun j s => InvState A A.nr j s)
    (copy A, p1) (Nat.zero_le _) (InvState_init A p1 hwf hsq pnr pnc pwf pent)
    (by
      intro j s _ hj hs
      rcases invStep_round A A.nr j hj s hs with hok | ⟨_, hz⟩
      · exact hok
      · exfalso
        obtain ⟨i, h1, h2, h3⟩ := pivot_exists A s.1 (fun k => s.2.entry k 0) j hj
          hs.2.2.2.2.2.2.1 hs.2.2.2.2.2.2.2 hdet
        exact h3 (hz i h1 h2))
  obtain ⟨s, hs, hinv⟩ := hloop
  obtain ⟨u, hu, unr, unc, uwf, uent⟩ := inverse_finish A s hinv
  have hdec : decide (A.nr = A.nc) = true := by simpa using hsq
  refine ⟨u.1, ?_, unr, unc, uwf, uent⟩
  simp only [inverse, invariant_of_WF A hwf, hdec, assert_true, Res.ok_bind, hp1, hs,
    hu, invariant_of_WF u.1 uwf, Bool.and_self, Res.pure_eq]

/-- On a square grid with zero determinant `inverse` takes the fatal exit. -/
theorem inverse_fatal [LinearOrderedField T] (A : grid T) (hwf : A.WF)
    (hsq : A.nr = A.nc) (hdet : (sqMatrix A).det = 0) :
    A.inverse = Res.err Fault.fatal := by
  obtain ⟨p1, hp1, pnr, pnc, pwf, pent⟩ := permInit_ok A.nr
  have hloop := forLoop_inv_or 0 A.nr (invStep A.nr) (fun j s => InvState A A.nr j s)
    Fault.fatal (copy A, p1) (Nat.zero_le _)
    (InvState_init A p1 hwf hsq pnr pnc pwf pent)
    (by
      intro j s _ hj hs
      rcases invStep_round A A.nr j hj s hs with hok | ⟨herr, _⟩
      · exact Or.inl hok
      · exact Or.inr herr)
  have hdec : decide (A.nr = A.nc) = true := by simpa using hsq
  rcases hloop with ⟨s, _, hinv⟩ | herr
  · exfalso
    obtain ⟨u, _, _, _, _, uent⟩ := inverse_finish A s hinv
    exact (left_inverse_right A u.1 uent).1 hdet
  · simp only [inverse, invariant_of_WF A hwf, hdec, assert_true, Res.ok_bind, hp1,
      herr, Res.err_bind]

/-- C4 as stated fails: the 1 x 1 grid with entry 1 left by `init(1, 1)` on a
1 x 2 grid keeps two stored elements; its matrix `[1]` is invertible, and
`inverse` fails its invariant assertion on it instead of returning an inverse. -/
theorem inverse_stale_storage :
    ((mk2 1 2 : grid ℚ).put2 0 0 1 >>= fun g => Res.ok (g.init 1 1)) = Res.ok staleUnit ∧
      staleUnit.nr = 1 ∧ staleUnit.nc = 1 ∧ (sqMatrix staleUnit).det ≠ 0 ∧
      staleUnit.inverse = Res.err Fault.assertion := by
  decide!

/-- C4, amended: for an `n x n` grid `G` with `n * n` elements over an ordered field
standing for exact arithmetic, if `G` is invertible (non-zero determinant) then
`inverse` succeeds and returns an `n x n` grid `R` such that the product
`G * R`, computed by `operator*`, is the `n x n` identity.  `G` is a `const`
receiver and is unchanged. -/
theorem inverse_right_inverse [LinearOrderedField T] (G : grid T)
    (hwf : G.sto.length = G.nr * G.nc) (hsq : G.nr = G.nc)
    (hdet : (sqMatrix G).det ≠ 0) :
    ∃ R, G.inverse = Res.ok R ∧ R.nr = G.nr ∧ R.nc = G.nr ∧
      G.mul R = Res.ok (identity G.nr) := by
  obtain ⟨R, hR, rnr, rnc, rwf, rleft⟩ := inverse_ok G hwf hsq hdet
  obtain ⟨_, rright⟩ := left_inverse_right G R rleft
  obtain ⟨P, hP, pnr, pnc, pwf, pent⟩ := mul_ok G R hwf rwf (by omega)
  refine ⟨R, hR, rnr, rnc, ?_⟩
  rw [hP]
  congr 1
  apply ext_entry pwf (ofFn_WF _ _ _) (by simp only [identity, ofFn]; omega)
    (by simp only [identity, ofFn]; omega)
  intro r c hr hc
  have hr' : r < G.nr := by omega
  have hc' : c < G.nr := by omega
  rw [pent r c hr' (by omega), entry_ofFn _ _ _ r c hr' hc', dotPrefix, ← hsq]
  exact rright r c hr' hc'

/-- C4, amended, at the matrix `[[4,3,2],[3,4,3],[2,3,4]]`, whose determinant is 8. -/
theorem inverse_right_inverse_witness :
    sampleQ3.sto.length = sampleQ3.nr * sampleQ3.nc ∧ sampleQ3.nr = sampleQ3.nc ∧
      (sqMatrix sampleQ3).det ≠ 0 ∧
      ∃ R, sampleQ3.inverse = Res.ok R ∧ R.nr = sampleQ3.nr ∧ R.nc = sampleQ3.nr ∧
        sampleQ3.mul R = Res.ok (identity sampleQ3.nr) :=
  ⟨by decide, by decide, by decide!,
    inverse_right_inverse sampleQ3 (by decide) (by decide) (by decide!)⟩

/-- C5 as stated fails in two ways.  The 1 x 1 grid with entry 0 left by
`init(1, 1)` on a 1 x 2 grid keeps two stored elements; its matrix `[0]` is
singular, and `inverse` stops at its invariant assertion, not at the "unable to
invert" exit.  And in `double` arithmetic the singular matrix
`[[1,2,3],[4,5,6],[7,8,9]]` (its determinant over the rationals is 0) is not
reported: rounding leaves a non-zero pivot in the last column and `inverse`
returns a grid, with elements of magnitude `4.5e15` to `1.8e16`. -/
theorem inverse_singular_not_reported :
    ((mk2 1 2 : grid ℚ).init 1 1 = staleZero ∧ staleZero.nr = 1 ∧ staleZero.nc = 1 ∧
      (sqMatrix staleZero).det = 0 ∧ staleZero.inverse = Res.err Fault.assertion ∧
      staleZero.inverse ≠ Res.err Fault.fatal) ∧
    (dblSing3.sto.length = dblSing3.nr * dblSing3.nc ∧ dblSing3.nr = dblSing3.nc ∧
      dblSing3.sto.map Dbl.toRat = ratSing3.sto ∧ (sqMatrix ratSing3).det = 0 ∧
      dblSing3.inverse = Res.ok (grid.mk 3 3
        [Dbl.mk true 1075 3, Dbl.mk false 1076 3, Dbl.mk true 1075 2,
          Dbl.mk false 1076 0, Dbl.mk true 1077 0, Dbl.mk false 1076 0,
          Dbl.mk true 1074 4503599627370494, Dbl.mk false 1075 4503599627370495,
          Dbl.mk true 1074 4503599627370495])) := by
  decide!

/-- C5, amended: for a square grid `G` with `n * n` elements that is singular
(zero determinant), the elimination being carried out in exact arithmetic (an
ordered field in place of floating point), `inverse` takes the "unable to
invert" fatal exit, the one reached when the largest absolute value in the
pivot column from the current row downward is zero; no grid is returned. -/
theorem inverse_singular [LinearOrderedField T] (G : grid T)
    (hwf : G.sto.length = G.nr * G.nc) (hsq : G.nr = G.nc)
    (hdet : (sqMatrix G).det = 0) :
    G.inverse = Res.err Fault.fatal ∧ ¬ ∃ R, G.inverse = Res.ok R := by
  have h := inverse_fatal G hwf hsq hdet
  refine ⟨h, ?_⟩
  rintro ⟨R, hR⟩
  rw [h] at hR
  cases hR

/-- C5, amended, at the all-zero 2 x 2 matrix. -/
theorem inverse_singular_witness :
    zeroQ2.sto.length = zeroQ2.nr * zeroQ2.nc ∧ zeroQ2.nr = zeroQ2.nc ∧
      (sqMatrix zeroQ2).det = 0 ∧
      (zeroQ2.inverse = Res.err Fault.fatal ∧ ¬ ∃ R, zeroQ2.inverse = Res.ok R) :=
  ⟨by decide, by decide, by decide!,
    inverse_singular zeroQ2 (by decide) (by decide) (by decide!)⟩

/-! ## Quicksort by column: the row exchange and the scans -/

theorem swapFn_eq_swap {α : Type} (a b : Nat) (f : Nat → α) (x : Nat) :
    swapFn a b f x = f (Equiv.swap a b x) := by
  unfold swapFn
  by_cases h1 : x = a
  · rw [if_pos h1, h1, Equiv.swap_apply_left]
  · by_cases h2 : x = b
    · rw [if_neg h1, if_pos h2, h2, Equiv.swap_apply_right]
    · rw [if_neg h1, if_neg h2, Equiv.swap_apply_of_ne_of_ne h1 h2]

/-- The row exchange of `sort` swaps the rows `i` and `j` across all columns. -/
theorem swapRows_ok [Zero T] (g : grid T) (i j : Int) (hwf : g.WF) (hi0 : 0 ≤ i)
    (hi : i < g.nr) (hj0 : 0 ≤ j) (hj : j < g.nr) :
    ∃ g', g.swapRows i j = Res.ok g' ∧ SameShape g g' ∧
      ∀ x c, x < g.nr → c < g.nc →
        g'.entry x c = g.entry (Equiv.swap i.toNat j.toNat x) c := by
  have ha : i.toNat < g.nr := by omega
  have hb : j.toNat < g.nr := by omega
  have hneg : ¬ (i < 0 ∨ j < 0) := by omega
  have hloop := forLoop_inv 0 g.nc
    (fun k (s : grid T) =>
      if i < 0 ∨ j < 0 then Res.err Fault.assertion
      else s.swap2 i.toNat k j.toNat k)
    (fun kk (s : grid T) => s.nr = g.nr ∧ s.nc = g.nc ∧ s.WF ∧
      ∀ x c, x < g.nr → c < g.nc → s.entry x c =
        if c < kk then swapFn i.toNat j.toNat (fun y => g.entry y c) x else g.entry x c)
    g (Nat.zero_le _)
    ⟨rfl, rfl, hwf, by
      intro x c _ _
      rw [if_neg (Nat.not_lt_zero c)]⟩
    (by
      intro kk s _ hkk ⟨snr, snc, swf, sent⟩
      have h1 : i.toNat < s.nr := by omega
      have h2 : j.toNat < s.nr := by omega
      have h3 : kk < s.nc := by omega
      refine ⟨(s.upd i.toNat kk (s.entry j.toNat kk)).upd j.toNat kk (s.entry i.toNat kk),
        by beta_reduce; rw [if_neg hneg]; exact swap2_ok swf h1 h3 h2 h3,
        snr, snc, upd_WF (upd_WF swf _ _ _) _ _ _, ?_⟩
      intro x c hx hc
      rw [entry_swap2 swf h1 h2 h3 (by omega) (by omega)]
      by_cases e : c = kk
      · subst e
        have : c < c + 1 := by omega
        rw [if_pos rfl, if_pos this]
        simp only [swapFn, sent j.toNat c hb hc, sent i.toNat c ha hc, sent x c hx hc,
          if_neg (Nat.lt_irrefl c)]
      · rw [if_neg e, sent x c hx hc]
        by_cases h : c < kk
        · have : c < kk + 1 := by omega
          rw [if_pos h, if_pos this]
        · have : ¬ c < kk + 1 := by omega
          rw [if_neg h, if_neg this])
  obtain ⟨g', hg', gnr, gnc, gwf, gent⟩ := hloop
  refine ⟨g', hg', ⟨gnr, gnc, gwf⟩, ?_⟩
  intro x c hx hc
  rw [gent x c hx hc, if_pos hc, swapFn_eq_swap]

theorem atI_eq [Zero T] {g : grid T} (h : g.WF) {i : Int} {c : Nat} (hi0 : 0 ≤ i)
    (hi : i < g.nr) (hc : c < g.nc) : g.atI i c = Res.ok (g.entry i.toNat c) := by
  have : ¬ i < 0 := by omega
  simp only [atI, if_neg this]
  exact at2_eq h (by omega) hc

/-- The upward scan stops, within its fuel, at the first row from `i` whose key
is not below `midval`, at the latest at the row `s` known to be such. -/
theorem scanUp_ok [Zero T] [LinearOrder T] (g : grid T) (col : Nat) (midval : T)
    (right : Int) (hwf : g.WF) (hcol : col < g.nc) (hright : right < g.nr) (s : Nat)
    (hs : (s : Int) ≤ right) (hkey : midval ≤ g.entry s col) :
    ∀ (fuel : Nat) (i : Int), 0 ≤ i → i ≤ s → (s : Int) - i < fuel →
      ∃ i', scanUp g col midval right fuel i = Res.ok i' ∧ i ≤ i' ∧ i' ≤ s ∧
        midval ≤ g.entry i'.toNat col ∧
        ∀ x : Nat, i ≤ (x : Int) → (x : Int) < i' → g.entry x col < midval := by
  intro fuel
  induction fuel with
  | zero => intro i _ h1 h2; omega
  | succ fuel ih =>
    intro i hi0 his hfuel
    have hacc : g.atI i col = Res.ok (g.entry i.toNat col) :=
      atI_eq hwf hi0 (by omega) hcol
    by_cases hlt : g.entry i.toNat col < midval ∧ i < right
    · have hne : i ≠ s := by
        intro e
        have : i.toNat = s := by omega
        rw [this] at hlt
        exact absurd hlt.1 (not_lt.mpr hkey)
      obtain ⟨i', hi', h1, h2, h3, h4⟩ := ih (i + 1) (by omega) (by omega) (by omega)
      refine ⟨i', ?_, by omega, h2, h3, ?_⟩
      · simp only [scanUp, hacc, Res.ok_bind, if_pos hlt]
        exact hi'
      · intro x hx1 hx2
        by_cases e : (x : Int) = i
        · have : x = i.toNat := by omega
          rw [this]; exact hlt.1
        · exact h4 x (by omega) hx2
    · refine ⟨i, ?_, le_refl i, his, ?_, ?_⟩
      · simp only [scanUp, hacc, Res.ok_bind, if_neg hlt, Res.pure_eq]
      · by_cases h1 : g.entry i.toNat col < midval
        · have : i = right := by
            by_contra hne
            exact hlt ⟨h1, by omega⟩
          have : i.toNat = s := by omega
          rw [this]; exact hkey
        · exact not_lt.mp h1
      · intro x hx1 hx2
        omega

/-- The downward scan stops, within its fuel, at the first row from `j` whose
key is not above `midval`, at the latest at the row `s` known to be such. -/
theorem scanDown_ok [Zero T] [LinearOrder T] (g : grid T) (col : Nat) (midval : T)
    (left : Int) (hwf : g.WF) (hcol : col < g.nc) (s : Nat)
    (hs : left ≤ (s : Int)) (hkey : g.entry s col ≤ midval) :
    ∀ (fuel : Nat) (j : Int), j < g.nr → (s : Int) ≤ j → j - (s : Int) < fuel →
      ∃ j', scanDown g col midval left fuel j = Res.ok j' ∧ j' ≤ j ∧ (s : Int) ≤ j' ∧
        g.entry j'.toNat col ≤ midval ∧
        ∀ x : Nat, j' < (x : Int) → (x : Int) ≤ j → midval < g.entry x col := by
  intro fuel
  induction fuel with
  | zero => intro j _ h1 h2; omega
  | succ fuel ih =>
    intro j hjn hsj hfuel
    have hacc : g.atI j col = Res.ok (g.entry j.toNat col) :=
      atI_eq hwf (by omega) hjn hcol
    by_cases hlt : midval < g.entry j.toNat col ∧ j > left
    · have hne : j ≠ s := by
        intro e
        have : j.toNat = s := by omega
        rw [this] at hlt
        exact absurd hlt.1 (not_lt.mpr hkey)
      obtain ⟨j', hj', h1, h2, h3, h4⟩ := ih (j - 1) (by omega) (by omega) (by omega)
      refine ⟨j', ?_, by omega, h2, h3, ?_⟩
      · simp only [scanDown, hacc, Res.ok_bind, if_pos hlt]
        exact hj'
      · intro x hx1 hx2
        by_cases e : (x : Int) = j
        · have : x = j.toNat := by omega
          rw [this]; exact hlt.1
        · exact h4 x hx1 (by omega)
    · refine ⟨j, ?_, le_refl j, hsj, ?_, ?_⟩
      · simp only [scanDown, hacc, Res.ok_bind, if_neg hlt, Res.pure_eq]
      · by_cases h1 : midval < g.entry j.toNat col
        · have : j = left := by
            by_contra hne
            exact hlt ⟨h1, by omega⟩
          have : j.toNat = s := by omega
          rw [this]; exact hkey
        · exact not_lt.mp h1
      · intro x hx1 hx2
        omega

/-! ## Quicksort by column: row permutations -/

theorem perm_maps_range (σ : Equiv.Perm Nat) (l r : Int)
    (hfix : ∀ x : Nat, (x : Int) < l ∨ r < (x : Int) → σ x = x) (x : Nat)
    (h1 : l ≤ (x : Int)) (h2 : (x : Int) ≤ r) :
    l ≤ ((σ x : Nat) : Int) ∧ ((σ x : Nat) : Int) ≤ r := by
  by_contra hout
  have hfix' : σ (σ x) = σ x := hfix (σ x) (by omega)
  have : σ x = x := σ.injective hfix'
  rw [this] at hout
  omega

theorem perm_lt_of_range (σ : Equiv.Perm Nat) (l r : Int) (n : Nat)
    (hr : r < n) (hfix : ∀ x : Nat, (x : Int) < l ∨ r < (x : Int) → σ x = x) (x : Nat)
    (hx : x < n) : σ x < n := by
  by_cases h : l ≤ (x : Int) ∧ (x : Int) ≤ r
  · have := perm_maps_range σ l r hfix x h.1 h.2
    omega
  · rw [hfix x (by omega)]; exact hx

theorem RowPerm_refl [Zero T] (l r : Int) (g : grid T) : RowPerm l r g g :=
  ⟨1, fun _ _ => rfl, fun _ _ _ _ => rfl⟩

theorem RowPerm_trans [Zero T] (l r : Int) (g g1 g2 : grid T)
    (hr : r < g.nr) (hs : SameShape g g1) (h1 : RowPerm l r g g1)
    (h2 : RowPerm l r g1 g2) : RowPerm l r g g2 := by
  obtain ⟨σ1, fix1, ent1⟩ := h1
  obtain ⟨σ2, fix2, ent2⟩ := h2
  obtain ⟨snr, snc, _⟩ := hs
  refine ⟨σ1 * σ2, ?_, ?_⟩
  · intro x hx
    rw [Equiv.Perm.mul_apply, fix2 x hx, fix1 x hx]
  · intro x c hx hc
    rw [Equiv.Perm.mul_apply, ent2 x c (by omega) (by omega),
      ent1 (σ2 x) c (perm_lt_of_range σ2 l r g.nr hr fix2 x hx) hc]

theorem RowPerm_mono [Zero T] (l r l' r' : Int) (g g' : grid T) (hl : l ≤ l')
    (hr : r' ≤ r) (h : RowPerm l' r' g g') : RowPerm l r g g' := by
  obtain ⟨σ, hfix, hent⟩ := h
  exact ⟨σ, fun x hx => hfix x (by omega), hent⟩

theorem RowPerm_swap [Zero T] (l r : Int) (g g' : grid T) (a b : Nat)
    (ha : l ≤ (a : Int) ∧ (a : Int) ≤ r) (hb : l ≤ (b : Int) ∧ (b : Int) ≤ r)
    (hent : ∀ x c, x < g.nr → c < g.nc → g'.entry x c = g.entry (Equiv.swap a b x) c) :
    RowPerm l r g g' := by
  refine ⟨Equiv.swap a b, ?_, hent⟩
  intro x hx
  exact Equiv.swap_apply_of_ne_of_ne (by omega) (by omega)

/-- A bound on the keys of a range of rows survives a permutation of the rows
within that range. -/
theorem RowPerm_le [Zero T] [LE T] (l r : Int) (g g' : grid T) (col : Nat) (m : T)
    (hr : r < g.nr) (hcol : col < g.nc) (h : RowPerm l r g g')
    (hb : ∀ x : Nat, l ≤ (x : Int) → (x : Int) ≤ r → g.entry x col ≤ m) :
    ∀ x : Nat, l ≤ (x : Int) → (x : Int) ≤ r → g'.entry x col ≤ m := by
  obtain ⟨σ, hfix, hent⟩ := h
  intro x h1 h2
  have hm := perm_maps_range σ l r hfix x h1 h2
  rw [hent x col (by omega) hcol]
  exact hb (σ x) hm.1 hm.2

theorem RowPerm_ge [Zero T] [LE T] (l r : Int) (g g' : grid T) (col : Nat) (m : T)
    (hr : r < g.nr) (hcol : col < g.nc) (h : RowPerm l r g g')
    (hb : ∀ x : Nat, l ≤ (x : Int) → (x : Int) ≤ r → m ≤ g.entry x col) :
    ∀ x : Nat, l ≤ (x : Int) → (x : Int) ≤ r → m ≤ g'.entry x col := by
  obtain ⟨σ, hfix, hent⟩ := h
  intro x h1 h2
  have hm := perm_maps_range σ l r hfix x h1 h2
  rw [hent x col (by omega) hcol]
  exact hb (σ x) hm.1 hm.2

/-- Rows outside the permuted range keep their elements. -/
theorem RowPerm_outside [Zero T] (l r : Int) (g g' : grid T) (h : RowPerm l r g g')
    (x c : Nat) (hx : x < g.nr) (hc : c < g.nc) (hout : (x : Int) < l ∨ r < (x : Int)) :
    g'.entry x c = g.entry x c := by
  obtain ⟨σ, hfix, hent⟩ := h
  rw [hent x c hx hc, hfix x hout]

/-! ## Quicksort by column: the partition loop -/

/-- One round of the partition loop.  From a state with `i <= j` in which the
partition property holds and each scan has a row at which it must stop, the
round returns a state in which the property holds again, both counters have
left their initial values, and, if the loop goes on, they are strictly closer. -/
theorem partBody_ok [Zero T] [LinearOrder T] (g0 g : grid T) (col : Nat) (midval : T)
    (left right i j : Int) (hcol : col < g0.nc) (hl0 : 0 ≤ left) (hrn : right < g0.nr)
    (hsh : SameShape g0 g) (hperm : RowPerm left right g0 g) (hli : left ≤ i)
    (hij : i ≤ j) (hjr : j ≤ right) (hpart : Parted g col midval left right i j)
    (shi slo : Nat) (hhi : i ≤ (shi : Int) ∧ (shi : Int) ≤ right)
    (khi : midval ≤ g.entry shi col) (hlo : left ≤ (slo : Int) ∧ (slo : Int) ≤ j)
    (klo : g.entry slo col ≤ midval)
    (hprog : shi ≤ slo ∨ (left < i ∧ j < right)) :
    ∃ g' i' j', partBody col midval left right (g, i, j) = Res.ok (g', i', j') ∧
      SameShape g0 g' ∧ RowPerm left right g0 g' ∧ Parted g' col midval left right i' j' ∧
      left < i' ∧ j' < right ∧ i' ≤ right + 1 ∧ left - 1 ≤ j' ∧
      (i' ≤ j' → j' - i' + 2 ≤ j - i) := by
  obtain ⟨gnr, gnc, gwf⟩ := hsh
  obtain ⟨pl, pr⟩ := hpart
  have hcol' : col < g.nc := by omega
  obtain ⟨i1, hi1, a1, a2, a3, a4⟩ := scanUp_ok g col midval right gwf hcol' (by omega)
    shi hhi.2 khi ((right - i).toNat + 1) i (by omega) hhi.1 (by omega)
  obtain ⟨j1, hj1, b1, b2, b3, b4⟩ := scanDown_ok g col midval left gwf hcol'
    slo hlo.1 klo ((j - left).toNat + 1) j (by omega) hlo.2 (by omega)
  by_cases hsw : i1 ≤ j1
  · obtain ⟨g1, hg1, hsh1, ent1⟩ := swapRows_ok g i1 j1 gwf (by omega) (by omega)
      (by omega) (by omega)
    have hperm1 : RowPerm left right g g1 :=
      RowPerm_swap left right g g1 i1.toNat j1.toNat (by omega) (by omega) ent1
    have key : ∀ x : Nat, x < g.nr → g1.entry x col =
        g.entry (Equiv.swap i1.toNat j1.toNat x) col := fun x hx => ent1 x col hx hcol'
    refine ⟨g1, i1 + 1, j1 - 1, ?_, ⟨by rw [hsh1.1, gnr], by rw [hsh1.2.1, gnc], hsh1.2.2⟩,
      RowPerm_trans left right g0 g g1 hrn ⟨gnr, gnc, gwf⟩ hperm hperm1, ⟨?_, ?_⟩,
      by omega, by omega, by omega, by omega, fun _ => by omega⟩
    · simp only [partBody, hi1, hj1, Res.ok_bind, if_pos hsw, hg1, Res.pure_eq]
    · intro x h1 h2
      rw [key x (by omega)]
      by_cases e : (x : Int) = i1
      · have : x = i1.toNat := by omega
        rw [this, Equiv.swap_apply_left]
        exact b3
      · have n1 : x ≠ i1.toNat := by omega
        have n2 : x ≠ j1.toNat := by omega
        rw [Equiv.swap_apply_of_ne_of_ne n1 n2]
        by_cases h3 : (x : Int) < i
        · exact pl x h1 h3
        · exact le_of_lt (a4 x (by omega) (by omega))
    · intro x h1 h2
      rw [key x (by omega)]
      by_cases e : (x : Int) = j1
      · have : x = j1.toNat := by omega
        rw [this, Equiv.swap_apply_right]
        exact a3
      · have n1 : x ≠ i1.toNat := by omega
        have n2 : x ≠ j1.toNat := by omega
        rw [Equiv.swap_apply_of_ne_of_ne n1 n2]
        by_cases h3 : j < (x : Int)
        · exact pr x h3 h2
        · exact le_of_lt (b4 x (by omega) (by omega))
  · have hp : left < i ∧ j < right := by
      rcases hprog with h | h
      · omega
      · exact h
    refine ⟨g, i1, j1, ?_, ⟨gnr, gnc, gwf⟩, hperm, ⟨?_, ?_⟩,
      by omega, by omega, by omega, by omega, fun h => absurd h hsw⟩
    · simp only [partBody, hi1, hj1, Res.ok_bind, if_neg hsw, Res.pure_eq]
    · intro x h1 h2
      by_cases h3 : (x : Int) < i
      · exact pl x h1 h3
      · exact le_of_lt (a4 x (by omega) h2)
    · intro x h1 h2
      by_cases h3 : j < (x : Int)
      · exact pr x h3 h2
      · exact le_of_lt (b4 x h1 (by omega))

/-- The partition loop returns within its fuel, with the partition property,
`j < i`, and both counters strictly inside the initial range. -/
theorem partLoop_ok [Zero T] [LinearOrder T] (g0 : grid T) (col : Nat) (midval : T)
    (left right : Int) (hcol : col < g0.nc) (hl0 : 0 ≤ left) (hrn : right < g0.nr) :
    ∀ (fuel : Nat) (g : grid T) (i j : Int), SameShape g0 g → RowPerm left right g0 g →
      left ≤ i → i ≤ j → j ≤ right → Parted g col midval left right i j →
      ∀ (shi slo : Nat), (i ≤ (shi : Int) ∧ (shi : Int) ≤ right) →
        midval ≤ g.entry shi col → (left ≤ (slo : Int) ∧ (slo : Int) ≤ j) →
        g.entry slo col ≤ midval → (shi ≤ slo ∨ (left < i ∧ j < right)) →
        j - i < fuel →
        ∃ g' i' j', partLoop col midval left right fuel (g, i, j) = Res.ok (g', i', j') ∧
          SameShape g0 g' ∧ RowPerm left right g0 g' ∧
          Parted g' col midval left right i' j' ∧
          j' < i' ∧ left < i' ∧ j' < right ∧ i' ≤ right + 1 ∧ left - 1 ≤ j' := by
  intro fuel
  induction fuel with
  | zero => intro g i j _ _ _ h1 _ _ _ _ _ _ _ _ _ h2; omega
  | succ fuel ih =>
    intro g i j hsh hperm hli hij hjr hpart shi slo hhi khi hlo klo hprog hfuel
    obtain ⟨g1, i1, j1, hb, hsh1, hperm1, hpart1, c1, c2, c3, c4, c5⟩ :=
      partBody_ok g0 g col midval left right i j hcol hl0 hrn hsh hperm hli hij hjr hpart
        shi slo hhi khi hlo klo hprog
    by_cases hgo : i1 ≤ j1
    · have hm := c5 hgo
      have hhi1 : midval ≤ g1.entry (j1 + 1).toNat col :=
        hpart1.2 (j1 + 1).toNat (by omega) (by omega)
      have hlo1 : g1.entry (i1 - 1).toNat col ≤ midval :=
        hpart1.1 (i1 - 1).toNat (by omega) (by omega)
      obtain ⟨g2, i2, j2, h2, r⟩ := ih g1 i1 j1 hsh1 hperm1 (by omega) hgo (by omega)
        hpart1 (j1 + 1).toNat (i1 - 1).toNat (by omega) hhi1 (by omega) hlo1
        (Or.inr ⟨c1, c2⟩) (by omega)
      refine ⟨g2, i2, j2, ?_, r⟩
      simp only [partLoop, hb, Res.ok_bind, if_pos hgo]
      exact h2
    · refine ⟨g1, i1, j1, ?_, hsh1, hperm1, hpart1, by omega, c1, c2, c3, c4⟩
      simp only [partLoop, hb, Res.ok_bind, if_neg hgo, Res.pure_eq]

/-! ## Quicksort by column: the recursion -/

theorem SortedOn_single [Zero T] [Preorder T] (g : grid T) (col : Nat) (l r : Int)
    (h : r ≤ l) : SortedOn g col l r := by
  intro x y h1 h2 h3
  have : x = y := by omega
  rw [this]

/-- The recursive `sort(col, left, right)` returns on every non-empty range of
rows once the fuel exceeds the length of the range; it permutes whole rows
within the range and leaves column `col` sorted over it. -/
theorem sortAux_ok [Zero T] [LinearOrder T] (col : Nat) :
    ∀ (fuel : Nat) (g : grid T) (left right : Int), g.WF → col < g.nc → 0 ≤ left →
      left ≤ right → right < g.nr → right - left < fuel →
      ∃ g', sortAux col fuel g left right = Res.ok g' ∧ SameShape g g' ∧
        RowPerm left right g g' ∧ SortedOn g' col left right := by
  intro fuel
  induction fuel with
  | zero => intro g left right _ _ _ h1 _ h2; omega
  | succ fuel ih =>
    intro g left right hwf hcol hl0 hlr hrn hfuel
    have hsent : ¬ (left = -1 ∧ right = -1) := by omega
    have hmid : Int.tdiv (left + right) 2 = (left + right) / 2 :=
      Int.tdiv_eq_ediv (by omega) (by omega)
    have hm1 : left ≤ (left + right) / 2 := by omega
    have hm2 : (left + right) / 2 ≤ right := by omega
    have hacc : g.atI (Int.tdiv (left + right) 2) col =
        Res.ok (g.entry ((left + right) / 2).toNat col) := by
      rw [hmid]
      exact atI_eq hwf (by omega) (by omega) hcol
    obtain ⟨g1, i1, j1, hp, hsh1, hperm1, hpart1, d1, d2, d3, d4, d5⟩ :=
      partLoop_ok g col (g.entry ((left + right) / 2).toNat col) left right hcol hl0 hrn
        ((right - left).toNat + 1) g left right ⟨rfl, rfl, hwf⟩ (RowPerm_refl _ _ _)
        (le_refl _) hlr (le_refl _)
        ⟨fun x h1 h2 => by omega, fun x h1 h2 => by omega⟩
        ((left + right) / 2).toNat ((left + right) / 2).toNat (by omega) (le_refl _)
        (by omega) (le_refl _) (Or.inl (le_refl _)) (by omega)
    obtain ⟨nr1, nc1, wf1⟩ := hsh1
    obtain ⟨pl1, pr1⟩ := hpart1
    have hleft : ∃ g2, (∀ K : grid T → Res (grid T),
        (if left < j1 then sortAux col fuel g1 left j1 >>= K else pure g1 >>= K) = K g2) ∧
        SameShape g1 g2 ∧ RowPerm left j1 g1 g2 ∧ SortedOn g2 col left j1 := by
      by_cases h : left < j1
      · obtain ⟨g2, h2, r⟩ := ih g1 left j1 wf1 (by omega) hl0 (by omega) (by omega)
          (by omega)
        exact ⟨g2, fun K => by rw [if_pos h, h2]; rfl, r⟩
      · exact ⟨g1, fun K => by rw [if_neg h]; rfl, ⟨rfl, rfl, wf1⟩, RowPerm_refl _ _ _,
          SortedOn_single g1 col left j1 (by omega)⟩
    obtain ⟨g2, hg2, ⟨nr2, nc2, wf2⟩, hperm2, hsort2⟩ := hleft
    have hright : ∃ g3, (if i1 < right then sortAux col fuel g2 i1 right else pure g2) =
        Res.ok g3 ∧ SameShape g2 g3 ∧ RowPerm i1 right g2 g3 ∧
        SortedOn g3 col i1 right := by
      by_cases h : i1 < right
      · obtain ⟨g3, h3, r⟩ := ih g2 i1 right wf2 (by omega) (by omega) (by omega) (by omega)
          (by omega)
        exact ⟨g3, by rw [if_pos h]; exact h3, r⟩
      · exact ⟨g2, by rw [if_neg h]; rfl, ⟨rfl, rfl, wf2⟩, RowPerm_refl _ _ _,
          SortedOn_single g2 col i1 right (by omega)⟩
    obtain ⟨g3, hg3, ⟨nr3, nc3, wf3⟩, hperm3, hsort3⟩ := hright
    have hcol1 : col < g1.nc := by omega
    have hcol2 : col < g2.nc := by omega
    have key32 : ∀ x : Nat, x < g.nr → (x : Int) < i1 → g3.entry x col = g2.entry x col :=
      fun x hx h => RowPerm_outside i1 right g2 g3 hperm3 x col (by omega) hcol2 (Or.inl h)
    have key21 : ∀ x : Nat, x < g.nr → j1 < (x : Int) → g2.entry x col = g1.entry x col :=
      fun x hx h => RowPerm_outside left j1 g1 g2 hperm2 x col (by omega) hcol1 (Or.inr h)
    have low2 : ∀ x : Nat, left ≤ (x : Int) → (x : Int) ≤ j1 →
        g2.entry x col ≤ g.entry ((left + right) / 2).toNat col :=
      RowPerm_le left j1 g1 g2 col _ (by omega) hcol1 hperm2
        (fun x h1 h2 => pl1 x h1 (by omega))
    have high3 : ∀ x : Nat, i1 ≤ (x : Int) → (x : Int) ≤ right →
        g.entry ((left + right) / 2).toNat col ≤ g3.entry x col :=
      RowPerm_ge i1 right g2 g3 col _ (by omega) hcol2 hperm3
        (fun x h1 h2 => by
          rw [key21 x (by omega) (by omega)]
          exact pr1 x (by omega) h2)
    have low3 : ∀ x : Nat, left ≤ (x : Int) → (x : Int) < i1 →
        g3.entry x col ≤ g.entry ((left + right) / 2).toNat col := by
      intro x h1 h2
      rw [key32 x (by omega) h2]
      by_cases h3 : (x : Int) ≤ j1
      · exact low2 x h1 h3
      · rw [key21 x (by omega) (by omega)]
        exact pl1 x h1 h2
    have high3' : ∀ x : Nat, j1 < (x : Int) → (x : Int) ≤ right →
        g.entry ((left + right) / 2).toNat col ≤ g3.entry x col := by
      intro x h1 h2
      by_cases h3 : i1 ≤ (x : Int)
      · exact high3 x h3 h2
      · rw [key32 x (by omega) (by omega), key21 x (by omega) h1]
        exact pr1 x h1 h2
    refine ⟨g3, ?_, ⟨by omega, by omega, wf3⟩, ?_, ?_⟩
    · simp only [sortAux, if_neg hsent, hacc, Res.ok_bind, hp]
      exact (hg2 _).trans hg3
    · have p12 : RowPerm left right g1 g2 :=
        RowPerm_mono left right left j1 g1 g2 (le_refl _) (by omega) hperm2
      have p23 : RowPerm left right g2 g3 :=
        RowPerm_mono left right i1 right g2 g3 (by omega) (le_refl _) hperm3
      exact RowPerm_trans left right g g2 g3 hrn ⟨by omega, by omega, wf2⟩
        (RowPerm_trans left right g g1 g2 hrn ⟨nr1, nc1, wf1⟩ hperm1 p12) p23
    · intro x y h1 h2 h3
      by_cases hy : (y : Int) ≤ j1
      · rw [key32 x (by omega) (by omega), key32 y (by omega) (by omega)]
        exact hsort2 x y h1 h2 hy
      · by_cases hx : i1 ≤ (x : Int)
        · exact hsort3 x y hx h2 h3
        · exact le_trans (low3 x h1 (by omega)) (high3' y (by omega) h3)

theorem sortAux_default [LT T] [DecidableRel (fun (a b : T) => a < b)] (col fuel : Nat)
    (g : grid T) :
    sortAux col (fuel + 1) g (-1) (-1) = sortAux col (fuel + 1) g 0 ((g.nr : Int) - 1) := by
  have h2 : ¬ ((0 : Int) = -1 ∧ (g.nr : Int) - 1 = -1) := by omega
  simp only [sortAux, and_self, if_true, if_neg h2]

/-! ## Quicksort by column: the specification -/

theorem perm_map_range (σ : Equiv.Perm Nat) (n : Nat) (hfix : ∀ x : Nat, n ≤ x → σ x = x) :
    List.Perm ((List.range n).map σ) (List.range n) := by
  rw [List.perm_ext_iff_of_nodup (List.Nodup.map σ.injective (List.nodup_range n))
    (List.nodup_range n)]
  intro y
  simp only [List.mem_map, List.mem_range]
  constructor
  · rintro ⟨x, hx, rfl⟩
    by_contra hge
    have h1 : σ (σ x) = σ x := hfix (σ x) (by omega)
    have h2 : σ x = x := σ.injective h1
    omega
  · intro hy
    refine ⟨σ.symm y, ?_, σ.apply_symm_apply y⟩
    by_contra hge
    have h1 : σ (σ.symm y) = σ.symm y := hfix (σ.symm y) (by omega)
    rw [σ.apply_symm_apply] at h1
    omega

/-- A permutation of whole rows over all the rows of a grid is a permutation of
its list of rows. -/
theorem RowPerm_rowList [Zero T] (g g' : grid T) (hs : SameShape g g')
    (h : RowPerm 0 ((g.nr : Int) - 1) g g') : List.Perm (rowList g') (rowList g) := by
  obtain ⟨σ, hfix, hent⟩ := h
  obtain ⟨snr, snc, _⟩ := hs
  have hrow : ∀ x, x ∈ List.range g.nr → g'.row x = g.row (σ x) := by
    intro x hx
    have hx' : x < g.nr := List.mem_range.mp hx
    unfold row
    rw [snc]
    apply List.map_congr_left
    intro c hc
    exact hent x c hx' (List.mem_range.mp hc)
  have e : rowList g' = ((List.range g.nr).map σ).map (fun x => g.row x) := by
    unfold rowList
    rw [snr, List.map_map]
    exact List.map_congr_left hrow
  rw [e]
  unfold rowList
  exact (perm_map_range σ g.nr (fun x hx => hfix x (by omega))).map _

theorem SortedOn_column [Zero T] [Preorder T] (g : grid T) (col : Nat)
    (h : SortedOn g col 0 ((g.nr : Int) - 1)) :
    List.Sorted (fun a b => a ≤ b) (column g col) := by
  unfold List.Sorted column
  rw [List.pairwise_iff_getElem]
  intro i j hi hj hij
  simp only [List.length_map, List.length_range] at hi hj
  simp only [List.getElem_map, List.getElem_range]
  exact h i j (by omega) (by omega) (by omega)

/-- C7: on a grid with at least one row whose sequence length equals `nr * nc`,
over a linearly ordered element type, `sort(col)` with the default bounds and
`col < nc` returns (the recursion ends, every recursive call being on a strictly
smaller range of rows); the result has the same dimensions, its rows are a
permutation of the original rows, each row kept whole across all columns, and
its column `col` is in non-decreasing order from row `0` to row `nr - 1`.  For
the rows `[3, a]`, `[1, b]`, `[2, c]` and column 0 the result has the rows
`[1, b]`, `[2, c]`, `[3, a]`. -/
theorem sort_sorts [Zero T] [LinearOrder T] (g : grid T)
    (hwf : g.sto.length = g.nr * g.nc) (hnr : 1 ≤ g.nr) (col : Nat) (hcol : col < g.nc) :
    (∃ g', g.sort col = Res.ok g' ∧ g'.nr = g.nr ∧ g'.nc = g.nc ∧
      g'.sto.length = g'.nr * g'.nc ∧ List.Perm (rowList g') (rowList g) ∧
      List.Sorted (fun a b => a ≤ b) (column g' col)) ∧
    ∀ a b c : Int, (sampleRows a b c).sort 0 =
      Res.ok { nr := 3, nc := 2, sto := [1, 2, 3, b, c, a] } := by
  constructor
  · obtain ⟨g', hg', hsh, hperm, hsort⟩ := sortAux_ok col (g.nr + 1) g 0 ((g.nr : Int) - 1)
      hwf hcol (le_refl _) (by omega) (by omega) (by omega)
    refine ⟨g', ?_, hsh.1, hsh.2.1, hsh.2.2, RowPerm_rowList g g' hsh hperm, ?_⟩
    · rw [sort, sortAux_default]
      exact hg'
    · have : SortedOn g' col 0 ((g'.nr : Int) - 1) := by rw [hsh.1]; exact hsort
      exact SortedOn_column g' col this
  · intro a b c
    with_unfolding_all rfl

/-- C7 at the rows `[3, 10]`, `[1, 20]`, `[2, 30]` sorted by column 0. -/
theorem sort_sorts_witness :
    (sampleRows 10 20 30).sto.length = (sampleRows 10 20 30).nr * (sampleRows 10 20 30).nc ∧
    1 ≤ (sampleRows 10 20 30).nr ∧ 0 < (sampleRows 10 20 30).nc ∧
    ((∃ g', (sampleRows 10 20 30).sort 0 = Res.ok g' ∧ g'.nr = (sampleRows 10 20 30).nr ∧
      g'.nc = (sampleRows 10 20 30).nc ∧ g'.sto.length = g'.nr * g'.nc ∧
      List.Perm (rowList g') (rowList (sampleRows 10 20 30)) ∧
      List.Sorted (fun a b => a ≤ b) (column g' 0)) ∧
    ∀ a b c : Int, (sampleRows a b c).sort 0 =
      Res.ok { nr := 3, nc := 2, sto := [1, 2, 3, b, c, a] }) :=
  ⟨by decide, by decide, by decide,
    sort_sorts (sampleRows 10 20 30) (by decide) (by decide) 0 (by decide)⟩

/-! ## Identity under the matrix product -/

theorem identity_WF [Zero T] [One T] (n : Nat) : (identity n : grid T).WF :=
  ofFn_WF _ _ _

theorem entry_identity [Zero T] [One T] (n r c : Nat) (hr : r < n) (hc : c < n) :
    (identity n : grid T).entry r c = if r = c then 1 else 0 := by
  unfold identity
  exact entry_ofFn _ _ _ r c hr hc

theorem entry_mem [Zero T] {g : grid T} (h : g.WF) {r c : Nat} (hr : r < g.nr)
    (hc : c < g.nc) : g.entry r c ∈ g.sto := by
  have hlt : c * g.nr + r < g.sto.length := by
    rw [h]; exact offset_lt hr hc
  simp only [entry]
  rw [List.getD_eq_getElem _ _ hlt]
  exact List.getElem_mem _

/-- The sum accumulated along row `i` of the identity and column `c` of `A`:
zero before the diagonal term, `A(i, c)` from it on. -/
theorem dotFold_identity_left [Zero T] [One T] [Add T] [Mul T] (A : grid T) (h : A.WF)
    (h0 : (0 : T) + 0 = 0)
    (hx : ∀ x ∈ A.sto, 0 * x = 0 ∧ 1 * x = x ∧ 0 + x = x ∧ x + 0 = x)
    (i c : Nat) (hi : i < A.nr) (hc : c < A.nc) :
    ∀ K, K ≤ A.nr → dotFold (identity A.nr) A K i c = if i < K then A.entry i c else 0 := by
  intro K
  induction K with
  | zero =>
    intro _
    rw [dotFold_zero, if_neg (by omega)]
  | succ K ih =>
    intro hK
    have hKlt : K < A.nr := by omega
    obtain ⟨z1, _, _, a1⟩ := hx _ (entry_mem h hKlt hc)
    obtain ⟨_, o2, z2, a2⟩ := hx _ (entry_mem h hi hc)
    rw [dotFold_succ, ih (by omega), entry_identity A.nr i K hi hKlt]
    by_cases e : i = K
    · subst e
      rw [if_neg (by omega), if_pos rfl, if_pos (by omega), o2, z2]
    · rw [if_neg e, z1]
      by_cases l : i < K
      · rw [if_pos l, if_pos (by omega), a2]
      · rw [if_neg l, if_neg (by omega), h0]

/-- The sum accumulated along row `r` of `A` and column `j` of the identity:
zero before the diagonal term, `A(r, j)` from it on. -/
theorem dotFold_identity_right [Zero T] [One T] [Add T] [Mul T] (A : grid T) (h : A.WF)
    (h0 : (0 : T) + 0 = 0)
    (hx : ∀ x ∈ A.sto, x * 0 = 0 ∧ x * 1 = x ∧ 0 + x = x ∧ x + 0 = x)
    (r j : Nat) (hr : r < A.nr) (hj : j < A.nc) :
    ∀ K, K ≤ A.nc → dotFold A (identity A.nc) K r j = if j < K then A.entry r j else 0 := by
  intro K
  induction K with
  | zero =>
    intro _
    rw [dotFold_zero, if_neg (by omega)]
  | succ K ih =>
    intro hK
    have hKlt : K < A.nc := by omega
    obtain ⟨z1, _, _, _⟩ := hx _ (entry_mem h hr hKlt)
    obtain ⟨_, o2, z2, a2⟩ := hx _ (entry_mem h hr hj)
    rw [dotFold_succ, ih (by omega), entry_identity A.nc K j hKlt hj]
    by_cases e : K = j
    · subst e
      rw [if_neg (by omega), if_pos rfl, if_pos (by omega), o2, z2]
    · rw [if_neg e, z1]
      by_cases l : j < K
      · rw [if_pos l, if_pos (by omega), a2]
      · rw [if_neg l, if_neg (by omega), h0]

theorem identity_mul_ok [Zero T] [One T] [Add T] [Mul T] (A : grid T) (h : A.WF)
    (h0 : (0 : T) + 0 = 0)
    (hx : ∀ x ∈ A.sto, 0 * x = 0 ∧ 1 * x = x ∧ 0 + x = x ∧ x + 0 = x) :
    (identity A.nr).mul A = Res.ok A := by
  obtain ⟨P, hP, pnr, pnc, pwf, pent⟩ :=
    mul_fold_ok (identity A.nr) A (identity_WF _) h rfl
  rw [hP]
  congr 1
  have e1 : (identity A.nr : grid T).nr = A.nr := rfl
  have e2 : (identity A.nr : grid T).nc = A.nr := rfl
  apply ext_entry pwf h (by omega) (by omega)
  intro r c hr hc
  have hr' : r < A.nr := by omega
  have hc' : c < A.nc := by omega
  rw [pent r c hr' hc', e2, dotFold_identity_left A h h0 hx r c hr' hc' A.nr (le_refl _),
    if_pos hr']

theorem mul_identity_ok [Zero T] [One T] [Add T] [Mul T] (A : grid T) (h : A.WF)
    (h0 : (0 : T) + 0 = 0)
    (hx : ∀ x ∈ A.sto, x * 0 = 0 ∧ x * 1 = x ∧ 0 + x = x ∧ x + 0 = x) :
    A.mul (identity A.nc) = Res.ok A := by
  obtain ⟨P, hP, pnr, pnc, pwf, pent⟩ :=
    mul_fold_ok A (identity A.nc) h (identity_WF _) rfl
  rw [hP]
  congr 1
  have e1 : (identity A.nc : grid T).nc = A.nc := rfl
  apply ext_entry pwf h (by omega) (by omega)
  intro r c hr hc
  have hr' : r < A.nr := by omega
  have hc' : c < A.nc := by omega
  rw [pent r c hr' (by omega), dotFold_identity_right A h h0 hx r c hr' hc' A.nc (le_refl _),
    if_pos hc']

/-- C11 as stated fails for `double` elements: with `A` the 2 x 1 grid holding
`+infinity` and `1.0`, the product `I_2 * A` has the dimensions of `A` but
holds a NaN where `A` holds `1.0`, because the term `0 * infinity` accumulated
in the second row is a NaN, not zero. -/
theorem identity_mul_infinity :
    dblInfCol.sto.length = dblInfCol.nr * dblInfCol.nc ∧
      (identity dblInfCol.nr : grid Dbl) = grid.mk 2 2 [1, 0, 0, 1] ∧
      (0 : Dbl) * Dbl.inf false = Dbl.nan ∧
      (identity dblInfCol.nr).mul dblInfCol =
        Res.ok (grid.mk 2 1 [Dbl.inf false, Dbl.nan]) ∧
      (identity dblInfCol.nr).mul dblInfCol ≠ Res.ok dblInfCol := by
  decide!

/-- C11, amended: for an `n x m` grid `A` over any element type whose sequence
length equals `n * m` and in whose arithmetic zero annihilates and zero and one
are neutral on the elements of `A` (`0 * x = x * 0 = 0`, `1 * x = x * 1 = x`,
`0 + x = x + 0 = x` for every element `x`, and `0 + 0 = 0`), the products
`I_n * A` and `A * I_m` computed by `operator*` both succeed and return `A`
itself: same dimensions, same elements.  In exact or modular arithmetic (a
semiring) every element satisfies these equations. -/
theorem identity_mul_both [Zero T] [One T] [Add T] [Mul T] (A : grid T)
    (h : A.sto.length = A.nr * A.nc) (h0 : (0 : T) + 0 = 0)
    (hx : ∀ x ∈ A.sto, 0 * x = 0 ∧ x * 0 = 0 ∧ 1 * x = x ∧ x * 1 = x ∧ 0 + x = x ∧
      x + 0 = x) :
    ((identity A.nr).mul A = Res.ok A ∧ A.mul (identity A.nc) = Res.ok A) ∧
    (∀ (S : Type) [Semiring S] (x : S), (0 : S) + 0 = 0 ∧ 0 * x = 0 ∧ x * 0 = 0 ∧
      1 * x = x ∧ x * 1 = x ∧ 0 + x = x ∧ x + 0 = x) :=
  ⟨⟨identity_mul_ok A h h0 (fun x m => ⟨(hx x m).1, (hx x m).2.2.1, (hx x m).2.2.2.2⟩),
    mul_identity_ok A h h0
      (fun x m => ⟨(hx x m).2.1, (hx x m).2.2.2.1, (hx x m).2.2.2.2⟩)⟩,
    fun _ _ x => ⟨zero_add 0, zero_mul x, mul_zero x, one_mul x, mul_one x, zero_add x,
      add_zero x⟩⟩

/-- C11, amended, at the 2 x 3 sample grid of integers. -/
theorem identity_mul_both_witness :
    sample23.sto.length = sample23.nr * sample23.nc ∧ (0 : Int) + 0 = 0 ∧
    (∀ x ∈ sample23.sto, 0 * x = 0 ∧ x * 0 = 0 ∧ 1 * x = x ∧ x * 1 = x ∧ 0 + x = x ∧
      x + 0 = x) ∧
    (((identity sample23.nr).mul sample23 = Res.ok sample23 ∧
      sample23.mul (identity sample23.nc) = Res.ok sample23) ∧
    (∀ (S : Type) [Semiring S] (x : S), (0 : S) + 0 = 0 ∧ 0 * x = 0 ∧ x * 0 = 0 ∧
      1 * x = x ∧ x * 1 = x ∧ 0 + x = x ∧ x + 0 = x)) :=
  ⟨by decide, by decide,
    fun x _ => ⟨zero_mul x, mul_zero x, one_mul x, mul_one x, zero_add x, add_zero x⟩,
    identity_mul_both sample23 (by decide) (by decide)
      (fun x _ => ⟨zero_mul x, mul_zero x, one_mul x, mul_one x, zero_add x, add_zero x⟩)⟩

/-! ## Steal -/

/-- C12: for distinct grids `a` and `b`, each with sequence length equal to its
`nr * nc`, the steal `a << b` succeeds, leaves `a` with the row count, column
count and flat sequence that `b` had, and leaves `b` with dimensions `(0, 0)`
and an empty sequence; stealing a grid from itself succeeds and returns the
grid as it was, and can never return anything else. -/
theorem steal_moves [Zero T] (a b : grid T) (ha : a.sto.length = a.nr * a.nc)
    (hb : b.sto.length = b.nr * b.nc) :
    a.steal b = Res.ok (grid.mk b.nr b.nc b.sto, grid.mk 0 0 []) ∧
      a.stealSelf = Res.ok a ∧ ∀ g g' : grid T, g.stealSelf = Res.ok g' → g' = g := by
  have ia : a.invariant = true := invariant_of_WF a ha
  have ib : b.invariant = true := invariant_of_WF b hb
  refine ⟨?_, ?_, ?_⟩
  · have i2 : (grid.mk b.nr b.nc b.storage).invariant = true := invariant_of_WF _ hb
    have e0 : b.initnew 0 0 = { nr := 0, nc := 0, sto := [] } := by
      simp [initnew]
    have i0 : (grid.mk 0 0 ([] : List T)).invariant = true := by
      simp [invariant]
    simp only [steal, ia, ib, Bool.and_self, assert_true, Res.ok_bind, i2, e0, i0,
      Res.pure_eq, storage]
  · simp only [stealSelf, ia, Bool.and_self, assert_true, Res.ok_bind, Res.pure_eq]
  · intro g g' hg
    unfold stealSelf at hg
    cases hi : (g.invariant && g.invariant) with
    | false =>
      rw [hi] at hg
      simp only [assert_false, Res.err_bind] at hg
      cases hg
    | true =>
      rw [hi] at hg
      simp only [assert_true, Res.ok_bind, Res.pure_eq] at hg
      cases hg
      rfl

/-- C12 at the 2 x 3 sample grid stealing from the 3 x 2 sample grid. -/
theorem steal_moves_witness :
    sample23.sto.length = sample23.nr * sample23.nc ∧
    sample32.sto.length = sample32.nr * sample32.nc ∧
    (sample23.steal sample32 =
        Res.ok (grid.mk sample32.nr sample32.nc sample32.sto, grid.mk 0 0 []) ∧
      sample23.stealSelf = Res.ok sample23 ∧
      ∀ g g' : grid Int, g.stealSelf = Res.ok g' → g' = g) :=
  ⟨by decide, by decide, steal_moves sample23 sample32 (by decide) (by decide)⟩

/-! ## Resize, clear and the soft accessors -/

theorem init_keep [Zero T] (g : grid T) (r c : Nat)
    (h : r > 0 ∧ c > 0 ∧ r * c % sizeLimit ≤ g.nr * g.nc % sizeLimit ∧
      r * c * 2 % sizeLimit ≥ g.nr * g.nc % sizeLimit) :
    g.init r c = grid.mk r c g.sto := by
  unfold init
  rw [if_pos h]

theorem init_fresh [Zero T] (g : grid T) (r c : Nat)
    (h : ¬ (r > 0 ∧ c > 0 ∧ r * c % sizeLimit ≤ g.nr * g.nc % sizeLimit ∧
      r * c * 2 % sizeLimit ≥ g.nr * g.nc % sizeLimit)) :
    g.init r c = grid.mk r c (List.replicate (r * c % sizeLimit) 0) := by
  unfold init
  rw [if_neg h]
  simp [freegrid, initnew]

theorem sizeLimit_eq : sizeLimit = 2 ^ 64 := rfl

/-- C13 as stated fails when the product of the new sizes wraps: on the empty
grid, `init(2^32, 2^32)` computes `r * c = 0` in `size_t`, so the test
`r * c <= nr * nc && r * c * 2 >= nr * nc` holds and only the two counts are
changed; the claim's condition `r * c <= rows * cols` is false there, and the
grid is not left with `r * c` zero values but with an empty sequence (on which
`invariant()`, computed in `size_t`, holds). -/
theorem init_product_wraps :
    (mk0 : grid Int).sto.length = (mk0 : grid Int).nr * (mk0 : grid Int).nc ∧
      ¬ (2 ^ 32 * 2 ^ 32 ≤ (mk0 : grid Int).nr * (mk0 : grid Int).nc ∧
        2 ^ 32 * 2 ^ 32 * 2 ≥ (mk0 : grid Int).nr * (mk0 : grid Int).nc) ∧
      (mk0 : grid Int).init (2 ^ 32) (2 ^ 32) = grid.mk (2 ^ 32) (2 ^ 32) [] ∧
      ((mk0 : grid Int).init (2 ^ 32) (2 ^ 32)).sto.length ≠ 2 ^ 32 * 2 ^ 32 ∧
      ((mk0 : grid Int).init (2 ^ 32) (2 ^ 32)).invariant = true := by
  decide

/-- C13, amended: for a grid with sequence length equal to `nr * nc` (a
`size_t` value, hence below `2^64`) and `r > 0`, `c > 0` with
`r * c * 2 < 2^64`, so that no `size_t` product wraps: if `r * c <= nr * nc`
and `r * c * 2 >= nr * nc` then `init(r, c)` changes only the row and column
counts, to `r` and `c`, and keeps the flat sequence as it was; otherwise it
leaves `r` rows, `c` columns and a flat sequence of exactly `r * c` zero
values. -/
theorem init_branches [Zero T] (g : grid T) (h : g.sto.length = g.nr * g.nc)
    (hlen : g.sto.length < 2 ^ 64) (r c : Nat) (hr : 0 < r) (hc : 0 < c)
    (hrc : r * c * 2 < 2 ^ 64) :
    (r * c ≤ g.nr * g.nc ∧ r * c * 2 ≥ g.nr * g.nc →
      g.init r c = grid.mk r c g.sto) ∧
    (¬ (r * c ≤ g.nr * g.nc ∧ r * c * 2 ≥ g.nr * g.nc) →
      g.init r c = grid.mk r c (List.replicate (r * c) 0) ∧
      (g.init r c).sto.length = r * c ∧ ∀ x ∈ (g.init r c).sto, x = 0) := by
  have e1 : r * c % sizeLimit = r * c :=
    Nat.mod_eq_of_lt (by rw [sizeLimit_eq]; omega)
  have e2 : r * c * 2 % sizeLimit = r * c * 2 :=
    Nat.mod_eq_of_lt (by rw [sizeLimit_eq]; exact hrc)
  have e3 : g.nr * g.nc % sizeLimit = g.nr * g.nc :=
    Nat.mod_eq_of_lt (by rw [sizeLimit_eq, ← h]; exact hlen)
  constructor
  · intro hk
    exact init_keep g r c ⟨hr, hc, by rw [e1, e3]; exact hk.1, by rw [e2, e3]; exact hk.2⟩
  · intro hn
    have e := init_fresh g r c (fun hk => hn
      ⟨by rw [← e1, ← e3]; exact hk.2.2.1, by
        have := hk.2.2.2
        rw [e2, e3] at this
        exact this⟩)
    rw [e1] at e
    refine ⟨e, ?_, ?_⟩
    · rw [e]; simp
    · rw [e]
      intro x hx
      exact List.eq_of_mem_replicate hx

/-- C13, amended, at the 2 x 3 sample grid resized to 2 x 2, which keeps the
storage. -/
theorem init_branches_witness :
    sample23.sto.length = sample23.nr * sample23.nc ∧ sample23.sto.length < 2 ^ 64 ∧
    0 < 2 ∧ 2 * 2 * 2 < 2 ^ 64 ∧
    ((2 * 2 ≤ sample23.nr * sample23.nc ∧ 2 * 2 * 2 ≥ sample23.nr * sample23.nc →
      sample23.init 2 2 = grid.mk 2 2 sample23.sto) ∧
    (¬ (2 * 2 ≤ sample23.nr * sample23.nc ∧ 2 * 2 * 2 ≥ sample23.nr * sample23.nc) →
      sample23.init 2 2 = grid.mk 2 2 (List.replicate (2 * 2) 0) ∧
      (sample23.init 2 2).sto.length = 2 * 2 ∧ ∀ x ∈ (sample23.init 2 2).sto, x = 0)) :=
  ⟨by decide, by decide, by decide, by decide,
    init_branches sample23 (by decide) (by decide) 2 2 (by decide) (by decide) (by decide)⟩

/-- C14 as stated fails: `init(0, 5)` on the empty grid leaves 0 rows and an
empty sequence but 5 columns, which is not the empty grid. -/
theorem init_zero_rows_keeps_cols :
    (mk0 : grid Int).init 0 5 = grid.mk 0 5 [] ∧ ((mk0 : grid Int).init 0 5).cols = 5 ∧
      (mk0 : grid Int).init 0 5 ≠ mk0 := by
  decide

/-- C14, amended: for every grid and all `r`, `c` with `r = 0` or `c = 0`,
`init(r, c)` leaves a grid with `r` rows, `c` columns and an empty element
sequence; `init(0, 0)` leaves the empty grid. -/
theorem init_degenerate [Zero T] (g : grid T) (r c : Nat) (h : r = 0 ∨ c = 0) :
    g.init r c = grid.mk r c [] ∧ g.init 0 0 = mk0 := by
  have e1 : r * c = 0 := by
    rcases h with h | h <;> simp [h]
  constructor
  · rw [init_fresh g r c (by omega), e1]
    rfl
  · rw [init_fresh g 0 0 (by omega)]
    rfl

/-- C14, amended, at the 2 x 3 sample grid and `init(0, 5)`. -/
theorem init_degenerate_witness :
    ((0 : Nat) = 0 ∨ (5 : Nat) = 0) ∧
      (sample23.init 0 5 = grid.mk 0 5 [] ∧ sample23.init 0 0 = mk0) :=
  ⟨Or.inl rfl, init_degenerate sample23 0 5 (Or.inl rfl)⟩

/-- C15 as stated fails when the product of the new sizes wraps: on the empty
grid, `init(2^32, 2^32)` keeps the empty storage, `clear(7)` has nothing to
fill, and the checked access `(0, 0)` fails its assertion although `0 < 2^32`. -/
theorem init_clear_wraps :
    (mk0 : grid Int).sto.length = (mk0 : grid Int).nr * (mk0 : grid Int).nc ∧
      0 < 2 ^ 32 ∧
      ((mk0 : grid Int).init (2 ^ 32) (2 ^ 32)).clear 7 = grid.mk (2 ^ 32) (2 ^ 32) [] ∧
      (((mk0 : grid Int).init (2 ^ 32) (2 ^ 32)).clear 7).at2 0 0 =
        Res.err Fault.assertion := by
  decide

/-- C15, amended: for a grid with sequence length equal to `nr * nc`, all sizes
`r`, `c` with `r * c < 2^64`, so that the `size_t` product `r * c` does not
wrap, and every value `v`: after `init(r, c)` followed by `clear(v)`, the
checked access at every `(i, j)` with `i < r` and `j < c` succeeds and returns
`v`, in both branches of `init`. -/
theorem init_clear_access [Zero T] (g : grid T) (h : g.sto.length = g.nr * g.nc)
    (r c : Nat) (hrc : r * c < 2 ^ 64) (v : T) (i j : Nat) (hi : i < r) (hj : j < c) :
    ((g.init r c).clear v).at2 i j = Res.ok v := by
  have hlt : j * r + i < r * c := offset_lt hi hj
  have e1 : r * c % sizeLimit = r * c :=
    Nat.mod_eq_of_lt (by rw [sizeLimit_eq]; exact hrc)
  by_cases hk : r > 0 ∧ c > 0 ∧ r * c % sizeLimit ≤ g.nr * g.nc % sizeLimit ∧
      r * c * 2 % sizeLimit ≥ g.nr * g.nc % sizeLimit
  · have hle : g.nr * g.nc % sizeLimit ≤ g.nr * g.nc := Nat.mod_le _ _
    have hlen : j * r + i < g.sto.length := by
      have := hk.2.2.1
      rw [e1] at this
      omega
    rw [init_keep g r c hk]
    simp only [clear, at2, inrange, idx, List.length_replicate, List.getElem?_replicate]
    have hpos : g.sto.length > 0 := by omega
    simp [hi, hj, hpos, hlen]
  · rw [init_fresh g r c hk, e1]
    simp only [clear, at2, inrange, idx, List.length_replicate, List.getElem?_replicate]
    have hpos : r * c > 0 := by omega
    simp [hi, hj, hpos, hlt]

/-- C15, amended, at the 2 x 3 sample grid, resized to 2 x 2 and cleared with
9. -/
theorem init_clear_access_witness :
    sample23.sto.length = sample23.nr * sample23.nc ∧ 2 * 2 < 2 ^ 64 ∧ 1 < 2 ∧
      ((sample23.init 2 2).clear 9).at2 1 1 = Res.ok 9 :=
  ⟨by decide, by decide, by decide,
    init_clear_access sample23 (by decide) 2 2 (by decide) 9 1 1 (by decide) (by decide)⟩

/-- C16: for every grid and all indices `r`, `c`: when they are out of range
(`r >= nr`, or `c >= nc`, or the storage is empty) `get(r, c)` returns the zero
value without failing and `set(r, c, v)` returns the grid with its row count,
column count and every element unchanged; when they are in range `get(r, c)`
returns what the checked access `(r, c)` returns. -/
theorem soft_access [Zero T] (g : grid T) (r c : Nat) (v : T) :
    (g.nr ≤ r ∨ g.nc ≤ c ∨ g.sto.length = 0 →
      g.get r c = Res.ok 0 ∧ g.set r c v = Res.ok g) ∧
    (r < g.nr ∧ c < g.nc ∧ 0 < g.sto.length → g.get r c = g.at2 r c) := by
  constructor
  · intro hout
    have : g.inrange r c = false := by
      cases hb : g.inrange r c with
      | false => rfl
      | true =>
        simp only [inrange, Bool.and_eq_true, decide_eq_true_eq] at hb
        omega
    simp [get, set, this]
  · rintro ⟨h1, h2, h3⟩
    have : g.inrange r c = true := by
      simp only [inrange, Bool.and_eq_true, decide_eq_true_eq]
      exact ⟨⟨h1, h2⟩, h3⟩
    simp [get, this]

/-- C16 at the 2 x 3 sample grid and the out-of-range indices `(5, 5)`. -/
theorem soft_access_witness :
    (sample23.nr ≤ 5 ∨ sample23.nc ≤ 5 ∨ sample23.sto.length = 0 →
      sample23.get 5 5 = Res.ok 0 ∧ sample23.set 5 5 1 = Res.ok sample23) ∧
    (5 < sample23.nr ∧ 5 < sample23.nc ∧ 0 < sample23.sto.length →
      sample23.get 5 5 = sample23.at2 5 5) :=
  soft_access sample23 5 5 1

/-! ## Subgrid -/

/-- C17, evaluated at an input where it fails: the source is the 3 x 1 grid
`7, 8, 9`, the destination a 2 x 2 grid, both satisfying the storage invariant,
and the window is the whole source.  `init(3, 1)` keeps the four elements of
the destination, the three source elements are copied, and the final
`assert(invariant() && m->invariant())` of `subgrid` fails. -/
theorem subgrid_final_assertion_fails :
    sampleCol.sto.length = sampleCol.nr * sampleCol.nc ∧
      (mk2 2 2 : grid Int).sto.length = (mk2 2 2 : grid Int).nr * (mk2 2 2 : grid Int).nc ∧
      (0 : Int) + 3 ≤ sampleCol.rows ∧ (0 : Int) + 1 ≤ sampleCol.cols ∧
      (mk2 2 2 : grid Int).init 3 1 = grid.mk 3 1 [0, 0, 0, 0] ∧
      sampleCol.subgrid (mk2 2 2) 0 0 3 1 = Res.err Fault.assertion := by
  decide

/-! ## Pixel counters -/

/-- C20, evaluated at an input where it fails: on the 2 x 1 grid holding two
zeros, `offpixels` returns 1 although two elements are zero, and `onpixels`
returns 1 although no element differs from zero. -/
theorem offpixels_counts_first_only :
    zeroCol.sto.length = zeroCol.nr * zeroCol.nc ∧ zeroCol.zeroCount = 2 ∧
      zeroCol.offpixels = Res.ok 1 ∧ zeroCol.onpixels = Res.ok 1 ∧
      (zeroCol.sto.filter (fun x => x ≠ 0)).length = 0 := by
  decide

/-! ## Scaling and range transform -/

theorem entry_map [Zero T] (f : T → T) (g : grid T) (h : g.WF) (r c : Nat)
    (hr : r < g.nr) (hc : c < g.nc) :
    (grid.mk g.nr g.nc (g.sto.map f)).entry r c = f (g.entry r c) := by
  have hlt : c * g.nr + r < g.sto.length := by
    rw [h]; exact offset_lt hr hc
  simp only [entry, List.getD_eq_getElem?_getD, List.getElem?_map,
    List.getElem?_eq_getElem hlt, Option.map_some', Option.getD_some]

/-- The two nested loops that rewrite every element `x` in place as `f x`. -/
theorem mapLoop_ok [Zero T] (f : T → T) (g : grid T) (h : g.WF) :
    forLoop 0 g.nr (fun i s =>
      forLoop 0 g.nc (fun j s => do
        let x ← s.at2 i j
        s.put2 i j (f x)) s) g = Res.ok (grid.mk g.nr g.nc (g.sto.map f)) := by
  have houter := forLoop_inv 0 g.nr
    (fun i s => forLoop 0 g.nc (fun j s => do
      let x ← s.at2 i j
      s.put2 i j (f x)) s)
    (fun i (s : grid T) => s.nr = g.nr ∧ s.nc = g.nc ∧ s.WF ∧
      ∀ r c, r < g.nr → c < g.nc → s.entry r c =
        if r < i then f (g.entry r c) else g.entry r c)
    g (Nat.zero_le _)
    ⟨rfl, rfl, h, fun r c _ _ => by rw [if_neg (Nat.not_lt_zero r)]⟩
    (by
      intro i s _ hi ⟨snr, snc, swf, sent⟩
      have hinner := forLoop_inv 0 g.nc
        (fun j s => do
          let x ← s.at2 i j
          s.put2 i j (f x))
        (fun j (u : grid T) => u.nr = g.nr ∧ u.nc = g.nc ∧ u.WF ∧
          ∀ r c, r < g.nr → c < g.nc → u.entry r c =
            if r < i ∨ (r = i ∧ c < j) then f (g.entry r c) else g.entry r c)
        s (Nat.zero_le _)
        ⟨snr, snc, swf, by
          intro r c hr hc
          rw [sent r c hr hc]
          by_cases e : r < i
          · rw [if_pos e, if_pos (Or.inl e)]
          · have : ¬ (r < i ∨ (r = i ∧ c < 0)) := by omega
            rw [if_neg e, if_neg this]⟩
        (by
          intro j u _ hj ⟨unr, unc, uwf, uent⟩
          have hi' : i < u.nr := by omega
          have hj' : j < u.nc := by omega
          have e0 : u.entry i j = g.entry i j := by
            rw [uent i j hi hj]
            have : ¬ (i < i ∨ (i = i ∧ j < j)) := by omega
            rw [if_neg this]
          refine ⟨u.upd i j (f (g.entry i j)), ?_, unr, unc, upd_WF uwf _ _ _, ?_⟩
          · simp only [at2_eq uwf hi' hj', Res.ok_bind, e0]
            exact put2_eq uwf hi' hj' _
          · intro r c hr hc
            rw [entry_upd uwf hi' hj' (by omega) (by omega)]
            by_cases e : r = i ∧ c = j
            · obtain ⟨rfl, rfl⟩ := e
              have : r < r ∨ (r = r ∧ c < c + 1) := by omega
              rw [if_pos ⟨rfl, rfl⟩, if_pos this]
            · rw [if_neg e, uent r c hr hc]
              by_cases e2 : r < i ∨ (r = i ∧ c < j)
              · have : r < i ∨ (r = i ∧ c < j + 1) := by omega
                rw [if_pos e2, if_pos this]
              · have : ¬ (r < i ∨ (r = i ∧ c < j + 1)) := by omega
                rw [if_neg e2, if_neg this])
      obtain ⟨u, hu, unr, unc, uwf, uent⟩ := hinner
      refine ⟨u, hu, unr, unc, uwf, ?_⟩
      intro r c hr hc
      rw [uent r c hr hc]
      by_cases e : r < i ∨ (r = i ∧ c < g.nc)
      · have : r < i + 1 := by omega
        rw [if_pos e, if_pos this]
      · have : ¬ r < i + 1 := by omega
        rw [if_neg e, if_neg this])
  obtain ⟨s, hs, snr, snc, swf, sent⟩ := houter
  rw [hs]
  congr 1
  have hwf' : (grid.mk g.nr g.nc (g.sto.map f)).WF := by
    simp only [WF, List.length_map]
    exact h
  apply ext_entry swf hwf' snr snc
  intro r c hr hc
  rw [sent r c (by omega) (by omega), if_pos (by omega), entry_map f g h r c (by omega)
    (by omega)]

theorem foldl_max_spec [LinearOrder T] :
    ∀ (xs : List T) (x : T),
      xs.foldl (fun m y => if m < y then y else m) x ∈ x :: xs ∧
        ∀ y ∈ x :: xs, y ≤ xs.foldl (fun m y => if m < y then y else m) x
  | [], x => by simp
  | z :: zs, x => by
    obtain ⟨h1, h2⟩ := foldl_max_spec zs (if x < z then z else x)
    simp only [List.foldl_cons]
    constructor
    · rcases List.mem_cons.mp h1 with h | h
      · rw [h]
        by_cases e : x < z
        · rw [if_pos e]; simp
        · rw [if_neg e]; simp
      · exact List.mem_cons_of_mem _ (List.mem_cons_of_mem _ h)
    · intro y hy
      have hstart := h2 (if x < z then z else x) (List.mem_cons_self _ _)
      rcases List.mem_cons.mp hy with h | h
      · rw [h]
        refine le_trans ?_ hstart
        by_cases e : x < z
        · rw [if_pos e]; exact le_of_lt e
        · rw [if_neg e]
      · rcases List.mem_cons.mp h with h' | h'
        · rw [h']
          refine le_trans ?_ hstart
          by_cases e : x < z
          · rw [if_pos e]
          · rw [if_neg e]; exact not_lt.mp e
        · exact h2 y (List.mem_cons_of_mem _ h')

theorem foldl_min_spec [LinearOrder T] :
    ∀ (xs : List T) (x : T),
      xs.foldl (fun m y => if y < m then y else m) x ∈ x :: xs ∧
        ∀ y ∈ x :: xs, xs.foldl (fun m y => if y < m then y else m) x ≤ y
  | [], x => by simp
  | z :: zs, x => by
    obtain ⟨h1, h2⟩ := foldl_min_spec zs (if z < x then z else x)
    simp only [List.foldl_cons]
    constructor
    · rcases List.mem_cons.mp h1 with h | h
      · rw [h]
        by_cases e : z < x
        · rw [if_pos e]; simp
        · rw [if_neg e]; simp
      · exact List.mem_cons_of_mem _ (List.mem_cons_of_mem _ h)
    · intro y hy
      have hstart := h2 (if z < x then z else x) (List.mem_cons_self _ _)
      rcases List.mem_cons.mp hy with h | h
      · rw [h]
        refine le_trans hstart ?_
        by_cases e : z < x
        · rw [if_pos e]; exact le_of_lt e
        · rw [if_neg e]
      · rcases List.mem_cons.mp h with h' | h'
        · rw [h']
          refine le_trans hstart ?_
          by_cases e : z < x
          · rw [if_pos e]
          · rw [if_neg e]; exact not_lt.mp e
        · exact h2 y (List.mem_cons_of_mem _ h')

/-- On a non-empty storage `max_element` returns an element that is the largest. -/
theorem maxElem_spec [LinearOrder T] (l : List T) (h : 0 < l.length) :
    ∃ mx, maxElem l = Res.ok mx ∧ mx ∈ l ∧ ∀ y ∈ l, y ≤ mx := by
  cases l with
  | nil => simp at h
  | cons x xs =>
    obtain ⟨h1, h2⟩ := foldl_max_spec xs x
    exact ⟨_, rfl, h1, h2⟩

/-- On a non-empty storage `min_element` returns an element that is the smallest. -/
theorem minElem_spec [LinearOrder T] (l : List T) (h : 0 < l.length) :
    ∃ mn, minElem l = Res.ok mn ∧ mn ∈ l ∧ ∀ y ∈ l, mn ≤ y := by
  cases l with
  | nil => simp at h
  | cons x xs =>
    obtain ⟨h1, h2⟩ := foldl_min_spec xs x
    exact ⟨_, rfl, h1, h2⟩

theorem foldl_select_mem (f : T → T → T) (hf : ∀ m y, f m y = m ∨ f m y = y) :
    ∀ (xs : List T) (x : T), xs.foldl f x ∈ x :: xs
  | [], x => by simp
  | z :: zs, x => by
    simp only [List.foldl_cons]
    have h := foldl_select_mem f hf zs (f x z)
    rcases List.mem_cons.mp h with h1 | h1
    · rw [h1]
      rcases hf x z with e | e <;> rw [e] <;> simp
    · exact List.mem_cons_of_mem _ (List.mem_cons_of_mem _ h1)

/-- Whatever the comparison of the element type, `max_element` on a non-empty
range returns one of its elements. -/
theorem maxElem_mem [LT T] [DecidableRel (fun (a b : T) => a < b)] (l : List T)
    (h : 0 < l.length) : ∃ mx, maxElem l = Res.ok mx ∧ mx ∈ l := by
  cases l with
  | nil => simp at h
  | cons x xs =>
    refine ⟨_, rfl, foldl_select_mem _ ?_ xs x⟩
    intro m y
    by_cases e : m < y
    · right; rw [if_pos e]
    · left; rw [if_neg e]

/-- Whatever the comparison of the element type, `min_element` on a non-empty
range returns one of its elements. -/
theorem minElem_mem [LT T] [DecidableRel (fun (a b : T) => a < b)] (l : List T)
    (h : 0 < l.length) : ∃ mn, minElem l = Res.ok mn ∧ mn ∈ l := by
  cases l with
  | nil => simp at h
  | cons x xs =>
    refine ⟨_, rfl, foldl_select_mem _ ?_ xs x⟩
    intro m y
    by_cases e : y < m
    · right; rw [if_pos e]
    · left; rw [if_neg e]

theorem maxElem_nonempty [LT T] [DecidableRel (fun (a b : T) => a < b)] (l : List T)
    (mx : T) (h : maxElem l = Res.ok mx) : 0 < l.length := by
  cases l with
  | nil => cases h
  | cons x xs => simp

theorem minElem_nonempty [LT T] [DecidableRel (fun (a b : T) => a < b)] (l : List T)
    (mn : T) (h : minElem l = Res.ok mn) : 0 < l.length := by
  cases l with
  | nil => cases h
  | cons x xs => simp

/-- In a linear order the element returned by `max_element` is the maximum. -/
theorem maxElem_max [LinearOrder T] (l : List T) (mx : T) (h : maxElem l = Res.ok mx) :
    mx ∈ l ∧ ∀ y ∈ l, y ≤ mx := by
  obtain ⟨m, hm, hmem, hmax⟩ := maxElem_spec l (maxElem_nonempty l mx h)
  rw [hm] at h
  cases h
  exact ⟨hmem, hmax⟩

/-- In a linear order the element returned by `min_element` is the minimum. -/
theorem minElem_min [LinearOrder T] (l : List T) (mn : T) (h : minElem l = Res.ok mn) :
    mn ∈ l ∧ ∀ y ∈ l, mn ≤ y := by
  obtain ⟨m, hm, hmem, hmin⟩ := minElem_spec l (minElem_nonempty l mn h)
  rw [hm] at h
  cases h
  exact ⟨hmem, hmin⟩

/-- C18 as stated fails for `double` elements: on the 1 x 1 grid holding `3.0`,
whose maximum `3.0` is positive, `scale(0.1)` stores `3.0 * 0.1 / 3.0`, which
rounds to `0.10000000000000002`, the `double` next above `0.1`: the element
that held the maximum does not become `val`. -/
theorem scale_rounding :
    dblThree.sto.length = dblThree.nr * dblThree.nc ∧
      maxElem dblThree.sto = Res.ok (Dbl.ofQ false 3 1) ∧
      (0 : Dbl) < Dbl.ofQ false 3 1 ∧
      Dbl.ofQ false 1 10 = Dbl.mk false 1019 2702159776422298 ∧
      dblThree.scale (Dbl.ofQ false 1 10) =
        Res.ok (grid.mk 1 1 [Dbl.mk false 1019 2702159776422299]) ∧
      dblThree.scale (Dbl.ofQ false 1 10) ≠ Res.ok (grid.mk 1 1 [Dbl.ofQ false 1 10]) := by
  decide!

/-- C18, amended: for a grid over any element type whose sequence length equals
`nr * nc`, and every `val`: when the grid is empty `scale(val)` returns it
unchanged; otherwise, with `mx` the element that `max_element` returns,
`scale(val)` returns the grid unchanged if `mx <= 0`, and else it keeps the
dimensions and replaces every element `x` by `x * val / mx` as the element type
computes it.  In exact arithmetic (an ordered field) `mx` is the maximum
element, and when it is positive an element equal to `mx` becomes exactly
`val`. -/
theorem scale_elements [LT T] [DecidableRel (fun (a b : T) => a < b)] [LE T]
    [DecidableRel (fun (a b : T) => a ≤ b)] [Zero T] [Mul T] [Div T] (g : grid T)
    (h : g.sto.length = g.nr * g.nc) (val : T) :
    (g.nr = 0 ∨ g.nc = 0 → g.scale val = Res.ok g) ∧
    (¬ (g.nr = 0 ∨ g.nc = 0) → ∃ mx, maxElem g.sto = Res.ok mx ∧ mx ∈ g.sto ∧
      (mx ≤ 0 → g.scale val = Res.ok g) ∧
      (¬ mx ≤ 0 → g.scale val =
        Res.ok (grid.mk g.nr g.nc (g.sto.map (fun x => x * val / mx))))) ∧
    (∀ (S : Type) [LinearOrderedField S] (l : List S) (mx v : S),
      maxElem l = Res.ok mx →
        (mx ∈ l ∧ ∀ y ∈ l, y ≤ mx) ∧ (¬ mx ≤ 0 ↔ 0 < mx) ∧ (0 < mx → mx * v / mx = v)) := by
  refine ⟨?_, ?_, ?_⟩
  · intro he
    have : g.rows = 0 ∨ g.cols = 0 := he
    simp only [scale, if_pos this, Res.pure_eq]
  · intro hne
    have hne' : ¬ (g.rows = 0 ∨ g.cols = 0) := hne
    have hpos : 0 < g.sto.length := by
      rw [h]
      exact Nat.mul_pos (by omega) (by omega)
    obtain ⟨mx, hmx, hmem⟩ := maxElem_mem g.sto hpos
    refine ⟨mx, hmx, hmem, ?_, ?_⟩
    · intro hle
      simp only [scale, if_neg hne', hmx, Res.ok_bind, if_pos hle, Res.pure_eq]
    · intro hnle
      simp only [scale, if_neg hne', hmx, Res.ok_bind, if_neg hnle]
      exact mapLoop_ok (fun x => x * val / mx) g h
  · intro S _ l mx v hmx
    exact ⟨maxElem_max l mx hmx, not_le, fun hgt => mul_div_cancel_left₀ v (ne_of_gt hgt)⟩

/-- C18, amended, at the 2 x 2 rational grid `1, 2, 4, 3` scaled to 10. -/
theorem scale_elements_witness :
    sampleQ22.sto.length = sampleQ22.nr * sampleQ22.nc ∧
    ((sampleQ22.nr = 0 ∨ sampleQ22.nc = 0 → sampleQ22.scale 10 = Res.ok sampleQ22) ∧
    (¬ (sampleQ22.nr = 0 ∨ sampleQ22.nc = 0) → ∃ mx, maxElem sampleQ22.sto = Res.ok mx ∧
      mx ∈ sampleQ22.sto ∧
      (mx ≤ 0 → sampleQ22.scale 10 = Res.ok sampleQ22) ∧
      (¬ mx ≤ 0 → sampleQ22.scale 10 =
        Res.ok (grid.mk sampleQ22.nr sampleQ22.nc
          (sampleQ22.sto.map (fun x => x * 10 / mx))))) ∧
    (∀ (S : Type) [LinearOrderedField S] (l : List S) (mx v : S),
      maxElem l = Res.ok mx →
        (mx ∈ l ∧ ∀ y ∈ l, y ≤ mx) ∧ (¬ mx ≤ 0 ↔ 0 < mx) ∧
          (0 < mx → mx * v / mx = v))) :=
  ⟨by decide, scale_elements sampleQ22 (by decide) 10⟩

/-- C19 as stated fails for `double` elements: on the 2 x 1 grid holding `0.0`
and `3.0` (minimum `0.0`, maximum `3.0`), `transform(0.0, 0.1)` stores
`(3.0 - 0.0) * (0.1 - 0.0) / (3.0 - 0.0) + 0.0` in place of the maximum, which
rounds to `0.10000000000000002`, the `double` next above `0.1`: the element
that held the maximum does not become `val2`. -/
theorem transform_rounding :
    dblZeroThree.sto.length = dblZeroThree.nr * dblZeroThree.nc ∧
      minElem dblZeroThree.sto = Res.ok 0 ∧
      maxElem dblZeroThree.sto = Res.ok (Dbl.ofQ false 3 1) ∧
      (0 : Dbl) < Dbl.ofQ false 3 1 ∧
      Dbl.ofQ false 1 10 = Dbl.mk false 1019 2702159776422298 ∧
      dblZeroThree.transform 0 (Dbl.ofQ false 1 10) =
        Res.ok (grid.mk 2 1 [0, Dbl.mk false 1019 2702159776422299]) ∧
      dblZeroThree.transform 0 (Dbl.ofQ false 1 10) ≠
        Res.ok (grid.mk 2 1 [0, Dbl.ofQ false 1 10]) := by
  decide!

/-- C19, amended: for a non-empty grid over any element type whose sequence
length equals `nr * nc`, with `mn` and `mx` the elements that `min_element` and
`max_element` return, and all `val1`, `val2`: `transform(val1, val2)` returns a
grid of the same dimensions; if the range `mx - mn`, as the element type
computes it, is positive, every element `x` is replaced by
`(x - mn) * (val2 - val1) / (mx - mn) + val1` as the element type computes it;
otherwise the whole grid is filled with `val1` when `mn < val1`, else with
`val2` when `mx > val2`, else it is left unchanged.  In exact arithmetic (an
ordered field) `mn` and `mx` are the minimum and the maximum, the range is
positive exactly when `mn < mx` and not positive exactly when `mn = mx`, and
the formula sends `mn` to `val1` and `mx` to `val2`. -/
theorem transform_elements [LT T] [DecidableRel (fun (a b : T) => a < b)] [Zero T]
    [Add T] [Sub T] [Mul T] [Div T] (g : grid T) (h : g.sto.length = g.nr * g.nc)
    (hnr : 0 < g.nr) (hnc : 0 < g.nc) (val1 val2 : T) :
    (∃ mn mx, minElem g.sto = Res.ok mn ∧ maxElem g.sto = Res.ok mx ∧ mn ∈ g.sto ∧
      mx ∈ g.sto ∧
      (∃ g', g.transform val1 val2 = Res.ok g' ∧ g'.nr = g.nr ∧ g'.nc = g.nc) ∧
      (mx - mn > 0 →
        g.transform val1 val2 = Res.ok (grid.mk g.nr g.nc
          (g.sto.map (fun x => (x - mn) * (val2 - val1) / (mx - mn) + val1)))) ∧
      (¬ mx - mn > 0 →
        (mn < val1 → g.transform val1 val2 = Res.ok (g.clear val1)) ∧
        (¬ mn < val1 → mx > val2 → g.transform val1 val2 = Res.ok (g.clear val2)) ∧
        (¬ mn < val1 → ¬ mx > val2 → g.transform val1 val2 = Res.ok g))) ∧
    (∀ (S : Type) [LinearOrderedField S] (l : List S) (mn mx v1 v2 : S),
      minElem l = Res.ok mn → maxElem l = Res.ok mx →
        (∀ y ∈ l, mn ≤ y ∧ y ≤ mx) ∧ (mx - mn > 0 ↔ mn < mx) ∧
          (¬ mx - mn > 0 ↔ mn = mx) ∧
          (mn < mx → (mn - mn) * (v2 - v1) / (mx - mn) + v1 = v1 ∧
            (mx - mn) * (v2 - v1) / (mx - mn) + v1 = v2)) := by
  constructor
  · have hne : ¬ (g.rows = 0 ∨ g.cols = 0) := by
      simp only [rows, cols]; omega
    have hpos : 0 < g.sto.length := by
      rw [h]
      exact Nat.mul_pos hnr hnc
    have hinv : g.invariant = true := invariant_of_WF g h
    obtain ⟨mx, hmx, hmxmem⟩ := maxElem_mem g.sto hpos
    obtain ⟨mn, hmn, hmnmem⟩ := minElem_mem g.sto hpos
    have hmap : ∀ f : T → T, (grid.mk g.nr g.nc (g.sto.map f)).invariant = true := by
      intro f
      apply invariant_of_WF
      simp only [WF, List.length_map]
      exact h
    have hclr : ∀ v : T, (g.clear v).invariant = true := by
      intro v
      apply invariant_of_WF
      simp only [WF, clear, List.length_replicate]
      exact h
    have hrange : mx - mn > 0 → g.transform val1 val2 = Res.ok (grid.mk g.nr g.nc
        (g.sto.map (fun x => (x - mn) * (val2 - val1) / (mx - mn) + val1))) := by
      intro hr
      simp only [transform, if_neg hne, hmn, hmx, Res.ok_bind, if_pos hr]
      rw [mapLoop_ok (fun x => (x - mn) * (val2 - val1) / (mx - mn) + val1) g h]
      simp only [Res.ok_bind, hmap, assert_true, Res.pure_eq]
    have hflat1 : ¬ mx - mn > 0 → mn < val1 →
        g.transform val1 val2 = Res.ok (g.clear val1) := by
      intro hr h1
      simp only [transform, if_neg hne, hmn, hmx, Res.ok_bind, if_neg hr, if_pos h1,
        Res.pure_eq, hclr, assert_true]
    have hflat2 : ¬ mx - mn > 0 → ¬ mn < val1 → mx > val2 →
        g.transform val1 val2 = Res.ok (g.clear val2) := by
      intro hr h1 h2
      simp only [transform, if_neg hne, hmn, hmx, Res.ok_bind, if_neg hr, if_neg h1,
        if_pos h2, Res.pure_eq, hclr, assert_true]
    have hflat3 : ¬ mx - mn > 0 → ¬ mn < val1 → ¬ mx > val2 →
        g.transform val1 val2 = Res.ok g := by
      intro hr h1 h2
      simp only [transform, if_neg hne, hmn, hmx, Res.ok_bind, if_neg hr, if_neg h1,
        if_neg h2, Res.pure_eq, hinv, assert_true]
    refine ⟨mn, mx, hmn, hmx, hmnmem, hmxmem, ?_, hrange,
      fun hr => ⟨hflat1 hr, hflat2 hr, hflat3 hr⟩⟩
    by_cases hr : mx - mn > 0
    · exact ⟨_, hrange hr, rfl, rfl⟩
    · by_cases h1 : mn < val1
      · exact ⟨_, hflat1 hr h1, rfl, rfl⟩
      · by_cases h2 : mx > val2
        · exact ⟨_, hflat2 hr h1 h2, rfl, rfl⟩
        · exact ⟨_, hflat3 hr h1 h2, rfl, rfl⟩
  · intro S _ l mn mx v1 v2 hmn hmx
    obtain ⟨hmnmem, hmin⟩ := minElem_min l mn hmn
    obtain ⟨_, hmax⟩ := maxElem_max l mx hmx
    have hle : mn ≤ mx := hmax mn hmnmem
    refine ⟨fun y hy => ⟨hmin y hy, hmax y hy⟩, sub_pos, ?_, ?_⟩
    · constructor
      · intro hn
        exact le_antisymm hle (sub_nonpos.mp (not_lt.mp hn))
      · intro he
        rw [he, sub_self]
        exact lt_irrefl 0
    · intro hlt
      have hr : mx - mn ≠ 0 := ne_of_gt (sub_pos.mpr hlt)
      constructor
      · rw [sub_self, zero_mul, zero_div, zero_add]
      · rw [mul_div_cancel_left₀ _ hr, sub_add_cancel]

/-- C19, amended, at the 2 x 2 rational grid `1, 2, 4, 3` mapped onto the range
`[0, 1]`. -/
theorem transform_elements_witness :
    sampleQ22.sto.length = sampleQ22.nr * sampleQ22.nc ∧ 0 < sampleQ22.nr ∧
    0 < sampleQ22.nc ∧
    ((∃ mn mx, minElem sampleQ22.sto = Res.ok mn ∧ maxElem sampleQ22.sto = Res.ok mx ∧
      mn ∈ sampleQ22.sto ∧ mx ∈ sampleQ22.sto ∧
      (∃ g', sampleQ22.transform 0 1 = Res.ok g' ∧ g'.nr = sampleQ22.nr ∧
        g'.nc = sampleQ22.nc) ∧
      (mx - mn > 0 →
        sampleQ22.transform 0 1 = Res.ok (grid.mk sampleQ22.nr sampleQ22.nc
          (sampleQ22.sto.map (fun x => (x - mn) * (1 - 0) / (mx - mn) + 0)))) ∧
      (¬ mx - mn > 0 →
        (mn < 0 → sampleQ22.transform 0 1 = Res.ok (sampleQ22.clear 0)) ∧
        (¬ mn < 0 → mx > 1 → sampleQ22.transform 0 1 = Res.ok (sampleQ22.clear 1)) ∧
        (¬ mn < 0 → ¬ mx > 1 → sampleQ22.transform 0 1 = Res.ok sampleQ22))) ∧
    (∀ (S : Type) [LinearOrderedField S] (l : List S) (mn mx v1 v2 : S),
      minElem l = Res.ok mn → maxElem l = Res.ok mx →
        (∀ y ∈ l, mn ≤ y ∧ y ≤ mx) ∧ (mx - mn > 0 ↔ mn < mx) ∧
          (¬ mx - mn > 0 ↔ mn = mx) ∧
          (mn < mx → (mn - mn) * (v2 - v1) / (mx - mn) + v1 = v1 ∧
            (mx - mn) * (v2 - v1) / (mx - mn) + v1 = v2))) :=
  ⟨by decide, by decide, by decide,
    transform_elements sampleQ22 (by decide) (by decide) (by decide) 0 1⟩

/-! ## Quicksort on a grid without rows -/

/-- The first step of `sort(col)` with the default bounds on a grid without
rows: the bounds are `left = 0` and `right = -1`, the pivot row is
`(0 + -1) / 2 = 0`, and the checked read of row 0 fails its assertion. -/
theorem sort_no_rows [LT T] [DecidableRel (fun (a b : T) => a < b)] (g : grid T)
    (h : g.nr = 0) (col : Nat) :
    g.sort col = sortAux col 1 g 0 (-1) ∧ g.inrange 0 col = false ∧
      g.atI (Int.tdiv (0 + -1) 2) col = Res.err Fault.assertion ∧
      sortAux col 1 g 0 (-1) = Res.err Fault.assertion := by
  have hr : g.inrange 0 col = false := by
    simp [inrange, h]
  have hd : Int.tdiv (0 + -1) 2 = 0 := by decide
  have ha : g.atI (Int.tdiv (0 + -1) 2) col = Res.err Fault.assertion := by
    rw [hd]
    simp [atI, at2, hr]
  refine ⟨?_, hr, ha, ?_⟩
  · have e := sortAux_default col 0 g
    rw [h] at e
    unfold sort
    rw [h]
    exact e
  · have h2 : ¬ ((0 : Int) = -1 ∧ True) := by omega
    simp only [sortAux, if_neg h2, ha, Res.err_bind]

/-- C21: for every grid with zero rows, whatever its column count and its
stored elements, and every column index `col`, the call `sort(col)` with the
default bounds runs with `left = 0` and `right = rows - 1 = -1`, reads the
pivot at row `(left + right) / 2 = 0` first, that read is out of range
(`inrange(0, col)` is false), and the call ends in the failed bounds assertion;
in particular it does not return the grid unchanged. -/
theorem sort_zero_rows_fails [LT T] [DecidableRel (fun (a b : T) => a < b)] (g : grid T)
    (h : g.nr = 0) (col : Nat) :
    (g.rows : Int) - 1 = -1 ∧ g.sort col = sortAux col 1 g 0 ((g.rows : Int) - 1) ∧
      Int.tdiv (0 + ((g.rows : Int) - 1)) 2 = 0 ∧ g.inrange 0 col = false ∧
      g.atI (Int.tdiv (0 + ((g.rows : Int) - 1)) 2) col = Res.err Fault.assertion ∧
      g.sort col = Res.err Fault.assertion ∧ g.sort col ≠ Res.ok g := by
  obtain ⟨h1, h2, h3, h4⟩ := sort_no_rows g h col
  have hrows : (g.rows : Int) - 1 = -1 := by
    simp [rows, h]
  have hs : g.sort col = Res.err Fault.assertion := by rw [h1, h4]
  rw [hrows]
  refine ⟨rfl, h1, by decide, h2, h3, hs, ?_⟩
  rw [hs]
  intro hc
  cases hc

/-- C21 at the integer grid with 0 rows and 2 columns, sorted by column 0. -/
theorem sort_zero_rows_fails_witness :
    zeroRows.nr = 0 ∧
    ((zeroRows.rows : Int) - 1 = -1 ∧
      zeroRows.sort 0 = sortAux 0 1 zeroRows 0 ((zeroRows.rows : Int) - 1) ∧
      Int.tdiv (0 + ((zeroRows.rows : Int) - 1)) 2 = 0 ∧ zeroRows.inrange 0 0 = false ∧
      zeroRows.atI (Int.tdiv (0 + ((zeroRows.rows : Int) - 1)) 2) 0 =
        Res.err Fault.assertion ∧
      zeroRows.sort 0 = Res.err Fault.assertion ∧ zeroRows.sort 0 ≠ Res.ok zeroRows) :=
  ⟨rfl, sort_zero_rows_fails zeroRows rfl 0⟩

end grid

end GridSpec
